import Mathlib

/-! Taebak: the lexer and the statement interpreter of `Src/main.cpp`.

A shallow embedding of `Lexer` and `Compiler` from `Src/main.cpp`, followed by
theorems about them.

Conventions of the embedding.

* A `std::string` is a `List Char`; one `Char` stands for one byte of the
  source file.  `isspace` and `isalnum` are those of the "C" locale.
* `int` is a 32-bit signed integer, kept as an `Int` inside
  `[-2^31, 2^31)`; arithmetic that leaves the range wraps (`wrap32`).
* A C++ exception that nothing catches ends the run: functions that can raise
  return `Except Exn _`.
* The streams `cerr` and `cout` are lists of the messages written to them, and
  `output` is the sequence of characters handed to `outputFile`, in the order in
  which they were written.  A nested `compile()` opens a stream of its own on
  the same file; its characters are recorded in the same sequence, and what the
  file holds while two streams are open on it is not part of the embedding.
* Loops and recursion of the source are bounded by a fuel argument.  Where the
  source loop always ends (the lexer, `skipToElse`) the fuel is computed from
  the unread input and is never the reason to stop; `compile` can really
  recurse for ever and reports `Run.fuelOut` when its fuel is spent.
-/

namespace Taebak

/-! ## Tokens -/

/-- Token kinds, `enum TokenType`. -/
inductive TokenType where
  | TEXT
  | VAR_DECL
  | VAR_ASSIGN
  | ADD
  | SUB
  | MUL
  | DIV
  | MOD
  | END
  | IF
  | ELSE
  | FOR
  | ELSEIF
  | IMPORT
  deriving DecidableEq, Repr

/-- A token, `struct Token`. -/
structure Token where
  type : TokenType
  value : List Char
  deriving DecidableEq, Repr

/-- Exceptions the program raises and never catches. -/
inductive Exn where
  /-- `invalid_argument("Unexpected token.")`, raised by the lexer. -/
  | unexpectedToken
  /-- `invalid_argument` raised by `stoi`: no digits to convert. -/
  | stoiInvalidArgument
  /-- `out_of_range` raised by `stoi`: the number does not fit an `int`. -/
  | stoiOutOfRange
  deriving DecidableEq, Repr

deriving instance DecidableEq for Except

/-! ## Character classes of the C library ("C" locale) -/

/-- The `isspace` of `<cctype>`: space, `\t`, `\n`, `\v`, `\f`, `\r`. -/
def isspace (c : Char) : Bool :=
  c.toNat = 32 || (9 ≤ c.toNat && c.toNat ≤ 13)

/-- The `isdigit` of `<cctype>`. -/
def isdigit (c : Char) : Bool :=
  48 ≤ c.toNat && c.toNat ≤ 57

/-- The `isalnum` of `<cctype>`: a decimal digit or an ASCII letter. -/
def isalnum (c : Char) : Bool :=
  isdigit c || (65 ≤ c.toNat && c.toNat ≤ 90) || (97 ≤ c.toNat && c.toNat ≤ 122)

/-! ## Lexer -/

/-- The members of `class Lexer`. -/
structure Lexer where
  input : List Char
  position : Nat
  deriving DecidableEq, Repr

/-- The constructor `Lexer(const string& input)`. -/
def Lexer.new (input : List Char) : Lexer :=
  { input := input, position := 0 }

/-- The keyword loop of `getNextToken`,
`for (char c : keyword) if (position >= input.length() || input[position++] != c) throw ...`:
the position after the loop, or the exception. -/
def matchKeyword (input : List Char) : List Char → Nat → Except Exn Nat
  | [], position => .ok position
  | c :: keyword, position =>
    match input[position]? with
    | none => .error .unexpectedToken
    | some d =>
      if d ≠ c then .error .unexpectedToken
      else matchKeyword input keyword (position + 1)

/-- The `while` loop that collects a TEXT token:
`while (position < input.length() && isalnum(input[position])) textValue += input[position++];`
The fuel bounds the number of iterations; `input.length - position` is enough. -/
def scanText (input : List Char) : Nat → Nat → List Char → List Char × Nat
  | 0, position, textValue => (textValue, position)
  | fuel + 1, position, textValue =>
    match input[position]? with
    | none => (textValue, position)
    | some d =>
      if isalnum d then scanText input fuel (position + 1) (textValue ++ [d])
      else (textValue, position)

/-- The body of `Lexer::getNextToken`; `recurse` stands for the recursive call
`getNextToken()` of the whitespace branch. -/
def getNextTokenBody (recurse : Lexer → Except Exn (Token × Lexer)) (lx : Lexer) :
    Except Exn (Token × Lexer) :=
  match lx.input[lx.position]? with
  | none => .ok (⟨.END, []⟩, lx)
  | some currentChar =>
    let position := lx.position + 1
    if currentChar = '&' then .ok (⟨.VAR_DECL, ['&']⟩, { lx with position := position })
    else if currentChar = ':' then .ok (⟨.VAR_ASSIGN, [':']⟩, { lx with position := position })
    else if currentChar = '+' then .ok (⟨.ADD, ['+']⟩, { lx with position := position })
    else if currentChar = '-' then .ok (⟨.SUB, ['-']⟩, { lx with position := position })
    else if currentChar = '*' then .ok (⟨.MUL, ['*']⟩, { lx with position := position })
    else if currentChar = '/' then .ok (⟨.DIV, ['/']⟩, { lx with position := position })
    else if currentChar = '%' then .ok (⟨.MOD, ['%']⟩, { lx with position := position })
    else if isspace currentChar then recurse { lx with position := position }
    else if currentChar = 'i' then
      match matchKeyword lx.input ['i', 'f'] position with
      | .error e => .error e
      | .ok p => .ok (⟨.IF, ['i', 'f']⟩, { lx with position := p })
    else if currentChar = 'e' then
      match matchKeyword lx.input ['e', 'l', 's', 'e'] position with
      | .error e => .error e
      | .ok p => .ok (⟨.ELSE, ['e', 'l', 's', 'e']⟩, { lx with position := p })
    else if currentChar = 'f' then
      match matchKeyword lx.input ['f', 'o', 'r'] position with
      | .error e => .error e
      | .ok p => .ok (⟨.FOR, ['f', 'o', 'r']⟩, { lx with position := p })
    else if currentChar = 'e' then
      match matchKeyword lx.input ['e', 'l', 's', 'e', 'i', 'f'] position with
      | .error e => .error e
      | .ok p => .ok (⟨.ELSEIF, ['e', 'l', 's', 'e', 'i', 'f']⟩, { lx with position := p })
    else if currentChar = 'i' then
      match matchKeyword lx.input ['i', 'm', 'p', 'o', 'r', 't'] position with
      | .error e => .error e
      | .ok p => .ok (⟨.IMPORT, ['i', 'm', 'p', 'o', 'r', 't']⟩, { lx with position := p })
    else
      let r := scanText lx.input (lx.input.length - position) position [currentChar]
      .ok (⟨.TEXT, r.1⟩, { lx with position := r.2 })

/-- The method `Lexer::getNextToken` with a bound on the depth of its recursion.
Each recursive call has consumed one whitespace character, so with
`input.length - position` of fuel the case of spent fuel reads no whitespace
and its `recurse` is never called (`getNextTokenFuel_enough`). -/
def getNextTokenFuel : Nat → Lexer → Except Exn (Token × Lexer)
  | 0, lx => getNextTokenBody (fun lx => .ok (⟨.END, []⟩, lx)) lx
  | fuel + 1, lx => getNextTokenBody (getNextTokenFuel fuel) lx

/-- The method `Lexer::getNextToken`: the token and the lexer after the call. -/
def getNextToken (lx : Lexer) : Except Exn (Token × Lexer) :=
  getNextTokenFuel (lx.input.length - lx.position) lx

/-! ## Integers -/

/-- The value an `int` holds after an operation whose mathematical result is
`x`: the representative of `x` modulo `2^32` in `[-2^31, 2^31)`. -/
def wrap32 (x : Int) : Int :=
  (x + 2147483648) % 4294967296 - 2147483648

/-- The decimal value of a run of digits. -/
def digitsValue (digits : List Char) : Int :=
  digits.foldl (fun acc d => 10 * acc + ((d.toNat : Int) - 48)) 0

/-- The `std::stoi(str)` of `<string>` in base 10: leading whitespace is
skipped, one sign is accepted, the longest run of digits is converted and
whatever follows is ignored.  Without a digit it raises `invalid_argument`, and
`out_of_range` when the value does not fit an `int`. -/
def stoi (str : List Char) : Except Exn Int :=
  let s := str.dropWhile isspace
  let negative : Bool := s.head? = some '-'
  let s := match s with
    | '-' :: r => r
    | '+' :: r => r
    | _ => s
  let digits := s.takeWhile isdigit
  if digits = [] then .error .stoiInvalidArgument
  else
    let v := if negative then -(digitsValue digits) else digitsValue digits
    if v < -2147483648 ∨ 2147483647 < v then .error .stoiOutOfRange
    else .ok v

/-! ## Variable environment -/

/-- The member `unordered_map<string, int> variables`, as an association list
with at most one entry for a name. -/
abbrev Variables := List (List Char × Int)

/-- The lookup `variables.find(name)`: `none` stands for `variables.end()`. -/
def Variables.find : Variables → List Char → Option Int
  | [], _ => none
  | (k, v) :: rest, name => if k = name then some v else Variables.find rest name

/-- The store `variables[name] = value`: the entry of `name` is overwritten,
or created when there is none. -/
def Variables.set : Variables → List Char → Int → Variables
  | [], name, value => [(name, value)]
  | (k, v) :: rest, name, value =>
    if k = name then (k, value) :: rest else (k, v) :: Variables.set rest name value

/-! ## Interpreter state -/

/-- The messages the program writes to `cerr`. -/
inductive Diag where
  /-- Text "알 수 없는 토큰입니다." of `compile`. -/
  | unknownToken
  /-- Text "변수 이름이 올바르지 않습니다." -/
  | invalidVariableName
  /-- Text "값이 올바르지 않습니다." -/
  | invalidValue
  /-- Text "변수가 선언되지 않았습니다." -/
  | undeclaredVariable
  /-- Text "0으로 나눌 수 없습니다." -/
  | divideByZero
  /-- Text "올바르지 않은 연산자입니다." -/
  | invalidOperator
  /-- Text "IF 조건이 올바르지 않습니다." -/
  | invalidIfCondition
  /-- Text "ELSE 문이 없습니다." -/
  | missingElse
  /-- Text "FOR 루프 형식이 올바르지 않습니다." -/
  | malformedForLoop
  /-- Text "ELSEIF 함수 형식이 올바르지 않습니다." -/
  | malformedElseif
  /-- Text "IMPORT 문 형식이 올바르지 않습니다." -/
  | malformedLibraryName
  /-- Text "라이브러리를 로드할 수 없습니다: ", after a failed `dlopen`. -/
  | libraryNotLoaded
  /-- Text "라이브러리에서 함수를 찾을 수 없습니다.", after a failed `dlsym`. -/
  | functionNotFound
  deriving DecidableEq, Repr

/-- The messages the program writes to `cout`. -/
inductive Note where
  /-- Text "welcome to 태백 compiler!" -/
  | welcome
  /-- Text "컴파일이 완료되었습니다." -/
  | completed
  /-- Text "라이브러리 ... 를 성공적으로 로드했습니다." -/
  | libraryLoaded (libName : List Char)
  /-- Text "라이브러리에서 함수를 성공적으로 불러왔습니다." -/
  | functionLoaded
  deriving DecidableEq, Repr

/-- The `Compiler` object together with the files and streams it acts on.
`vars` is the member `variables` (that word is reserved here).  `source` is the content of the file `sourceFilename`, which every call of
`compile` reads whole; both files are taken to open.  `libraries` lists the
module names `dlopen` can load, each with whether `dlsym` finds `some_function`
in it, and `called` records the modules whose function was invoked. -/
structure Compiler where
  source : List Char
  vars : Variables
  output : List Char
  cerr : List Diag
  cout : List Note
  libraries : List (List Char × Bool)
  called : List (List Char)
  deriving DecidableEq, Repr

/-- A `Compiler` for the source text `source`, before anything has run. -/
def Compiler.new (source : List Char) : Compiler :=
  { source := source, vars := [], output := [], cerr := [], cout := [],
    libraries := [], called := [] }

/-- The statement `cerr << message << endl`. -/
def Compiler.report (c : Compiler) (d : Diag) : Compiler :=
  { c with cerr := c.cerr ++ [d] }

/-- The statement `cout << message << endl`. -/
def Compiler.say (c : Compiler) (n : Note) : Compiler :=
  { c with cout := c.cout ++ [n] }

/-- The statement `outputFile << value`. -/
def Compiler.write (c : Compiler) (value : List Char) : Compiler :=
  { c with output := c.output ++ value }

/-- The statement `variables[name] = value`. -/
def Compiler.assign (c : Compiler) (name : List Char) (value : Int) : Compiler :=
  { c with vars := c.vars.set name value }

/-- How a run of `compile` ends: it returns, an exception leaves it, or the
fuel of the model is spent before either. -/
inductive Run (α : Type) where
  | done (a : α)
  | raised (e : Exn)
  | fuelOut
  deriving DecidableEq, Repr

/-- A computation that cannot diverge, seen as a `Run`. -/
def Run.ofExcept {α : Type} : Except Exn α → Run α
  | .ok a => .done a
  | .error e => .raised e

/-! ## Statement handlers -/

/-- The method `Compiler::processVarDecl`. -/
def processVarDecl (lexer : Lexer) (c : Compiler) : Except Exn (Lexer × Compiler) :=
  match getNextToken lexer with
  | .error e => .error e
  | .ok (token, lexer) =>
    if token.type ≠ .TEXT then .ok (lexer, c.report .invalidVariableName)
    else .ok (lexer, c.assign token.value 0)

/-- The method `Compiler::processVarAssign`. -/
def processVarAssign (lexer : Lexer) (c : Compiler) : Except Exn (Lexer × Compiler) :=
  match getNextToken lexer with
  | .error e => .error e
  | .ok (token, lexer) =>
    if token.type ≠ .TEXT then .ok (lexer, c.report .invalidVariableName)
    else
      let varName := token.value
      match getNextToken lexer with
      | .error e => .error e
      | .ok (token, lexer) =>
        if token.type ≠ .TEXT then .ok (lexer, c.report .invalidValue)
        else
          match stoi token.value with
          | .error e => .error e
          | .ok value => .ok (lexer, c.assign varName value)

/-- The `switch (opToken.type)` of `processArithmetic`: the new value of
`result`, or the message of the branch that returns early. -/
def applyOperator (op : TokenType) (result operand : Int) : Except Diag Int :=
  match op with
  | .ADD => .ok (wrap32 (result + operand))
  | .SUB => .ok (wrap32 (result - operand))
  | .MUL => .ok (wrap32 (result * operand))
  | .DIV => if operand ≠ 0 then .ok (wrap32 (result.tdiv operand)) else .error .divideByZero
  | .MOD => if operand ≠ 0 then .ok (wrap32 (result.tmod operand)) else .error .divideByZero
  | _ => .error .invalidOperator

/-- The method `Compiler::processArithmetic`. -/
def processArithmetic (opToken : Token) (lexer : Lexer) (c : Compiler) :
    Except Exn (Lexer × Compiler) :=
  match getNextToken lexer with
  | .error e => .error e
  | .ok (token, lexer) =>
    if token.type = .TEXT then
      let varName := token.value
      match c.vars.find varName with
      | none => .ok (lexer, c.report .undeclaredVariable)
      | some result =>
        match getNextToken lexer with
        | .error e => .error e
        | .ok (token, lexer) =>
          if token.type ≠ .TEXT then .ok (lexer, c.report .invalidValue)
          else
            match stoi token.value with
            | .error e => .error e
            | .ok operand =>
              match applyOperator opToken.type result operand with
              | .error d => .ok (lexer, c.report d)
              | .ok result => .ok (lexer, c.assign varName result)
    else .ok (lexer, c.report .invalidValue)

/-- The loop of `Compiler::skipToElse`.  Every round reads a token other than
END, so `input.length - position + 1` rounds are enough and the branch for
spent fuel is never taken. -/
def skipToElseFuel : Nat → Lexer → Compiler → Except Exn (Lexer × Compiler)
  | 0, lexer, c => .ok (lexer, c.report .missingElse)
  | fuel + 1, lexer, c =>
    match getNextToken lexer with
    | .error e => .error e
    | .ok (token, lexer) =>
      if token.type = .END then .ok (lexer, c.report .missingElse)
      else if token.type = .ELSE then .ok (lexer, c)
      else skipToElseFuel fuel lexer c

/-- The method `Compiler::skipToElse`. -/
def skipToElse (lexer : Lexer) (c : Compiler) : Except Exn (Lexer × Compiler) :=
  skipToElseFuel (lexer.input.length - lexer.position + 1) lexer c

/-- The method `Compiler::processElseStatement`. -/
def processElseStatement (lexer : Lexer) (c : Compiler) : Except Exn (Lexer × Compiler) :=
  skipToElse lexer c

/-- The body of `Compiler::processIfStatement`; `compile` is the nested call
`compile()` on this object. -/
def processIfStatement (compile : Compiler → Run Compiler) (lexer : Lexer) (c : Compiler) :
    Run (Lexer × Compiler) :=
  match getNextToken lexer with
  | .error e => .raised e
  | .ok (token, lexer) =>
    if token.type ≠ .TEXT then .done (lexer, c.report .invalidIfCondition)
    else
      let varName := token.value
      match c.vars.find varName with
      | none => .done (lexer, c.report .undeclaredVariable)
      | some value =>
        if value ≠ 0 then
          match compile c with
          | .done c => .done (lexer, c)
          | .raised e => .raised e
          | .fuelOut => .fuelOut
        else Run.ofExcept (skipToElse lexer c)

/-- The body of `Compiler::processElseifFunction`; `compile` is the nested call
`compile()` on this object. -/
def processElseifFunction (compile : Compiler → Run Compiler) (lexer : Lexer) (c : Compiler) :
    Run (Lexer × Compiler) :=
  match getNextToken lexer with
  | .error e => .raised e
  | .ok (token, lexer) =>
    if token.type ≠ .TEXT then .done (lexer, c.report .malformedElseif)
    else
      let varName := token.value
      match c.vars.find varName with
      | none => .done (lexer, c.report .undeclaredVariable)
      | some value =>
        if value ≠ 0 then
          match compile c with
          | .done c => .done (lexer, c)
          | .raised e => .raised e
          | .fuelOut => .fuelOut
        else Run.ofExcept (skipToElse lexer c)

/-- The loop `for (int i = initialValue; i <= endValue; ++i) { variables[varName] = i; compile(); }`
of `processForLoop`, from the value `i` on. -/
def forLoop (compile : Compiler → Run Compiler) (varName : List Char) (endValue : Int) :
    Nat → Int → Compiler → Run Compiler
  | 0, _, _ => .fuelOut
  | fuel + 1, i, c =>
    if i ≤ endValue then
      match compile (c.assign varName i) with
      | .done c => forLoop compile varName endValue fuel (wrap32 (i + 1)) c
      | .raised e => .raised e
      | .fuelOut => .fuelOut
    else .done c

/-- The body of `Compiler::processForLoop`; `compile` is the nested call
`compile()` on this object and `fuel` bounds the iterations of the loop. -/
def processForLoop (compile : Compiler → Run Compiler) (fuel : Nat) (lexer : Lexer)
    (c : Compiler) : Run (Lexer × Compiler) :=
  match getNextToken lexer with
  | .error e => .raised e
  | .ok (token, lexer) =>
    if token.type ≠ .TEXT then .done (lexer, c.report .malformedForLoop)
    else
      let varName := token.value
      match c.vars.find varName with
      | none => .done (lexer, c.report .undeclaredVariable)
      | some _ =>
        match getNextToken lexer with
        | .error e => .raised e
        | .ok (token, lexer) =>
          if token.type ≠ .VAR_ASSIGN then .done (lexer, c.report .malformedForLoop)
          else
            match getNextToken lexer with
            | .error e => .raised e
            | .ok (token, lexer) =>
              if token.type ≠ .TEXT then .done (lexer, c.report .malformedForLoop)
              else
                match stoi token.value with
                | .error e => .raised e
                | .ok initialValue =>
                  match getNextToken lexer with
                  | .error e => .raised e
                  | .ok (token, lexer) =>
                    if token.type ≠ .TEXT then .done (lexer, c.report .malformedForLoop)
                    else
                      match stoi token.value with
                      | .error e => .raised e
                      | .ok endValue =>
                        match forLoop compile varName endValue fuel initialValue c with
                        | .done c => .done (lexer, c)
                        | .raised e => .raised e
                        | .fuelOut => .fuelOut

/-- The method `Compiler::processImport`.  What the loaded function does is
outside the program; the call is recorded in `called`. -/
def processImport (lexer : Lexer) (c : Compiler) : Except Exn (Lexer × Compiler) :=
  match getNextToken lexer with
  | .error e => .error e
  | .ok (token, lexer) =>
    if token.type ≠ .TEXT then .ok (lexer, c.report .malformedLibraryName)
    else
      let libName := token.value ++ ['.', 's', 'o']
      match c.libraries.lookup libName with
      | none => .ok (lexer, c.report .libraryNotLoaded)
      | some hasFunction =>
        let c := c.say (.libraryLoaded libName)
        if !hasFunction then .ok (lexer, c.report .functionNotFound)
        else
          let c := c.say .functionLoaded
          .ok (lexer, { c with called := c.called ++ [libName] })

/-! ## The main loop -/

/-- The `while ((token = lexer.getNextToken()).type != END)` loop of
`Compiler::compile` with its `switch`.  One unit of fuel is spent by each round
of the loop; a nested `compile()` opens the source file again and so starts a
new lexer at position 0, with what is left of the fuel. -/
def compileLoop : Nat → Lexer → Bool → Compiler → Run Compiler
  | 0, _, _, _ => .fuelOut
  | fuel + 1, lexer, isFirstStatement, c =>
    match getNextToken lexer with
    | .error e => .raised e
    | .ok (token, lexer) =>
      if token.type = .END then .done (c.say .completed)
      else
        let c := if isFirstStatement then c.say .welcome else c
        let compile := fun (c : Compiler) => compileLoop fuel (Lexer.new c.source) true c
        let resume : Run (Lexer × Compiler) → Run Compiler := fun r =>
          match r with
          | .done (lexer, c) => compileLoop fuel lexer false c
          | .raised e => .raised e
          | .fuelOut => .fuelOut
        match token.type with
        | .TEXT => resume (.done (lexer, c.write token.value))
        | .VAR_DECL => resume (Run.ofExcept (processVarDecl lexer c))
        | .VAR_ASSIGN => resume (Run.ofExcept (processVarAssign lexer c))
        | .ADD => resume (Run.ofExcept (processArithmetic token lexer c))
        | .SUB => resume (Run.ofExcept (processArithmetic token lexer c))
        | .MUL => resume (Run.ofExcept (processArithmetic token lexer c))
        | .DIV => resume (Run.ofExcept (processArithmetic token lexer c))
        | .MOD => resume (Run.ofExcept (processArithmetic token lexer c))
        | .IF => resume (processIfStatement compile lexer c)
        | .ELSE => resume (Run.ofExcept (processElseStatement lexer c))
        | .FOR => resume (processForLoop compile fuel lexer c)
        | .ELSEIF => resume (processElseifFunction compile lexer c)
        | .IMPORT => resume (Run.ofExcept (processImport lexer c))
        | _ => .done (c.report .unknownToken)

/-- The method `Compiler::compile`: the source file is read whole into a new
`Lexer` and the main loop runs from its first token. -/
def compile (fuel : Nat) (c : Compiler) : Run Compiler :=
  compileLoop fuel (Lexer.new c.source) true c

/-! ## Vocabulary of the statements -/

/-- The seven characters the lexer turns into operator tokens. -/
def isOperatorChar (c : Char) : Bool :=
  c = '&' || c = ':' || c = '+' || c = '-' || c = '*' || c = '/' || c = '%'

/-- The characters on which the lexer starts to match a keyword. -/
def startsKeyword (c : Char) : Bool :=
  c = 'i' || c = 'e' || c = 'f'

/-- The spellings of the five keywords. -/
def keywords : List (List Char) :=
  [['i', 'f'], ['e', 'l', 's', 'e'], ['e', 'l', 's', 'e', 'i', 'f'], ['f', 'o', 'r'],
    ['i', 'm', 'p', 'o', 'r', 't']]

/-- A program of literal text only: it holds no operator character and spells
no keyword anywhere. -/
def literalOnly (src : List Char) : Bool :=
  src.all (fun ch => !isOperatorChar ch) && keywords.all (fun k => !decide (k <:+: src))

/-- The quotient of `v` by `k` truncated toward zero: the quotient of the
absolute values with the sign of `v * k`. -/
def truncQuot (v k : Int) : Int :=
  Int.sign v * Int.sign k * ((v.natAbs / k.natAbs : Nat) : Int)

/-- The function `apply` of the specification of arithmetic statements, on
unbounded integers: sum, difference, product, quotient truncated toward zero,
and the remainder `r` with `v = (v quot k) * k + r`. -/
def specApply (op : TokenType) (v k : Int) : Int :=
  match op with
  | .ADD => v + k
  | .SUB => v - k
  | .MUL => v * k
  | .DIV => truncQuot v k
  | .MOD => v - truncQuot v k * k
  | _ => v

/-- The lexer after it has read exactly the tokens `tokens`, one call of
`getNextToken` each; `none` when a call raises or returns another token. -/
def readTokens : List Token → Lexer → Option Lexer
  | [], lexer => some lexer
  | t :: tokens, lexer =>
    match getNextToken lexer with
    | .error _ => none
    | .ok (t', lexer') => if t' = t then readTokens tokens lexer' else none

/-- The program `iif x A eelse B`: an `if` on `x`, a text, the `else` and a text. -/
def ifElseProgram : List Char :=
  ['i', 'i', 'f', ' ', 'x', ' ', 'A', ' ', 'e', 'e', 'l', 's', 'e', ' ', 'B']

/-- The program `iif x A`: an `if` on `x` with no `else` behind it. -/
def ifOnlyProgram : List Char :=
  ['i', 'i', 'f', ' ', 'x', ' ', 'A']

/-- The lexer `lx` seen behind the extra input `pre`: the same unread part,
with `pre` in front of the input and the cursor moved accordingly. -/
def Lexer.shift (pre : List Char) (lx : Lexer) : Lexer :=
  { input := pre ++ lx.input, position := pre.length + lx.position }

/-- The result of `getNextToken` with the returned lexer seen behind `pre`. -/
def shiftResult (pre : List Char) : Except Exn (Token × Lexer) → Except Exn (Token × Lexer)
  | .error e => .error e
  | .ok (t, lx) => .ok (t, lx.shift pre)

/-- The token kinds that make `compile` call itself: IF, FOR and ELSEIF. -/
def isControl (t : TokenType) : Bool :=
  t = .IF || t = .FOR || t = .ELSEIF

/-- The token stream of a lexer: the tokens that repeated calls of
`getNextToken` return, up to END or an exception.  Every token but END takes a
character, so `input.length - position` of fuel gives the whole stream. -/
def tokenStream : Nat → Lexer → List Token
  | 0, _ => []
  | fuel + 1, lexer =>
    match getNextToken lexer with
    | .error _ => []
    | .ok (t, lexer') => if t.type = .END then [] else t :: tokenStream fuel lexer'

/-- The token stream of a program text. -/
def programTokens (src : List Char) : List Token :=
  tokenStream src.length (Lexer.new src)

/-- The messages of the handlers that the main loop can reach: all but the
unknown token, the invalid operator, and the messages of
`processElseifFunction` and `processImport`. -/
def allowedDiag (d : Diag) : Bool :=
  d = .invalidVariableName || d = .invalidValue || d = .undeclaredVariable ||
    d = .divideByZero || d = .invalidIfCondition || d = .missingElse || d = .malformedForLoop

/-- The state `c'` extends `c`: no library function has been called in between
and `cerr` has only grown, by messages of `allowedDiag`. -/
def Extends (c c' : Compiler) : Prop :=
  c'.called = c.called ∧ ∃ ds, c'.cerr = c.cerr ++ ds ∧ ∀ d ∈ ds, allowedDiag d = true

/-- No token of the stream of `lexer` is IF, FOR or ELSEIF. -/
def StreamPlain (lexer : Lexer) : Prop :=
  ∃ fuel, lexer.input.length - lexer.position ≤ fuel ∧
    ∀ t ∈ tokenStream fuel lexer, isControl t.type = false

/-- The lexer `lexer'` is `lexer` some tokens later: same input, cursor not
before, and a stream without IF, FOR, ELSEIF stays so. -/
def Advanced (lexer lexer' : Lexer) : Prop :=
  lexer'.input = lexer.input ∧ lexer.position ≤ lexer'.position ∧
    (StreamPlain lexer → StreamPlain lexer')

/-- The program `&y :y 7 /y 0`: a declaration, an assignment and a division by 0. -/
def divideByZeroProgram : List Char :=
  ['&', 'y', ' ', ':', 'y', ' ', '7', ' ', '/', 'y', ' ', '0']

/-- The state in which the run of `divideByZeroProgram` returns. -/
def divideByZeroFinal : Compiler :=
  { Compiler.new divideByZeroProgram with
    vars := [(['y'], 7)], cerr := [.divideByZero], cout := [.welcome, .completed] }

/-- The program `&x :x 5 eelse +x 3 A`: no IF, FOR or ELSEIF token. -/
def plainProgram : List Char :=
  ['&', 'x', ' ', ':', 'x', ' ', '5', ' ', 'e', 'e', 'l', 's', 'e', ' ', '+', 'x', ' ', '3',
    ' ', 'A']

/-- The program `:x abc B`: an assignment whose literal is no number, then a text. -/
def badAssignProgram : List Char :=
  [':', 'x', ' ', 'a', 'b', 'c', ' ', 'B']

/-- The program `&x +x abc B`: a declaration, an addition whose literal is no
number, then a text. -/
def badAddProgram : List Char :=
  ['&', 'x', ' ', '+', 'x', ' ', 'a', 'b', 'c', ' ', 'B']

/-- The program `&x ffor x : 1 3 A`: the declaration of `x`, the loop of `x`
from 1 to 3 (with the keyword as the lexer accepts it) and the text `A`. -/
def forProgram : List Char :=
  ['&', 'x', ' ', 'f', 'f', 'o', 'r', ' ', 'x', ' ', ':', ' ', '1', ' ', '3', ' ', 'A']

/-- The program `&x :x 1 iif x A`: `x` is declared and set to 1, then comes an
`if` on `x` (with the keyword as the lexer accepts it) and the text `A`. -/
def ifProgram : List Char :=
  ['&', 'x', ' ', ':', 'x', ' ', '1', ' ', 'i', 'i', 'f', ' ', 'x', ' ', 'A']

/-- The program `-x 1 iif x Z eelse eelse :x 1 iif x B`, whose second `if`
starts a nested run that returns. -/
def rerunProgram : List Char :=
  ['-', 'x', ' ', '1', ' ', 'i', 'i', 'f', ' ', 'x', ' ', 'Z', ' ', 'e', 'e', 'l', 's', 'e',
    ' ', 'e', 'e', 'l', 's', 'e', ' ', ':', 'x', ' ', '1', ' ', 'i', 'i', 'f', ' ', 'x', ' ',
    'B']

/-- The output of `c'` is the output of `c` with more characters behind it. -/
def OutputGrows (c c' : Compiler) : Prop :=
  ∃ rest, c'.output = c.output ++ rest


/-! ## Lexer lemmas -/


/-- The unread part of the input begins with `ch` exactly when indexing at the
cursor yields `ch`. -/
theorem getElem?_of_drop_eq_cons {input : List Char} {position : Nat} {ch : Char}
    {rest : List Char} (h : input.drop position = ch :: rest) :
    input[position]? = some ch ∧ input.drop (position + 1) = rest := by
  have h1 : (input.drop position)[0]? = some ch := by rw [h]; simp
  rw [List.getElem?_drop] at h1
  refine ⟨by simpa using h1, ?_⟩
  have h2 : input.drop (position + 1) = (input.drop position).drop 1 := by
    rw [List.drop_drop]
  rw [h2, h]
  rfl

theorem drop_eq_cons_of_getElem? {input : List Char} {position : Nat} {ch : Char}
    (h : input[position]? = some ch) :
    input.drop position = ch :: input.drop (position + 1) := by
  obtain ⟨hlt, hget⟩ := List.getElem?_eq_some.mp h
  rw [List.drop_eq_getElem_cons hlt, hget]

/-- A keyword loop that succeeds ends `keyword.length` characters further,
inside the input. -/
theorem matchKeyword_ok (input : List Char) :
    ∀ (keyword : List Char) (position p : Nat), position ≤ input.length →
      matchKeyword input keyword position = .ok p →
      p = position + keyword.length ∧ p ≤ input.length := by
  intro keyword
  induction keyword with
  | nil =>
    intro position p hle h
    simp only [matchKeyword, Except.ok.injEq] at h
    subst h
    exact ⟨by simp, hle⟩
  | cons c keyword ih =>
    intro position p _ h
    simp only [matchKeyword] at h
    cases hd : input[position]? with
    | none => rw [hd] at h; simp at h
    | some d =>
      rw [hd] at h
      have hlt : position < input.length := (List.getElem?_eq_some.mp hd).1
      by_cases hdc : d = c
      · simp only [hdc, ne_eq, not_true_eq_false, ↓reduceIte] at h
        obtain ⟨h1, h2⟩ := ih (position + 1) p hlt h
        refine ⟨?_, h2⟩
        rw [h1, List.length_cons]
        omega
      · simp [hdc] at h

/-- What the TEXT loop computes: it appends the longest run of alphanumeric
characters of the unread input and stops right after it. -/
theorem scanText_eq (input : List Char) :
    ∀ (fuel position : Nat) (textValue : List Char), input.length - position ≤ fuel →
      scanText input fuel position textValue =
        (textValue ++ (input.drop position).takeWhile isalnum,
          position + ((input.drop position).takeWhile isalnum).length) := by
  intro fuel
  induction fuel with
  | zero =>
    intro position textValue h
    have hle : input.length ≤ position := by omega
    simp [scanText, List.drop_eq_nil_of_le hle]
  | succ fuel ih =>
    intro position textValue h
    simp only [scanText]
    cases hd : input[position]? with
    | none =>
      have hle : input.length ≤ position := List.getElem?_eq_none_iff.mp hd
      simp [List.drop_eq_nil_of_le hle]
    | some d =>
      have hlt : position < input.length := (List.getElem?_eq_some.mp hd).1
      rw [drop_eq_cons_of_getElem? hd, List.takeWhile_cons]
      by_cases hal : isalnum d = true
      · simp only [hal, ↓reduceIte]
        rw [ih (position + 1) (textValue ++ [d]) (by omega)]
        simp only [List.append_assoc, List.singleton_append, List.length_cons, Prod.mk.injEq,
          true_and]
        omega
      · simp [hal]

theorem getNextTokenFuel_eq_body (fuel : Nat) (lx : Lexer) :
    ∃ recurse, getNextTokenFuel fuel lx = getNextTokenBody recurse lx := by
  cases fuel with
  | zero => exact ⟨_, by rw [getNextTokenFuel]⟩
  | succ fuel => exact ⟨_, by rw [getNextTokenFuel]⟩

/-- At the end of the input the body returns END and leaves the lexer as it is. -/
theorem getNextTokenBody_none (recurse : Lexer → Except Exn (Token × Lexer)) (lx : Lexer)
    (hd : lx.input[lx.position]? = none) :
    getNextTokenBody recurse lx = .ok (⟨.END, []⟩, lx) := by
  unfold getNextTokenBody
  rw [hd]

theorem getNextToken_none (lx : Lexer) (hd : lx.input[lx.position]? = none) :
    getNextToken lx = .ok (⟨.END, []⟩, lx) := by
  obtain ⟨recurse, h⟩ := getNextTokenFuel_eq_body (lx.input.length - lx.position) lx
  rw [getNextToken, h, getNextTokenBody_none recurse lx hd]



/-- The three ways in which the body returns a token: at the end of the input
it returns END and stays; on whitespace it returns what the recursive call
returns; otherwise it returns a token other than END and has moved forward
inside the input. -/
theorem getNextTokenBody_cases (recurse : Lexer → Except Exn (Token × Lexer)) (lx : Lexer)
    (t : Token) (lx' : Lexer) (h : getNextTokenBody recurse lx = .ok (t, lx')) :
    (lx.input[lx.position]? = none ∧ t = ⟨.END, []⟩ ∧ lx' = lx) ∨
    (∃ ch, lx.input[lx.position]? = some ch ∧ isspace ch = true ∧
      recurse { lx with position := lx.position + 1 } = .ok (t, lx')) ∨
    (t.type ≠ .END ∧ lx'.input = lx.input ∧ lx.position < lx'.position ∧
      lx'.position ≤ lx.input.length) := by
  unfold getNextTokenBody at h
  cases hd : lx.input[lx.position]? with
  | none =>
    rw [hd] at h
    simp only [Except.ok.injEq, Prod.mk.injEq] at h
    exact Or.inl ⟨rfl, h.1.symm, h.2.symm⟩
  | some ch =>
    have hlt : lx.position < lx.input.length := (List.getElem?_eq_some.mp hd).1
    rw [hd] at h
    dsimp only at h
    by_cases hc : ch = '&'
    · rw [if_pos hc] at h
      simp only [Except.ok.injEq, Prod.mk.injEq] at h
      obtain ⟨rfl, rfl⟩ := h
      exact Or.inr (Or.inr ⟨by simp, rfl, Nat.lt_succ_self _, hlt⟩)
    rw [if_neg hc] at h
    clear hc
    by_cases hc : ch = ':'
    · rw [if_pos hc] at h
      simp only [Except.ok.injEq, Prod.mk.injEq] at h
      obtain ⟨rfl, rfl⟩ := h
      exact Or.inr (Or.inr ⟨by simp, rfl, Nat.lt_succ_self _, hlt⟩)
    rw [if_neg hc] at h
    clear hc
    by_cases hc : ch = '+'
    · rw [if_pos hc] at h
      simp only [Except.ok.injEq, Prod.mk.injEq] at h
      obtain ⟨rfl, rfl⟩ := h
      exact Or.inr (Or.inr ⟨by simp, rfl, Nat.lt_succ_self _, hlt⟩)
    rw [if_neg hc] at h
    clear hc
    by_cases hc : ch = '-'
    · rw [if_pos hc] at h
      simp only [Except.ok.injEq, Prod.mk.injEq] at h
      obtain ⟨rfl, rfl⟩ := h
      exact Or.inr (Or.inr ⟨by simp, rfl, Nat.lt_succ_self _, hlt⟩)
    rw [if_neg hc] at h
    clear hc
    by_cases hc : ch = '*'
    · rw [if_pos hc] at h
      simp only [Except.ok.injEq, Prod.mk.injEq] at h
      obtain ⟨rfl, rfl⟩ := h
      exact Or.inr (Or.inr ⟨by simp, rfl, Nat.lt_succ_self _, hlt⟩)
    rw [if_neg hc] at h
    clear hc
    by_cases hc : ch = '/'
    · rw [if_pos hc] at h
      simp only [Except.ok.injEq, Prod.mk.injEq] at h
      obtain ⟨rfl, rfl⟩ := h
      exact Or.inr (Or.inr ⟨by simp, rfl, Nat.lt_succ_self _, hlt⟩)
    rw [if_neg hc] at h
    clear hc
    by_cases hc : ch = '%'
    · rw [if_pos hc] at h
      simp only [Except.ok.injEq, Prod.mk.injEq] at h
      obtain ⟨rfl, rfl⟩ := h
      exact Or.inr (Or.inr ⟨by simp, rfl, Nat.lt_succ_self _, hlt⟩)
    rw [if_neg hc] at h
    clear hc
    by_cases hc : isspace ch = true
    · rw [if_pos hc] at h
      exact Or.inr (Or.inl ⟨ch, rfl, hc, h⟩)
    rw [if_neg hc] at h
    clear hc
    by_cases hc : ch = 'i'
    · rw [if_pos hc] at h
      split at h
      · exact absurd h (by simp)
      · rename_i p hp
        simp only [Except.ok.injEq, Prod.mk.injEq] at h
        obtain ⟨rfl, rfl⟩ := h
        obtain ⟨h1, h2⟩ := matchKeyword_ok _ _ _ _ hlt hp
        refine Or.inr (Or.inr ⟨by simp, rfl, ?_, h2⟩)
        simp only [List.length_cons, List.length_nil] at h1
        show lx.position < p
        omega
    rw [if_neg hc] at h
    clear hc
    by_cases hc : ch = 'e'
    · rw [if_pos hc] at h
      split at h
      · exact absurd h (by simp)
      · rename_i p hp
        simp only [Except.ok.injEq, Prod.mk.injEq] at h
        obtain ⟨rfl, rfl⟩ := h
        obtain ⟨h1, h2⟩ := matchKeyword_ok _ _ _ _ hlt hp
        refine Or.inr (Or.inr ⟨by simp, rfl, ?_, h2⟩)
        simp only [List.length_cons, List.length_nil] at h1
        show lx.position < p
        omega
    rw [if_neg hc] at h
    clear hc
    by_cases hc : ch = 'f'
    · rw [if_pos hc] at h
      split at h
      · exact absurd h (by simp)
      · rename_i p hp
        simp only [Except.ok.injEq, Prod.mk.injEq] at h
        obtain ⟨rfl, rfl⟩ := h
        obtain ⟨h1, h2⟩ := matchKeyword_ok _ _ _ _ hlt hp
        refine Or.inr (Or.inr ⟨by simp, rfl, ?_, h2⟩)
        simp only [List.length_cons, List.length_nil] at h1
        show lx.position < p
        omega
    rw [if_neg hc] at h
    clear hc
    by_cases hc : ch = 'e'
    · rw [if_pos hc] at h
      split at h
      · exact absurd h (by simp)
      · rename_i p hp
        simp only [Except.ok.injEq, Prod.mk.injEq] at h
        obtain ⟨rfl, rfl⟩ := h
        obtain ⟨h1, h2⟩ := matchKeyword_ok _ _ _ _ hlt hp
        refine Or.inr (Or.inr ⟨by simp, rfl, ?_, h2⟩)
        simp only [List.length_cons, List.length_nil] at h1
        show lx.position < p
        omega
    rw [if_neg hc] at h
    clear hc
    by_cases hc : ch = 'i'
    · rw [if_pos hc] at h
      split at h
      · exact absurd h (by simp)
      · rename_i p hp
        simp only [Except.ok.injEq, Prod.mk.injEq] at h
        obtain ⟨rfl, rfl⟩ := h
        obtain ⟨h1, h2⟩ := matchKeyword_ok _ _ _ _ hlt hp
        refine Or.inr (Or.inr ⟨by simp, rfl, ?_, h2⟩)
        simp only [List.length_cons, List.length_nil] at h1
        show lx.position < p
        omega
    rw [if_neg hc] at h
    clear hc
    simp only [Except.ok.injEq, Prod.mk.injEq] at h
    obtain ⟨rfl, rfl⟩ := h
    rw [scanText_eq _ _ _ _ (le_refl _)]
    have hrun := (List.takeWhile_sublist isalnum (l := lx.input.drop (lx.position + 1))).length_le
    rw [List.length_drop] at hrun
    refine Or.inr (Or.inr ⟨by simp, rfl, ?_, ?_⟩)
    · show lx.position < lx.position + 1 + _
      omega
    · show lx.position + 1 + _ ≤ lx.input.length
      omega

/-- Every token but END is read from at least one character, and the cursor
stays inside the input. -/
theorem getNextTokenFuel_progress :
    ∀ (fuel : Nat) (lx : Lexer) (t : Token) (lx' : Lexer),
      getNextTokenFuel fuel lx = .ok (t, lx') → t.type ≠ .END →
      lx'.input = lx.input ∧ lx.position < lx'.position ∧ lx'.position ≤ lx.input.length := by
  intro fuel
  induction fuel with
  | zero =>
    intro lx t lx' h hne
    rw [getNextTokenFuel] at h
    rcases getNextTokenBody_cases _ lx t lx' h with ⟨-, h1, -⟩ | ⟨ch, -, -, h1⟩ | ⟨-, h1⟩
    · exact absurd (by rw [h1]) hne
    · simp only [Except.ok.injEq, Prod.mk.injEq] at h1
      exact absurd (by rw [← h1.1]) hne
    · exact h1
  | succ fuel ih =>
    intro lx t lx' h hne
    rw [getNextTokenFuel] at h
    rcases getNextTokenBody_cases _ lx t lx' h with ⟨-, h1, -⟩ | ⟨ch, -, -, h1⟩ | ⟨-, h1⟩
    · exact absurd (by rw [h1]) hne
    · obtain ⟨h2, h3, h4⟩ := ih _ t lx' h1 hne
      exact ⟨h2, by have : lx.position + 1 < lx'.position := h3
                    omega, h4⟩
    · exact h1

theorem getNextToken_progress (lx : Lexer) (t : Token) (lx' : Lexer)
    (h : getNextToken lx = .ok (t, lx')) (hne : t.type ≠ .END) :
    lx'.input = lx.input ∧ lx.position < lx'.position ∧ lx'.position ≤ lx.input.length :=
  getNextTokenFuel_progress _ lx t lx' h hne

/-- With fuel for every unread character, a call that returns END has read
all the input: the token is the END token and the lexer it leaves is at the
end of the input. -/
theorem getNextTokenFuel_end :
    ∀ (fuel : Nat) (lx : Lexer) (t : Token) (lx' : Lexer),
      lx.input.length - lx.position ≤ fuel →
      getNextTokenFuel fuel lx = .ok (t, lx') → t.type = .END →
      t = ⟨.END, []⟩ ∧ lx'.input = lx.input ∧ lx'.input[lx'.position]? = none := by
  intro fuel
  induction fuel with
  | zero =>
    intro lx t lx' hfuel h hend
    rw [getNextTokenFuel] at h
    rcases getNextTokenBody_cases _ lx t lx' h with ⟨h0, h1, h2⟩ | ⟨ch, h0, -, -⟩ | ⟨h1, -⟩
    · rw [h2]
      exact ⟨h1, rfl, h0⟩
    · have hlt : lx.position < lx.input.length := (List.getElem?_eq_some.mp h0).1
      omega
    · exact absurd hend h1
  | succ fuel ih =>
    intro lx t lx' hfuel h hend
    rw [getNextTokenFuel] at h
    rcases getNextTokenBody_cases _ lx t lx' h with ⟨h0, h1, h2⟩ | ⟨ch, h0, -, h1⟩ | ⟨h1, -⟩
    · rw [h2]
      exact ⟨h1, rfl, h0⟩
    · have hlt : lx.position < lx.input.length := (List.getElem?_eq_some.mp h0).1
      have hfuel' : ({ lx with position := lx.position + 1 } : Lexer).input.length -
          ({ lx with position := lx.position + 1 } : Lexer).position ≤ fuel := by
        show lx.input.length - (lx.position + 1) ≤ fuel
        omega
      exact ih { lx with position := lx.position + 1 } t lx' hfuel' h1 hend
    · exact absurd hend h1

theorem getNextToken_end (lx : Lexer) (t : Token) (lx' : Lexer)
    (h : getNextToken lx = .ok (t, lx')) (hend : t.type = .END) :
    t = ⟨.END, []⟩ ∧ lx'.input = lx.input ∧ lx'.input[lx'.position]? = none :=
  getNextTokenFuel_end _ lx t lx' (le_refl _) h hend

/-- The body uses its recursive call only on the lexer moved by one character. -/
theorem getNextTokenBody_congr (r1 r2 : Lexer → Except Exn (Token × Lexer)) (lx : Lexer)
    (h : r1 { lx with position := lx.position + 1 } = r2 { lx with position := lx.position + 1 }) :
    getNextTokenBody r1 lx = getNextTokenBody r2 lx := by
  unfold getNextTokenBody
  dsimp only
  rw [h]

/-- The fuel of `getNextToken` is enough: any larger amount gives the same
result, so the case of spent fuel decides nothing. -/
theorem getNextTokenFuel_enough :
    ∀ (fuel : Nat) (lx : Lexer), lx.input.length - lx.position ≤ fuel →
      getNextTokenFuel fuel lx = getNextToken lx := by
  have key : ∀ (fuel fuel' : Nat) (lx : Lexer), lx.input.length - lx.position ≤ fuel →
      lx.input.length - lx.position ≤ fuel' →
      getNextTokenFuel fuel lx = getNextTokenFuel fuel' lx := by
    intro fuel
    induction fuel with
    | zero =>
      intro fuel' lx h1 _
      have hnone : lx.input[lx.position]? = none := List.getElem?_eq_none_iff.mpr (by omega)
      obtain ⟨r1, e1⟩ := getNextTokenFuel_eq_body 0 lx
      obtain ⟨r2, e2⟩ := getNextTokenFuel_eq_body fuel' lx
      rw [e1, e2, getNextTokenBody_none r1 lx hnone, getNextTokenBody_none r2 lx hnone]
    | succ fuel ih =>
      intro fuel' lx h1 h2
      cases fuel' with
      | zero =>
        have hnone : lx.input[lx.position]? = none := List.getElem?_eq_none_iff.mpr (by omega)
        obtain ⟨r1, e1⟩ := getNextTokenFuel_eq_body (fuel + 1) lx
        obtain ⟨r2, e2⟩ := getNextTokenFuel_eq_body 0 lx
        rw [e1, e2, getNextTokenBody_none r1 lx hnone, getNextTokenBody_none r2 lx hnone]
      | succ fuel' =>
        rw [getNextTokenFuel, getNextTokenFuel]
        have hf : ({ lx with position := lx.position + 1 } : Lexer).input.length -
            ({ lx with position := lx.position + 1 } : Lexer).position ≤ fuel := by
          show lx.input.length - (lx.position + 1) ≤ fuel
          omega
        have hf' : ({ lx with position := lx.position + 1 } : Lexer).input.length -
            ({ lx with position := lx.position + 1 } : Lexer).position ≤ fuel' := by
          show lx.input.length - (lx.position + 1) ≤ fuel'
          omega
        exact getNextTokenBody_congr _ _ lx (ih fuel' { lx with position := lx.position + 1 } hf hf')
  intro fuel lx h
  exact key fuel _ lx h (le_refl _)

/-- A character that is no operator, no whitespace and no keyword start opens
a TEXT token, which takes the alphanumeric characters that follow. -/
theorem getNextTokenBody_text (recurse : Lexer → Except Exn (Token × Lexer)) (lx : Lexer)
    (ch : Char) (hd : lx.input[lx.position]? = some ch) (hop : isOperatorChar ch = false)
    (hsp : isspace ch = false) (hkw : startsKeyword ch = false) :
    getNextTokenBody recurse lx =
      .ok (⟨.TEXT, ch :: (lx.input.drop (lx.position + 1)).takeWhile isalnum⟩,
        { lx with position :=
            lx.position + 1 + ((lx.input.drop (lx.position + 1)).takeWhile isalnum).length }) := by
  unfold getNextTokenBody
  rw [hd]
  dsimp only
  simp only [isOperatorChar, Bool.or_eq_false_iff, decide_eq_false_iff_not] at hop
  simp only [startsKeyword, Bool.or_eq_false_iff, decide_eq_false_iff_not] at hkw
  obtain ⟨⟨⟨⟨⟨⟨h1, h2⟩, h3⟩, h4⟩, h5⟩, h6⟩, h7⟩ := hop
  obtain ⟨⟨k1, k2⟩, k3⟩ := hkw
  rw [if_neg h1, if_neg h2, if_neg h3, if_neg h4, if_neg h5, if_neg h6, if_neg h7,
    if_neg (by rw [hsp]; exact Bool.false_ne_true), if_neg k1, if_neg k2, if_neg k3, if_neg k2,
    if_neg k1, scanText_eq _ _ _ _ (le_refl _)]
  rfl

theorem getNextToken_text (lx : Lexer) (ch : Char) (hd : lx.input[lx.position]? = some ch)
    (hop : isOperatorChar ch = false) (hsp : isspace ch = false)
    (hkw : startsKeyword ch = false) :
    getNextToken lx =
      .ok (⟨.TEXT, ch :: (lx.input.drop (lx.position + 1)).takeWhile isalnum⟩,
        { lx with position :=
            lx.position + 1 + ((lx.input.drop (lx.position + 1)).takeWhile isalnum).length }) := by
  obtain ⟨recurse, h⟩ := getNextTokenFuel_eq_body (lx.input.length - lx.position) lx
  rw [getNextToken, h, getNextTokenBody_text recurse lx ch hd hop hsp hkw]

/-- The character right after the longest run that satisfies `p` fails `p`. -/
theorem getElem?_length_takeWhile {p : Char → Bool} :
    ∀ (l : List Char) (x : Char), l[(l.takeWhile p).length]? = some x → p x = false := by
  intro l
  induction l with
  | nil => intro x h; simp at h
  | cons a l ih =>
    intro x h
    rw [List.takeWhile_cons] at h
    by_cases ha : p a = true
    · rw [if_pos ha] at h
      simp only [List.length_cons, List.getElem?_cons_succ] at h
      exact ih x h
    · rw [if_neg ha] at h
      simp only [List.length_nil, List.getElem?_cons_zero, Option.some.injEq] at h
      rw [← h]
      simpa using ha

theorem takeWhile_append_drop {p : Char → Bool} :
    ∀ (l : List Char), l.takeWhile p ++ l.drop (l.takeWhile p).length = l := by
  intro l
  induction l with
  | nil => simp
  | cons a l ih =>
    rw [List.takeWhile_cons]
    by_cases ha : p a = true
    · rw [if_pos ha]
      simp only [List.cons_append, List.length_cons, List.drop_succ_cons, List.cons.injEq,
        true_and]
      exact ih
    · rw [if_neg ha]
      simp

/-! ## C1: programs of literal text -/

theorem isalnum_not_startsKeyword {ch : Char} (h : isalnum ch = false) :
    startsKeyword ch = false := by
  simp only [startsKeyword, Bool.or_eq_false_iff, decide_eq_false_iff_not]
  refine ⟨⟨?_, ?_⟩, ?_⟩ <;> intro hc <;> rw [hc] at h <;> exact absurd h (by decide)

/-- The main loop on text without operators and whitespace, from a position
whose character starts no keyword: every token is TEXT, and the loop appends
the whole unread input to the output. -/
theorem compileLoop_literal (input : List Char)
    (hplain : ∀ ch ∈ input, isOperatorChar ch = false ∧ isspace ch = false) :
    ∀ (fuel p : Nat) (isFirstStatement : Bool) (c : Compiler),
      (∀ ch, input[p]? = some ch → startsKeyword ch = false) →
      input.length - p + 1 ≤ fuel →
      ∃ c', compileLoop fuel { input := input, position := p } isFirstStatement c = .done c' ∧
        c'.output = c.output ++ input.drop p ∧ c'.cerr = c.cerr ∧ c'.vars = c.vars := by
  intro fuel
  induction fuel with
  | zero => intro p _ c _ hfuel; omega
  | succ fuel ih =>
    intro p isFirstStatement c hstart hfuel
    rw [compileLoop]
    cases hd : input[p]? with
    | none =>
      rw [getNextToken_none { input := input, position := p } hd]
      have hle : input.length ≤ p := List.getElem?_eq_none_iff.mp hd
      refine ⟨c.say .completed, by simp, ?_, rfl, rfl⟩
      simp [Compiler.say, List.drop_eq_nil_of_le hle]
    | some ch =>
      have hmem : ch ∈ input := by
        obtain ⟨hlt', hget⟩ := List.getElem?_eq_some.mp hd
        rw [← hget]
        exact List.getElem_mem hlt'
      obtain ⟨hop, hsp⟩ := hplain ch hmem
      rw [getNextToken_text { input := input, position := p } ch hd hop hsp (hstart ch hd)]
      have hlt : p < input.length := (List.getElem?_eq_some.mp hd).1
      dsimp only
      rw [if_neg (show ¬ (TokenType.TEXT = TokenType.END) by decide)]
      obtain ⟨c', h1, h2, h3, h4⟩ := ih
        (p + 1 + ((input.drop (p + 1)).takeWhile isalnum).length) false
        ((if isFirstStatement = true then c.say .welcome else c).write
          (ch :: (input.drop (p + 1)).takeWhile isalnum))
        (by
          intro x hx
          apply isalnum_not_startsKeyword
          apply getElem?_length_takeWhile (p := isalnum) (input.drop (p + 1)) x
          rw [List.getElem?_drop]
          exact hx)
        (by omega)
      refine ⟨c', h1, ?_, ?_, ?_⟩
      · rw [h2, drop_eq_cons_of_getElem? hd]
        have hsplit := takeWhile_append_drop (p := isalnum) (input.drop (p + 1))
        rw [List.drop_drop] at hsplit
        have hout : ((if isFirstStatement = true then c.say .welcome else c).write
            (ch :: (input.drop (p + 1)).takeWhile isalnum)).output =
            c.output ++ ch :: (input.drop (p + 1)).takeWhile isalnum := by
          cases isFirstStatement <;> rfl
        rw [hout, List.append_assoc, List.cons_append, hsplit]
      · rw [h3]; cases isFirstStatement <;> rfl
      · rw [h4]; cases isFirstStatement <;> rfl

/-- C1, as amended: a program without operator characters and without
whitespace whose first character is not `i`, `e` or `f` is interpreted to the
end, with no message on `cerr`, and the output is the program text itself. -/
theorem compile_literal_text (src : List Char)
    (hplain : ∀ ch ∈ src, isOperatorChar ch = false ∧ isspace ch = false)
    (hfirst : ∀ ch, src.head? = some ch → startsKeyword ch = false)
    (fuel : Nat) (hfuel : src.length + 1 ≤ fuel) :
    ∃ c', compile fuel (Compiler.new src) = .done c' ∧ c'.output = src ∧ c'.cerr = [] ∧
      c'.vars = [] := by
  obtain ⟨c', h1, h2, h3, h4⟩ := compileLoop_literal src hplain fuel 0 true (Compiler.new src)
    (by
      intro ch hch
      apply hfirst ch
      rw [← hch]
      cases src <;> simp)
    (by omega)
  exact ⟨c', h1, by simpa [Compiler.new] using h2, h3, h4⟩

theorem compile_literal_text_witness :
    (∀ ch ∈ ['a', '.', 'l', 'i', 'f', 'e', '!'],
      isOperatorChar ch = false ∧ isspace ch = false) ∧
    (∀ ch, ['a', '.', 'l', 'i', 'f', 'e', '!'].head? = some ch → startsKeyword ch = false) ∧
    ['a', '.', 'l', 'i', 'f', 'e', '!'].length + 1 ≤ 8 ∧
    ∃ c', compile 8 (Compiler.new ['a', '.', 'l', 'i', 'f', 'e', '!']) = .done c' ∧
      c'.output = ['a', '.', 'l', 'i', 'f', 'e', '!'] ∧ c'.cerr = [] ∧ c'.vars = [] :=
  ⟨by decide, by decide, by decide,
    compile_literal_text ['a', '.', 'l', 'i', 'f', 'e', '!'] (by decide) (by decide) 8
      (by decide)⟩

/-- C1 as stated fails: `a b` and `e` hold no operator character and spell
no keyword, yet the output of `a b` is `ab`, without the space, and the lexer
raises on `e`. -/
theorem literal_text_counterexample :
    literalOnly ['a', ' ', 'b'] = true ∧ literalOnly ['e'] = true ∧
    (∀ fuel c', compile fuel (Compiler.new ['a', ' ', 'b']) = .done c' →
      c'.output = ['a', 'b'] ∧ c'.output ≠ ['a', ' ', 'b']) ∧
    (∀ fuel c', compile fuel (Compiler.new ['e']) ≠ .done c') := by
  refine ⟨by decide, by decide, ?_, ?_⟩
  · intro fuel c' h
    match fuel, h with
    | 0, h =>
      have h0 : compile 0 (Compiler.new ['a', ' ', 'b']) = .fuelOut := by decide
      rw [h0] at h
      cases h
    | 1, h =>
      have h0 : compile 1 (Compiler.new ['a', ' ', 'b']) = .fuelOut := by decide
      rw [h0] at h
      cases h
    | 2, h =>
      have h0 : compile 2 (Compiler.new ['a', ' ', 'b']) = .fuelOut := by decide
      rw [h0] at h
      cases h
    | n + 3, h =>
      have h3 : compile (n + 3) (Compiler.new ['a', ' ', 'b']) =
          .done { Compiler.new ['a', ' ', 'b'] with
            output := ['a', 'b'], cout := [.welcome, .completed] } := rfl
      rw [h3] at h
      cases h
      exact ⟨rfl, by decide⟩
  · intro fuel c' h
    match fuel, h with
    | 0, h =>
      have h0 : compile 0 (Compiler.new ['e']) = .fuelOut := by decide
      rw [h0] at h
      cases h
    | n + 1, h =>
      have h1 : compile (n + 1) (Compiler.new ['e']) = .raised .unexpectedToken := rfl
      rw [h1] at h
      cases h

/-! ## C2: the program `&x:x5+x3` -/

/-- C2, as amended: with the name and the number of each statement separated
by a space, `&x:x 5+x 3` run from the empty environment ends with `x` equal to
8, nothing in the output and nothing on `cerr`. -/
theorem compile_declare_assign_add (n : Nat) :
    compile (n + 4) (Compiler.new ['&', 'x', ':', 'x', ' ', '5', '+', 'x', ' ', '3']) =
      .done { Compiler.new ['&', 'x', ':', 'x', ' ', '5', '+', 'x', ' ', '3'] with
        vars := [(['x'], 8)], output := [], cerr := [], cout := [.welcome, .completed] } :=
  rfl

/-- C2 as stated fails: the lexer reads `x5` and `x3` as single TEXT tokens, so
in `&x:x5+x3` the assignment finds `+` where it wants a value, `x` keeps the
value 0 of its declaration and `x3` goes to the output. -/
theorem declare_assign_add_counterexample :
    (∀ n, compile (n + 4) (Compiler.new ['&', 'x', ':', 'x', '5', '+', 'x', '3']) =
      .done { Compiler.new ['&', 'x', ':', 'x', '5', '+', 'x', '3'] with
        vars := [(['x'], 0)], output := ['x', '3'], cerr := [.invalidValue],
        cout := [.welcome, .completed] }) ∧
    (∀ fuel c', compile fuel (Compiler.new ['&', 'x', ':', 'x', '5', '+', 'x', '3']) = .done c' →
      c'.vars.find ['x'] = some 0 ∧ c'.vars.find ['x'] ≠ some 8 ∧ c'.output ≠ []) := by
  have hrun : ∀ n, compile (n + 4) (Compiler.new ['&', 'x', ':', 'x', '5', '+', 'x', '3']) =
      .done { Compiler.new ['&', 'x', ':', 'x', '5', '+', 'x', '3'] with
        vars := [(['x'], 0)], output := ['x', '3'], cerr := [.invalidValue],
        cout := [.welcome, .completed] } := fun _ => rfl
  refine ⟨hrun, ?_⟩
  intro fuel c' h
  match fuel, h with
  | 0, h =>
    have h0 : compile 0 (Compiler.new ['&', 'x', ':', 'x', '5', '+', 'x', '3']) = .fuelOut := by
      decide
    rw [h0] at h
    cases h
  | 1, h =>
    have h0 : compile 1 (Compiler.new ['&', 'x', ':', 'x', '5', '+', 'x', '3']) = .fuelOut := by
      decide
    rw [h0] at h
    cases h
  | 2, h =>
    have h0 : compile 2 (Compiler.new ['&', 'x', ':', 'x', '5', '+', 'x', '3']) = .fuelOut := by
      decide
    rw [h0] at h
    cases h
  | 3, h =>
    have h0 : compile 3 (Compiler.new ['&', 'x', ':', 'x', '5', '+', 'x', '3']) = .fuelOut := by
      decide
    rw [h0] at h
    cases h
  | n + 4, h =>
    rw [hrun n] at h
    cases h
    exact ⟨by decide, by decide, by decide⟩

/-! ## C3, C4: keywords -/

theorem getNextTokenBody_i (recurse : Lexer → Except Exn (Token × Lexer)) (lx : Lexer)
    (hd : lx.input[lx.position]? = some 'i') :
    getNextTokenBody recurse lx =
      match matchKeyword lx.input ['i', 'f'] (lx.position + 1) with
      | .error e => .error e
      | .ok p => .ok (⟨.IF, ['i', 'f']⟩, { lx with position := p }) := by
  unfold getNextTokenBody
  rw [hd]
  dsimp only
  rw [if_neg (by decide), if_neg (by decide), if_neg (by decide), if_neg (by decide),
    if_neg (by decide), if_neg (by decide), if_neg (by decide), if_neg (by decide),
    if_pos rfl]

theorem getNextTokenBody_e (recurse : Lexer → Except Exn (Token × Lexer)) (lx : Lexer)
    (hd : lx.input[lx.position]? = some 'e') :
    getNextTokenBody recurse lx =
      match matchKeyword lx.input ['e', 'l', 's', 'e'] (lx.position + 1) with
      | .error e => .error e
      | .ok p => .ok (⟨.ELSE, ['e', 'l', 's', 'e']⟩, { lx with position := p }) := by
  unfold getNextTokenBody
  rw [hd]
  dsimp only
  rw [if_neg (by decide), if_neg (by decide), if_neg (by decide), if_neg (by decide),
    if_neg (by decide), if_neg (by decide), if_neg (by decide), if_neg (by decide),
    if_neg (by decide), if_pos rfl]

theorem getNextTokenBody_f (recurse : Lexer → Except Exn (Token × Lexer)) (lx : Lexer)
    (hd : lx.input[lx.position]? = some 'f') :
    getNextTokenBody recurse lx =
      match matchKeyword lx.input ['f', 'o', 'r'] (lx.position + 1) with
      | .error e => .error e
      | .ok p => .ok (⟨.FOR, ['f', 'o', 'r']⟩, { lx with position := p }) := by
  unfold getNextTokenBody
  rw [hd]
  dsimp only
  rw [if_neg (by decide), if_neg (by decide), if_neg (by decide), if_neg (by decide),
    if_neg (by decide), if_neg (by decide), if_neg (by decide), if_neg (by decide),
    if_neg (by decide), if_neg (by decide), if_pos rfl]

/-- The keyword loop raises at once when the character under the cursor is not
the first character of the keyword. -/
theorem matchKeyword_mismatch (input : List Char) (c d : Char) (keyword : List Char)
    (position : Nat) (hd : input[position]? = some d) (hne : d ≠ c) :
    matchKeyword input (c :: keyword) position = .error .unexpectedToken := by
  rw [matchKeyword, hd]
  dsimp only
  rw [if_pos hne]

/-- C3, the behaviour of the code: on an unread input that begins with the
spelling `if`, `else` or `for`, `getNextToken` raises "Unexpected token."
instead of returning the keyword token, because the first character is
consumed before the loop compares the whole spelling. -/
theorem getNextToken_keyword_spelling_raises (lx : Lexer) (rest : List Char)
    (h : lx.input.drop lx.position = ['i', 'f'] ++ rest ∨
      lx.input.drop lx.position = ['e', 'l', 's', 'e'] ++ rest ∨
      lx.input.drop lx.position = ['f', 'o', 'r'] ++ rest) :
    getNextToken lx = .error .unexpectedToken := by
  obtain ⟨recurse, hb⟩ := getNextTokenFuel_eq_body (lx.input.length - lx.position) lx
  rw [getNextToken, hb]
  rcases h with h | h | h
  · obtain ⟨h0, h'⟩ := getElem?_of_drop_eq_cons h
    obtain ⟨h1, -⟩ := getElem?_of_drop_eq_cons h'
    rw [getNextTokenBody_i recurse lx h0, matchKeyword_mismatch _ 'i' 'f' _ _ h1 (by decide)]
  · obtain ⟨h0, h'⟩ := getElem?_of_drop_eq_cons h
    obtain ⟨h1, -⟩ := getElem?_of_drop_eq_cons h'
    rw [getNextTokenBody_e recurse lx h0, matchKeyword_mismatch _ 'e' 'l' _ _ h1 (by decide)]
  · obtain ⟨h0, h'⟩ := getElem?_of_drop_eq_cons h
    obtain ⟨h1, -⟩ := getElem?_of_drop_eq_cons h'
    rw [getNextTokenBody_f recurse lx h0, matchKeyword_mismatch _ 'f' 'o' _ _ h1 (by decide)]

theorem getNextToken_keyword_spelling_raises_witness :
    (Lexer.new ['i', 'f', ' ', 'x']).input.drop (Lexer.new ['i', 'f', ' ', 'x']).position =
      ['i', 'f'] ++ [' ', 'x'] ∧
    getNextToken (Lexer.new ['i', 'f', ' ', 'x']) = .error .unexpectedToken :=
  ⟨by decide, getNextToken_keyword_spelling_raises (Lexer.new ['i', 'f', ' ', 'x']) [' ', 'x']
    (Or.inl (by decide))⟩

/-- What the lexer accepts as keywords: the first character twice, then the
rest of the spelling. -/
theorem getNextToken_doubled_keyword :
    getNextToken (Lexer.new ['i', 'i', 'f']) = .ok (⟨.IF, ['i', 'f']⟩, ⟨['i', 'i', 'f'], 3⟩) ∧
    getNextToken (Lexer.new ['e', 'e', 'l', 's', 'e']) =
      .ok (⟨.ELSE, ['e', 'l', 's', 'e']⟩, ⟨['e', 'e', 'l', 's', 'e'], 5⟩) ∧
    getNextToken (Lexer.new ['f', 'f', 'o', 'r']) =
      .ok (⟨.FOR, ['f', 'o', 'r']⟩, ⟨['f', 'f', 'o', 'r'], 4⟩) := by
  decide

/-- C4, the behaviour of the code: on an unread input that begins with
`import`, `getNextToken` raises "Unexpected token.": the character `i` selects
the branch of `if`, whose loop fails on `m`, and the branch of `import` is
never tried. -/
theorem getNextToken_import_raises (lx : Lexer) (rest : List Char)
    (h : lx.input.drop lx.position = ['i', 'm', 'p', 'o', 'r', 't'] ++ rest) :
    getNextToken lx = .error .unexpectedToken := by
  obtain ⟨recurse, hb⟩ := getNextTokenFuel_eq_body (lx.input.length - lx.position) lx
  obtain ⟨h0, h'⟩ := getElem?_of_drop_eq_cons h
  obtain ⟨h1, -⟩ := getElem?_of_drop_eq_cons h'
  rw [getNextToken, hb, getNextTokenBody_i recurse lx h0,
    matchKeyword_mismatch _ 'i' 'm' _ _ h1 (by decide)]

theorem getNextToken_import_raises_witness :
    (Lexer.new ['i', 'm', 'p', 'o', 'r', 't', ' ', 'm']).input.drop
      (Lexer.new ['i', 'm', 'p', 'o', 'r', 't', ' ', 'm']).position =
      ['i', 'm', 'p', 'o', 'r', 't'] ++ [' ', 'm'] ∧
    getNextToken (Lexer.new ['i', 'm', 'p', 'o', 'r', 't', ' ', 'm']) =
      .error .unexpectedToken :=
  ⟨by decide, getNextToken_import_raises (Lexer.new ['i', 'm', 'p', 'o', 'r', 't', ' ', 'm'])
    [' ', 'm'] (by decide)⟩

/-! ## Variable environment and integers -/

theorem Variables.find_set_same (vars : Variables) (name : List Char) (value : Int) :
    (vars.set name value).find name = some value := by
  induction vars with
  | nil => simp [Variables.set, Variables.find]
  | cons kv rest ih =>
    obtain ⟨k, v⟩ := kv
    by_cases hk : k = name
    · simp [Variables.set, Variables.find, hk]
    · simp [Variables.set, Variables.find, hk, ih]

theorem Variables.find_set_other (vars : Variables) (name other : List Char) (value : Int)
    (hne : other ≠ name) : (vars.set name value).find other = vars.find other := by
  induction vars with
  | nil => simp [Variables.set, Variables.find, Ne.symm hne]
  | cons kv rest ih =>
    obtain ⟨k, v⟩ := kv
    by_cases hk : k = name
    · subst hk
      simp [Variables.set, Variables.find, Ne.symm hne]
    · by_cases hko : k = other
      · subst hko
        simp [Variables.set, Variables.find, hk]
      · simp [Variables.set, Variables.find, hk, hko, ih]

/-- A value inside the range of `int` is what `wrap32` returns for it. -/
theorem wrap32_of_range (x : Int) (hlo : -2147483648 ≤ x) (hhi : x ≤ 2147483647) :
    wrap32 x = x := by
  unfold wrap32
  omega

/-- The result of `wrap32` lies in the range of `int`. -/
theorem wrap32_range (x : Int) : -2147483648 ≤ wrap32 x ∧ wrap32 x ≤ 2147483647 := by
  unfold wrap32
  omega

/-- The division `Int.tdiv` of the embedding is the quotient truncated toward zero. -/
theorem tdiv_eq_truncQuot (v k : Int) : v.tdiv k = truncQuot v k := by
  unfold truncQuot
  rcases Int.natAbs_eq v with hv | hv <;> rcases Int.natAbs_eq k with hk | hk
  all_goals
    generalize v.natAbs = a at *
    generalize k.natAbs = b at *
    subst hv hk
    rcases Nat.eq_zero_or_pos a with ha | ha <;> rcases Nat.eq_zero_or_pos b with hb | hb
    all_goals first
      | (subst ha; simp)
      | (subst hb; simp)
      | skip
  all_goals
    simp [Int.sign_eq_one_of_pos, Int.sign_eq_neg_one_of_neg, ha, hb, Int.ofNat_tdiv]
  all_goals exact Int.tdiv_eq_ediv (Int.ofNat_nonneg _) (Int.ofNat_nonneg _)

theorem tmod_eq_sub_truncQuot (v k : Int) : v.tmod k = v - truncQuot v k * k := by
  rw [← tdiv_eq_truncQuot, Int.tmod_def, Int.mul_comm]

/-- The operator switch in terms of the specification's `apply`. -/
theorem applyOperator_eq_specApply (op : TokenType) (v k : Int)
    (hop : op = .ADD ∨ op = .SUB ∨ op = .MUL ∨ op = .DIV ∨ op = .MOD)
    (hk : op = .DIV ∨ op = .MOD → k ≠ 0) :
    applyOperator op v k = .ok (wrap32 (specApply op v k)) := by
  rcases hop with h | h | h | h | h <;> subst h
  · rfl
  · rfl
  · rfl
  · simp only [applyOperator, specApply, if_pos (hk (Or.inl rfl)), tdiv_eq_truncQuot]
  · simp only [applyOperator, specApply, if_pos (hk (Or.inr rfl)), tmod_eq_sub_truncQuot]

theorem neg_tmod (v k : Int) : (-v).tmod k = -(v.tmod k) := by
  rw [Int.tmod_def, Int.tmod_def, Int.neg_tdiv, Int.mul_neg]
  omega

/-- The remainder of the specification has the sign of the dividend and is
smaller than the divisor in absolute value. -/
theorem specApply_mod_sign (v k : Int) (hk : k ≠ 0) :
    (0 ≤ v → 0 ≤ specApply .MOD v k) ∧ (v ≤ 0 → specApply .MOD v k ≤ 0) ∧
      (specApply .MOD v k).natAbs < k.natAbs := by
  have h : specApply .MOD v k = v.tmod k := (tmod_eq_sub_truncQuot v k).symm
  rw [h]
  have hneg : ∀ w : Int, 0 ≤ (-w) → w.tmod k ≤ 0 := by
    intro w hw
    have h1 := neg_tmod w k
    have h2 : 0 ≤ (-w).tmod k := Int.tmod_nonneg k hw
    omega
  have hlt : ∀ w : Int, 0 ≤ w → (w.tmod k).natAbs < k.natAbs := by
    intro w hw
    have h0 : 0 ≤ w.tmod k := Int.tmod_nonneg k hw
    rcases Int.lt_or_gt_of_ne hk with hk' | hk'
    · have h1 : w.tmod (-k) < -k := Int.tmod_lt_of_pos w (by omega)
      rw [Int.tmod_neg] at h1
      omega
    · have h1 : w.tmod k < k := Int.tmod_lt_of_pos w hk'
      omega
  refine ⟨fun hv => Int.tmod_nonneg k hv, fun hv => hneg v (by omega), ?_⟩
  rcases Int.le_total 0 v with hv | hv
  · exact hlt v hv
  · have h1 := hlt (-v) (by omega)
    rw [neg_tmod] at h1
    omega

/-! ## C5: assignment -/

/-- C5, the behaviour of the code: `processVarAssign` does not look the name
up.  With the tokens TEXT `name`, TEXT `literal` under the cursor and `literal`
parsed to `value`, a name that is not declared is created with `value`, and
nothing is written to `cerr`. -/
theorem processVarAssign_undeclared_stores (lexer lexer1 lexer2 : Lexer) (c : Compiler)
    (name literal : List Char) (value : Int)
    (hname : getNextToken lexer = .ok (⟨.TEXT, name⟩, lexer1))
    (hlit : getNextToken lexer1 = .ok (⟨.TEXT, literal⟩, lexer2))
    (hvalue : stoi literal = .ok value)
    (hundeclared : c.vars.find name = none) :
    processVarAssign lexer c = .ok (lexer2, c.assign name value) ∧
      (c.assign name value).vars.find name = some value ∧
      (c.assign name value).vars ≠ c.vars ∧
      (c.assign name value).cerr = c.cerr := by
  refine ⟨?_, Variables.find_set_same _ _ _, ?_, rfl⟩
  · unfold processVarAssign
    rw [hname]
    dsimp only
    rw [if_neg (by simp), hlit]
    dsimp only
    rw [if_neg (by simp), hvalue]
  · intro heq
    have h1 := Variables.find_set_same c.vars name value
    have h2 : (c.assign name value).vars = c.vars.set name value := rfl
    rw [← h2, heq, hundeclared] at h1
    cases h1

theorem processVarAssign_undeclared_stores_witness :
    getNextToken ⟨[':', 'x', ' ', '5'], 1⟩ = .ok (⟨.TEXT, ['x']⟩, ⟨[':', 'x', ' ', '5'], 2⟩) ∧
    getNextToken ⟨[':', 'x', ' ', '5'], 2⟩ = .ok (⟨.TEXT, ['5']⟩, ⟨[':', 'x', ' ', '5'], 4⟩) ∧
    stoi ['5'] = .ok 5 ∧
    (Compiler.new [':', 'x', ' ', '5']).vars.find ['x'] = none ∧
    processVarAssign ⟨[':', 'x', ' ', '5'], 1⟩ (Compiler.new [':', 'x', ' ', '5']) =
      .ok (⟨[':', 'x', ' ', '5'], 4⟩, (Compiler.new [':', 'x', ' ', '5']).assign ['x'] 5) ∧
    ((Compiler.new [':', 'x', ' ', '5']).assign ['x'] 5).vars.find ['x'] = some 5 ∧
    ((Compiler.new [':', 'x', ' ', '5']).assign ['x'] 5).vars ≠
      (Compiler.new [':', 'x', ' ', '5']).vars ∧
    ((Compiler.new [':', 'x', ' ', '5']).assign ['x'] 5).cerr =
      (Compiler.new [':', 'x', ' ', '5']).cerr :=
  ⟨by decide, by decide, by decide, by decide,
    processVarAssign_undeclared_stores ⟨[':', 'x', ' ', '5'], 1⟩ ⟨[':', 'x', ' ', '5'], 2⟩
      ⟨[':', 'x', ' ', '5'], 4⟩ (Compiler.new [':', 'x', ' ', '5']) ['x'] ['5'] 5
      (by decide) (by decide) (by decide) (by decide)⟩

/-- The part of C5 that holds: the assignment to a declared name stores the
parsed value under that name. -/
theorem processVarAssign_declared_stores (lexer lexer1 lexer2 : Lexer) (c : Compiler)
    (name literal : List Char) (value old : Int)
    (hname : getNextToken lexer = .ok (⟨.TEXT, name⟩, lexer1))
    (hlit : getNextToken lexer1 = .ok (⟨.TEXT, literal⟩, lexer2))
    (hvalue : stoi literal = .ok value)
    (_hdeclared : c.vars.find name = some old) :
    processVarAssign lexer c = .ok (lexer2, c.assign name value) ∧
      (c.assign name value).vars.find name = some value := by
  refine ⟨?_, Variables.find_set_same _ _ _⟩
  unfold processVarAssign
  rw [hname]
  dsimp only
  rw [if_neg (by simp), hlit]
  dsimp only
  rw [if_neg (by simp), hvalue]

/-! ## C6, C7, C8: arithmetic -/

/-- C6: an arithmetic statement on a name that is not declared writes the
message of the undeclared variable to `cerr` and returns; the variable
environment, and the output, are what they were. -/
theorem processArithmetic_undeclared (opToken : Token) (lexer lexer1 : Lexer) (c : Compiler)
    (name : List Char)
    (hop : opToken.type = .ADD ∨ opToken.type = .SUB ∨ opToken.type = .MUL ∨
      opToken.type = .DIV ∨ opToken.type = .MOD)
    (hname : getNextToken lexer = .ok (⟨.TEXT, name⟩, lexer1))
    (hundeclared : c.vars.find name = none) :
    ∃ c', processArithmetic opToken lexer c = .ok (lexer1, c') ∧
      c'.cerr = c.cerr ++ [.undeclaredVariable] ∧ c'.vars = c.vars ∧ c'.output = c.output := by
  have _ := hop
  refine ⟨c.report .undeclaredVariable, ?_, rfl, rfl, rfl⟩
  unfold processArithmetic
  rw [hname]
  dsimp only
  rw [if_pos rfl, hundeclared]

theorem processArithmetic_undeclared_witness :
    ((⟨.ADD, ['+']⟩ : Token).type = .ADD ∨ (⟨.ADD, ['+']⟩ : Token).type = .SUB ∨
      (⟨.ADD, ['+']⟩ : Token).type = .MUL ∨ (⟨.ADD, ['+']⟩ : Token).type = .DIV ∨
      (⟨.ADD, ['+']⟩ : Token).type = .MOD) ∧
    getNextToken ⟨['+', 'y', ' ', '3'], 1⟩ = .ok (⟨.TEXT, ['y']⟩, ⟨['+', 'y', ' ', '3'], 2⟩) ∧
    (Compiler.new ['+', 'y', ' ', '3']).vars.find ['y'] = none ∧
    ∃ c', processArithmetic ⟨.ADD, ['+']⟩ ⟨['+', 'y', ' ', '3'], 1⟩
        (Compiler.new ['+', 'y', ' ', '3']) = .ok (⟨['+', 'y', ' ', '3'], 2⟩, c') ∧
      c'.cerr = (Compiler.new ['+', 'y', ' ', '3']).cerr ++ [.undeclaredVariable] ∧
      c'.vars = (Compiler.new ['+', 'y', ' ', '3']).vars ∧
      c'.output = (Compiler.new ['+', 'y', ' ', '3']).output :=
  ⟨by decide, by decide, by decide,
    processArithmetic_undeclared ⟨.ADD, ['+']⟩ ⟨['+', 'y', ' ', '3'], 1⟩
      ⟨['+', 'y', ' ', '3'], 2⟩ (Compiler.new ['+', 'y', ' ', '3']) ['y']
      (by decide) (by decide) (by decide)⟩

/-- The run of `processArithmetic` on a declared name with a literal that
parses: what is left is the operator switch. -/
theorem processArithmetic_declared (opToken : Token) (lexer lexer1 lexer2 : Lexer)
    (c : Compiler) (name literal : List Char) (v k : Int)
    (hname : getNextToken lexer = .ok (⟨.TEXT, name⟩, lexer1))
    (hlit : getNextToken lexer1 = .ok (⟨.TEXT, literal⟩, lexer2))
    (hvalue : stoi literal = .ok k)
    (hdeclared : c.vars.find name = some v) :
    processArithmetic opToken lexer c =
      match applyOperator opToken.type v k with
      | .error d => .ok (lexer2, c.report d)
      | .ok result => .ok (lexer2, c.assign name result) := by
  unfold processArithmetic
  rw [hname]
  dsimp only
  rw [if_pos rfl, hdeclared]
  dsimp only
  rw [hlit]
  dsimp only
  rw [if_neg (by simp), hvalue]

/-- C7: a DIV or MOD statement on a declared name whose operand parses to 0
writes the message of the division by zero to `cerr` and returns; no division
is made, the environment is unchanged and the name keeps its value. -/
theorem processArithmetic_divide_by_zero (opToken : Token) (lexer lexer1 lexer2 : Lexer)
    (c : Compiler) (name literal : List Char) (v : Int)
    (hop : opToken.type = .DIV ∨ opToken.type = .MOD)
    (hname : getNextToken lexer = .ok (⟨.TEXT, name⟩, lexer1))
    (hlit : getNextToken lexer1 = .ok (⟨.TEXT, literal⟩, lexer2))
    (hvalue : stoi literal = .ok 0)
    (hdeclared : c.vars.find name = some v) :
    ∃ c', processArithmetic opToken lexer c = .ok (lexer2, c') ∧
      c'.cerr = c.cerr ++ [.divideByZero] ∧ c'.vars = c.vars ∧
      c'.vars.find name = some v ∧ c'.output = c.output := by
  refine ⟨c.report .divideByZero, ?_, rfl, rfl, hdeclared, rfl⟩
  rw [processArithmetic_declared opToken lexer lexer1 lexer2 c name literal v 0 hname hlit
    hvalue hdeclared]
  rcases hop with h | h <;> rw [h] <;> rfl

theorem processArithmetic_divide_by_zero_witness :
    ((⟨.DIV, ['/']⟩ : Token).type = .DIV ∨ (⟨.DIV, ['/']⟩ : Token).type = .MOD) ∧
    getNextToken ⟨['/', 'y', ' ', '0'], 1⟩ = .ok (⟨.TEXT, ['y']⟩, ⟨['/', 'y', ' ', '0'], 2⟩) ∧
    getNextToken ⟨['/', 'y', ' ', '0'], 2⟩ = .ok (⟨.TEXT, ['0']⟩, ⟨['/', 'y', ' ', '0'], 4⟩) ∧
    stoi ['0'] = .ok 0 ∧
    ((Compiler.new ['/', 'y', ' ', '0']).assign ['y'] 7).vars.find ['y'] = some 7 ∧
    ∃ c', processArithmetic ⟨.DIV, ['/']⟩ ⟨['/', 'y', ' ', '0'], 1⟩
        ((Compiler.new ['/', 'y', ' ', '0']).assign ['y'] 7) =
          .ok (⟨['/', 'y', ' ', '0'], 4⟩, c') ∧
      c'.cerr = ((Compiler.new ['/', 'y', ' ', '0']).assign ['y'] 7).cerr ++ [.divideByZero] ∧
      c'.vars = ((Compiler.new ['/', 'y', ' ', '0']).assign ['y'] 7).vars ∧
      c'.vars.find ['y'] = some 7 ∧
      c'.output = ((Compiler.new ['/', 'y', ' ', '0']).assign ['y'] 7).output :=
  ⟨by decide, by decide, by decide, by decide, by decide,
    processArithmetic_divide_by_zero ⟨.DIV, ['/']⟩ ⟨['/', 'y', ' ', '0'], 1⟩
      ⟨['/', 'y', ' ', '0'], 2⟩ ⟨['/', 'y', ' ', '0'], 4⟩
      ((Compiler.new ['/', 'y', ' ', '0']).assign ['y'] 7) ['y'] ['0'] 7
      (by decide) (by decide) (by decide) (by decide) (by decide)⟩

/-- C8: a successful arithmetic statement on a declared name with value `v`
and operand `k` (not 0 for DIV and MOD) stores the 32-bit value of
`apply(op, v, k)` under the name and changes no other variable, nor `cerr`, nor
the output; `apply` is the sum, the difference, the product, the quotient
truncated toward zero, and the remainder `r` with `v = (v quot k) * k + r`,
which has the sign of `v`.  A result inside the range of `int` is stored as
it is. -/
theorem processArithmetic_stores (opToken : Token) (lexer lexer1 lexer2 : Lexer)
    (c : Compiler) (name literal : List Char) (v k : Int)
    (hop : opToken.type = .ADD ∨ opToken.type = .SUB ∨ opToken.type = .MUL ∨
      opToken.type = .DIV ∨ opToken.type = .MOD)
    (hname : getNextToken lexer = .ok (⟨.TEXT, name⟩, lexer1))
    (hlit : getNextToken lexer1 = .ok (⟨.TEXT, literal⟩, lexer2))
    (hvalue : stoi literal = .ok k)
    (hdeclared : c.vars.find name = some v)
    (hk : opToken.type = .DIV ∨ opToken.type = .MOD → k ≠ 0) :
    ∃ c', processArithmetic opToken lexer c = .ok (lexer2, c') ∧
      c'.vars.find name = some (wrap32 (specApply opToken.type v k)) ∧
      (-2147483648 ≤ specApply opToken.type v k → specApply opToken.type v k ≤ 2147483647 →
        c'.vars.find name = some (specApply opToken.type v k)) ∧
      (∀ other, other ≠ name → c'.vars.find other = c.vars.find other) ∧
      c'.cerr = c.cerr ∧ c'.output = c.output ∧
      (k ≠ 0 → v = specApply .DIV v k * k + specApply .MOD v k ∧
        (0 ≤ v → 0 ≤ specApply .MOD v k) ∧ (v ≤ 0 → specApply .MOD v k ≤ 0) ∧
        (specApply .MOD v k).natAbs < k.natAbs) := by
  refine ⟨c.assign name (wrap32 (specApply opToken.type v k)), ?_,
    Variables.find_set_same _ _ _, ?_, ?_, rfl, rfl, ?_⟩
  · rw [processArithmetic_declared opToken lexer lexer1 lexer2 c name literal v k hname hlit
      hvalue hdeclared, applyOperator_eq_specApply opToken.type v k hop hk]
  · intro hlo hhi
    rw [wrap32_of_range _ hlo hhi]
    exact Variables.find_set_same _ _ _
  · intro other hne
    exact Variables.find_set_other _ _ _ _ hne
  · intro hk0
    refine ⟨?_, specApply_mod_sign v k hk0⟩
    show v = truncQuot v k * k + (v - truncQuot v k * k)
    omega

theorem processArithmetic_stores_witness :
    ((⟨.MOD, ['%']⟩ : Token).type = .ADD ∨ (⟨.MOD, ['%']⟩ : Token).type = .SUB ∨
      (⟨.MOD, ['%']⟩ : Token).type = .MUL ∨ (⟨.MOD, ['%']⟩ : Token).type = .DIV ∨
      (⟨.MOD, ['%']⟩ : Token).type = .MOD) ∧
    getNextToken ⟨['%', 'y', ' ', '3'], 1⟩ = .ok (⟨.TEXT, ['y']⟩, ⟨['%', 'y', ' ', '3'], 2⟩) ∧
    getNextToken ⟨['%', 'y', ' ', '3'], 2⟩ = .ok (⟨.TEXT, ['3']⟩, ⟨['%', 'y', ' ', '3'], 4⟩) ∧
    stoi ['3'] = .ok 3 ∧
    ((Compiler.new ['%', 'y', ' ', '3']).assign ['y'] (-7)).vars.find ['y'] = some (-7) ∧
    ((⟨.MOD, ['%']⟩ : Token).type = .DIV ∨ (⟨.MOD, ['%']⟩ : Token).type = .MOD →
      (3 : Int) ≠ 0) ∧
    ∃ c', processArithmetic ⟨.MOD, ['%']⟩ ⟨['%', 'y', ' ', '3'], 1⟩
        ((Compiler.new ['%', 'y', ' ', '3']).assign ['y'] (-7)) =
          .ok (⟨['%', 'y', ' ', '3'], 4⟩, c') ∧
      c'.vars.find ['y'] = some (wrap32 (specApply .MOD (-7) 3)) ∧
      (-2147483648 ≤ specApply .MOD (-7) 3 → specApply .MOD (-7) 3 ≤ 2147483647 →
        c'.vars.find ['y'] = some (specApply .MOD (-7) 3)) ∧
      (∀ other, other ≠ ['y'] → c'.vars.find other =
        ((Compiler.new ['%', 'y', ' ', '3']).assign ['y'] (-7)).vars.find other) ∧
      c'.cerr = ((Compiler.new ['%', 'y', ' ', '3']).assign ['y'] (-7)).cerr ∧
      c'.output = ((Compiler.new ['%', 'y', ' ', '3']).assign ['y'] (-7)).output ∧
      ((3 : Int) ≠ 0 → (-7 : Int) = specApply .DIV (-7) 3 * 3 + specApply .MOD (-7) 3 ∧
        ((0 : Int) ≤ -7 → 0 ≤ specApply .MOD (-7) 3) ∧
        ((-7 : Int) ≤ 0 → specApply .MOD (-7) 3 ≤ 0) ∧
        (specApply .MOD (-7) 3).natAbs < (3 : Int).natAbs) :=
  ⟨by decide, by decide, by decide, by decide, by decide, by decide,
    processArithmetic_stores ⟨.MOD, ['%']⟩ ⟨['%', 'y', ' ', '3'], 1⟩
      ⟨['%', 'y', ' ', '3'], 2⟩ ⟨['%', 'y', ' ', '3'], 4⟩
      ((Compiler.new ['%', 'y', ' ', '3']).assign ['y'] (-7)) ['y'] ['3'] (-7) 3
      (by decide) (by decide) (by decide) (by decide) (by decide) (by decide)⟩

/-- The values of the specification's `apply` on the operands -7 and 3. -/
theorem specApply_examples :
    specApply .DIV (-7) 3 = -2 ∧ specApply .MOD (-7) 3 = -1 ∧ specApply .DIV 7 (-3) = -2 ∧
      specApply .MOD 7 (-3) = 1 ∧ wrap32 (specApply .ADD 2147483647 1) = -2147483648 := by
  decide

/-! ## C9: declaration -/

/-- C9: the declaration statement with the token TEXT `name` under the cursor
maps `name` to 0, whatever it held before, and leaves every other name as it
was. -/
theorem processVarDecl_resets (lexer lexer1 : Lexer) (c : Compiler) (name : List Char)
    (hname : getNextToken lexer = .ok (⟨.TEXT, name⟩, lexer1)) :
    ∃ c', processVarDecl lexer c = .ok (lexer1, c') ∧
      c'.vars.find name = some 0 ∧
      (∀ other, other ≠ name → c'.vars.find other = c.vars.find other) ∧
      c'.cerr = c.cerr ∧ c'.output = c.output := by
  refine ⟨c.assign name 0, ?_, Variables.find_set_same _ _ _, ?_, rfl, rfl⟩
  · unfold processVarDecl
    rw [hname]
    dsimp only
    rw [if_neg (by simp)]
  · intro other hne
    exact Variables.find_set_other _ _ _ _ hne

theorem processVarDecl_resets_witness :
    getNextToken ⟨['&', 'x'], 1⟩ = .ok (⟨.TEXT, ['x']⟩, ⟨['&', 'x'], 2⟩) ∧
    ∃ c', processVarDecl ⟨['&', 'x'], 1⟩ ((Compiler.new ['&', 'x']).assign ['x'] 5) =
        .ok (⟨['&', 'x'], 2⟩, c') ∧
      c'.vars.find ['x'] = some 0 ∧
      (∀ other, other ≠ ['x'] → c'.vars.find other =
        ((Compiler.new ['&', 'x']).assign ['x'] 5).vars.find other) ∧
      c'.cerr = ((Compiler.new ['&', 'x']).assign ['x'] 5).cerr ∧
      c'.output = ((Compiler.new ['&', 'x']).assign ['x'] 5).output :=
  ⟨by decide, processVarDecl_resets ⟨['&', 'x'], 1⟩ ⟨['&', 'x'], 2⟩
    ((Compiler.new ['&', 'x']).assign ['x'] 5) ['x'] (by decide)⟩

/-! ## C10: `if` on a variable that is 0 -/

/-- Reading tokens other than END moves the cursor by at least one character
for each of them and keeps it inside the input. -/
theorem readTokens_progress :
    ∀ (tokens : List Token) (lexer lexer' : Lexer), readTokens tokens lexer = some lexer' →
      (∀ t ∈ tokens, t.type ≠ .END) →
      lexer'.input = lexer.input ∧ lexer.position + tokens.length ≤ lexer'.position ∧
        (tokens ≠ [] → lexer'.position ≤ lexer.input.length) := by
  intro tokens
  induction tokens with
  | nil =>
    intro lexer lexer' h _
    simp only [readTokens, Option.some.injEq] at h
    subst h
    exact ⟨rfl, by simp, fun hne => absurd rfl hne⟩
  | cons t tokens ih =>
    intro lexer lexer' h hall
    rw [readTokens] at h
    cases hg : getNextToken lexer with
    | error e => rw [hg] at h; cases h
    | ok r =>
      obtain ⟨t', lexer1⟩ := r
      rw [hg] at h
      dsimp only at h
      by_cases ht : t' = t
      · rw [if_pos ht] at h
        subst ht
        obtain ⟨h1, h2, h3⟩ := getNextToken_progress lexer t' lexer1 hg
          (hall t' (List.mem_cons_self _ _))
        obtain ⟨k1, k2, k3⟩ := ih lexer1 lexer' h
          (fun x hx => hall x (List.mem_cons_of_mem _ hx))
        refine ⟨k1.trans h1, ?_, fun _ => ?_⟩
        · rw [List.length_cons]
          omega
        · by_cases hnil : tokens = []
          · subst hnil
            simp only [readTokens, Option.some.injEq] at h
            rw [← h]
            exact h3
          · rw [← h1]
            exact k3 hnil
      · rw [if_neg ht] at h
        cases h

/-- The loop of `skipToElse` passes over tokens that are neither ELSE nor END. -/
theorem skipToElseFuel_skip (c : Compiler) :
    ∀ (tokens : List Token) (fuel : Nat) (lexer lexer' : Lexer),
      readTokens tokens lexer = some lexer' →
      (∀ t ∈ tokens, t.type ≠ .ELSE ∧ t.type ≠ .END) →
      skipToElseFuel (fuel + tokens.length) lexer c = skipToElseFuel fuel lexer' c := by
  intro tokens
  induction tokens with
  | nil =>
    intro fuel lexer lexer' h _
    simp only [readTokens, Option.some.injEq] at h
    subst h
    rfl
  | cons t tokens ih =>
    intro fuel lexer lexer' h hall
    rw [readTokens] at h
    cases hg : getNextToken lexer with
    | error e => rw [hg] at h; cases h
    | ok r =>
      obtain ⟨t', lexer1⟩ := r
      rw [hg] at h
      dsimp only at h
      by_cases ht : t' = t
      · rw [if_pos ht] at h
        subst ht
        obtain ⟨hne1, hne2⟩ := hall t' (List.mem_cons_self _ _)
        have hlen : fuel + (t' :: tokens).length = (fuel + tokens.length) + 1 := by
          rw [List.length_cons]
          omega
        rw [hlen, skipToElseFuel, hg]
        dsimp only
        rw [if_neg hne2, if_neg hne1]
        exact ih fuel lexer1 lexer' h (fun x hx => hall x (List.mem_cons_of_mem _ hx))
      · rw [if_neg ht] at h
        cases h

/-- What `skipToElse` does when the tokens `skipped`, none of them ELSE or END,
are followed by the token `last`: on ELSE it stops behind it and changes
nothing, on END it writes the message of the missing ELSE. -/
theorem skipToElse_eq (c : Compiler) (skipped : List Token) (last : Token)
    (lexer1 lexer2 lexer3 : Lexer)
    (hskip : readTokens skipped lexer1 = some lexer2)
    (hnone : ∀ t ∈ skipped, t.type ≠ .ELSE ∧ t.type ≠ .END)
    (hlast : getNextToken lexer2 = .ok (last, lexer3)) :
    (last.type = .ELSE → skipToElse lexer1 c = .ok (lexer3, c)) ∧
    (last.type = .END → skipToElse lexer1 c = .ok (lexer3, c.report .missingElse)) := by
  obtain ⟨h1, h2, h3⟩ := readTokens_progress skipped lexer1 lexer2 hskip
    (fun t ht => (hnone t ht).2)
  have hlen : skipped.length ≤ lexer1.input.length - lexer1.position := by
    by_cases hnil : skipped = []
    · subst hnil
      simp
    · have := h3 hnil
      omega
  have hfuel : lexer1.input.length - lexer1.position + 1 =
      (lexer1.input.length - lexer1.position - skipped.length + 1) + skipped.length := by
    omega
  have hrun : skipToElse lexer1 c =
      skipToElseFuel (lexer1.input.length - lexer1.position - skipped.length + 1) lexer2 c := by
    rw [skipToElse, hfuel]
    exact skipToElseFuel_skip c skipped _ lexer1 lexer2 hskip hnone
  rw [hrun, skipToElseFuel, hlast]
  dsimp only
  constructor
  · intro he
    rw [if_neg (by rw [he]; decide), if_pos he]
  · intro he
    rw [if_pos he]

theorem processIfStatement_zero (compile : Compiler → Run Compiler) (lexer lexer1 : Lexer)
    (c : Compiler) (name : List Char)
    (hname : getNextToken lexer = .ok (⟨.TEXT, name⟩, lexer1))
    (hzero : c.vars.find name = some 0) :
    processIfStatement compile lexer c = Run.ofExcept (skipToElse lexer1 c) := by
  unfold processIfStatement
  rw [hname]
  dsimp only
  rw [if_neg (by simp), hzero]
  dsimp only
  rw [if_neg (by simp)]

/-- One round of the main loop on an IF token. -/
theorem compileLoop_if (fuel : Nat) (isFirstStatement : Bool) (c : Compiler)
    (lexer0 lexer : Lexer) (ifToken : Token)
    (hif : getNextToken lexer0 = .ok (ifToken, lexer)) (hiftype : ifToken.type = .IF) :
    compileLoop (fuel + 1) lexer0 isFirstStatement c =
      match processIfStatement (fun c => compileLoop fuel (Lexer.new c.source) true c) lexer
          (if isFirstStatement = true then c.say .welcome else c) with
      | .done (lexer, c) => compileLoop fuel lexer false c
      | .raised e => .raised e
      | .fuelOut => .fuelOut := by
  obtain ⟨ty, v⟩ := ifToken
  simp only at hiftype
  subst hiftype
  rw [compileLoop, hif]
  dsimp only
  rw [if_neg (by decide)]

/-- C10: an `if` whose variable is declared with the value 0 discards the
tokens up to and including the next ELSE: with `skipped` the tokens before
that ELSE, the statement returns with the lexer right behind the ELSE and with
the same compiler state (output, variables and `cerr` untouched), and the main
loop goes on from there.  When END comes before any ELSE, the message of the
missing ELSE is written and the main loop ends the run. -/
theorem if_zero_skips_to_else (fuel : Nat) (isFirstStatement : Bool) (c : Compiler)
    (lexer0 lexer lexer1 lexer2 lexer3 : Lexer) (ifToken last : Token) (name : List Char)
    (skipped : List Token)
    (hif : getNextToken lexer0 = .ok (ifToken, lexer)) (hiftype : ifToken.type = .IF)
    (hname : getNextToken lexer = .ok (⟨.TEXT, name⟩, lexer1))
    (hzero : c.vars.find name = some 0)
    (hskip : readTokens skipped lexer1 = some lexer2)
    (hnone : ∀ t ∈ skipped, t.type ≠ .ELSE ∧ t.type ≠ .END)
    (hlast : getNextToken lexer2 = .ok (last, lexer3)) :
    (last.type = .ELSE →
      (∀ compile, processIfStatement compile lexer c = .done (lexer3, c)) ∧
      compileLoop (fuel + 1) lexer0 isFirstStatement c =
        compileLoop fuel lexer3 false (if isFirstStatement = true then c.say .welcome else c)) ∧
    (last.type = .END →
      (∀ compile, processIfStatement compile lexer c =
        .done (lexer3, c.report .missingElse)) ∧
      compileLoop (fuel + 2) lexer0 isFirstStatement c =
        .done (((if isFirstStatement = true then c.say .welcome else c).report
          .missingElse).say .completed)) := by
  have hzero' : (if isFirstStatement = true then c.say .welcome else c).vars.find name =
      some 0 := by
    cases isFirstStatement <;> exact hzero
  constructor
  · intro he
    constructor
    · intro compile
      rw [processIfStatement_zero compile lexer lexer1 c name hname hzero,
        (skipToElse_eq c skipped last lexer1 lexer2 lexer3 hskip hnone hlast).1 he]
      rfl
    · rw [compileLoop_if fuel isFirstStatement c lexer0 lexer ifToken hif hiftype,
        processIfStatement_zero _ lexer lexer1 _ name hname hzero',
        (skipToElse_eq _ skipped last lexer1 lexer2 lexer3 hskip hnone hlast).1 he]
      rfl
  · intro he
    constructor
    · intro compile
      rw [processIfStatement_zero compile lexer lexer1 c name hname hzero,
        (skipToElse_eq c skipped last lexer1 lexer2 lexer3 hskip hnone hlast).2 he]
      rfl
    · obtain ⟨-, -, hend⟩ := getNextToken_end lexer2 last lexer3 hlast he
      rw [compileLoop_if (fuel + 1) isFirstStatement c lexer0 lexer ifToken hif hiftype,
        processIfStatement_zero _ lexer lexer1 _ name hname hzero',
        (skipToElse_eq _ skipped last lexer1 lexer2 lexer3 hskip hnone hlast).2 he]
      show compileLoop (fuel + 1) lexer3 false _ = _
      rw [compileLoop, getNextToken_none lexer3 hend]
      rfl

theorem if_zero_skips_to_else_witness :
    (getNextToken ⟨ifElseProgram, 0⟩ = .ok (⟨.IF, ['i', 'f']⟩, ⟨ifElseProgram, 3⟩) ∧
      getNextToken ⟨ifElseProgram, 3⟩ = .ok (⟨.TEXT, ['x']⟩, ⟨ifElseProgram, 5⟩) ∧
      ((Compiler.new ifElseProgram).assign ['x'] 0).vars.find ['x'] = some 0 ∧
      readTokens [⟨.TEXT, ['A']⟩] ⟨ifElseProgram, 5⟩ = some ⟨ifElseProgram, 7⟩ ∧
      getNextToken ⟨ifElseProgram, 7⟩ =
        .ok (⟨.ELSE, ['e', 'l', 's', 'e']⟩, ⟨ifElseProgram, 13⟩)) ∧
    ((∀ compile, processIfStatement compile ⟨ifElseProgram, 3⟩
        ((Compiler.new ifElseProgram).assign ['x'] 0) =
          .done (⟨ifElseProgram, 13⟩, (Compiler.new ifElseProgram).assign ['x'] 0)) ∧
      compileLoop (3 + 1) ⟨ifElseProgram, 0⟩ true ((Compiler.new ifElseProgram).assign ['x'] 0) =
        compileLoop 3 ⟨ifElseProgram, 13⟩ false
          (if true = true then ((Compiler.new ifElseProgram).assign ['x'] 0).say .welcome
            else (Compiler.new ifElseProgram).assign ['x'] 0)) ∧
    (getNextToken ⟨ifOnlyProgram, 0⟩ = .ok (⟨.IF, ['i', 'f']⟩, ⟨ifOnlyProgram, 3⟩) ∧
      getNextToken ⟨ifOnlyProgram, 3⟩ = .ok (⟨.TEXT, ['x']⟩, ⟨ifOnlyProgram, 5⟩) ∧
      readTokens [⟨.TEXT, ['A']⟩] ⟨ifOnlyProgram, 5⟩ = some ⟨ifOnlyProgram, 7⟩ ∧
      getNextToken ⟨ifOnlyProgram, 7⟩ = .ok (⟨.END, []⟩, ⟨ifOnlyProgram, 7⟩)) ∧
    ((∀ compile, processIfStatement compile ⟨ifOnlyProgram, 3⟩
        ((Compiler.new ifOnlyProgram).assign ['x'] 0) =
          .done (⟨ifOnlyProgram, 7⟩,
            ((Compiler.new ifOnlyProgram).assign ['x'] 0).report .missingElse)) ∧
      compileLoop (0 + 2) ⟨ifOnlyProgram, 0⟩ true ((Compiler.new ifOnlyProgram).assign ['x'] 0) =
        .done (((if true = true then ((Compiler.new ifOnlyProgram).assign ['x'] 0).say .welcome
          else (Compiler.new ifOnlyProgram).assign ['x'] 0).report .missingElse).say
            .completed)) :=
  ⟨⟨by decide, by decide, by decide, by decide, by decide⟩,
    (if_zero_skips_to_else 3 true ((Compiler.new ifElseProgram).assign ['x'] 0)
      ⟨ifElseProgram, 0⟩ ⟨ifElseProgram, 3⟩ ⟨ifElseProgram, 5⟩ ⟨ifElseProgram, 7⟩
      ⟨ifElseProgram, 13⟩ ⟨.IF, ['i', 'f']⟩ ⟨.ELSE, ['e', 'l', 's', 'e']⟩ ['x']
      [⟨.TEXT, ['A']⟩] (by decide) (by decide) (by decide) (by decide) (by decide) (by decide)
      (by decide)).1 (by decide),
    ⟨by decide, by decide, by decide, by decide⟩,
    (if_zero_skips_to_else 0 true ((Compiler.new ifOnlyProgram).assign ['x'] 0)
      ⟨ifOnlyProgram, 0⟩ ⟨ifOnlyProgram, 3⟩ ⟨ifOnlyProgram, 5⟩ ⟨ifOnlyProgram, 7⟩
      ⟨ifOnlyProgram, 7⟩ ⟨.IF, ['i', 'f']⟩ ⟨.END, []⟩ ['x']
      [⟨.TEXT, ['A']⟩] (by decide) (by decide) (by decide) (by decide) (by decide) (by decide)
      (by decide)).2 (by decide)⟩

/-- The two programs run whole, `x` declared first: the text before the
`else` is not written, the text behind it is. -/
theorem if_zero_examples :
    compile 6 (Compiler.new (['&', 'x', ' '] ++ ifElseProgram)) =
      .done { Compiler.new (['&', 'x', ' '] ++ ifElseProgram) with
        vars := [(['x'], 0)], output := ['B'], cout := [.welcome, .completed] } ∧
    compile 6 (Compiler.new (['&', 'x', ' '] ++ ifOnlyProgram)) =
      .done { Compiler.new (['&', 'x', ' '] ++ ifOnlyProgram) with
        vars := [(['x'], 0)], cerr := [.missingElse], cout := [.welcome, .completed] } := by
  decide

/-! ## Inversion of the lexer -/

/-- Every way in which the body of `getNextToken` returns a token: END at the
end of the input; the result of the recursive call on whitespace; an operator
token of one character; one of the keyword tokens IF, ELSE, FOR; or a TEXT
token made of the character under the cursor and the alphanumeric run behind
it. -/
theorem getNextTokenBody_inv (recurse : Lexer → Except Exn (Token × Lexer)) (lx : Lexer)
    (t : Token) (lx' : Lexer) (h : getNextTokenBody recurse lx = .ok (t, lx')) :
    (lx.input[lx.position]? = none ∧ t = ⟨.END, []⟩ ∧ lx' = lx) ∨
    (∃ ch, lx.input[lx.position]? = some ch ∧ isspace ch = true ∧
      recurse { lx with position := lx.position + 1 } = .ok (t, lx')) ∨
    (∃ ch, lx.input[lx.position]? = some ch ∧ isOperatorChar ch = true ∧ t.value = [ch] ∧
      (t.type = .VAR_DECL ∨ t.type = .VAR_ASSIGN ∨ t.type = .ADD ∨ t.type = .SUB ∨
        t.type = .MUL ∨ t.type = .DIV ∨ t.type = .MOD) ∧
      lx' = { lx with position := lx.position + 1 }) ∨
    (∃ ch p, lx.input[lx.position]? = some ch ∧ startsKeyword ch = true ∧
      (t.type = .IF ∨ t.type = .ELSE ∨ t.type = .FOR) ∧
      lx' = { lx with position := p }) ∨
    (∃ ch, lx.input[lx.position]? = some ch ∧ isOperatorChar ch = false ∧
      isspace ch = false ∧ startsKeyword ch = false ∧
      t = ⟨.TEXT, ch :: (lx.input.drop (lx.position + 1)).takeWhile isalnum⟩ ∧
      lx' = { lx with position :=
        lx.position + 1 + ((lx.input.drop (lx.position + 1)).takeWhile isalnum).length }) := by
  unfold getNextTokenBody at h
  cases hd : lx.input[lx.position]? with
  | none =>
    rw [hd] at h
    simp only [Except.ok.injEq, Prod.mk.injEq] at h
    exact Or.inl ⟨rfl, h.1.symm, h.2.symm⟩
  | some ch =>
    rw [hd] at h
    dsimp only at h
    by_cases h0 : ch = '&'
    · rw [if_pos h0] at h
      simp only [Except.ok.injEq, Prod.mk.injEq] at h
      obtain ⟨rfl, rfl⟩ := h
      exact Or.inr (Or.inr (Or.inl ⟨ch, rfl, by rw [h0]; decide, by rw [h0], Or.inl rfl, rfl⟩))
    rw [if_neg h0] at h
    by_cases h1 : ch = ':'
    · rw [if_pos h1] at h
      simp only [Except.ok.injEq, Prod.mk.injEq] at h
      obtain ⟨rfl, rfl⟩ := h
      exact Or.inr (Or.inr (Or.inl ⟨ch, rfl, by rw [h1]; decide, by rw [h1], Or.inr (Or.inl rfl), rfl⟩))
    rw [if_neg h1] at h
    by_cases h2 : ch = '+'
    · rw [if_pos h2] at h
      simp only [Except.ok.injEq, Prod.mk.injEq] at h
      obtain ⟨rfl, rfl⟩ := h
      exact Or.inr (Or.inr (Or.inl ⟨ch, rfl, by rw [h2]; decide, by rw [h2], Or.inr (Or.inr (Or.inl rfl)), rfl⟩))
    rw [if_neg h2] at h
    by_cases h3 : ch = '-'
    · rw [if_pos h3] at h
      simp only [Except.ok.injEq, Prod.mk.injEq] at h
      obtain ⟨rfl, rfl⟩ := h
      exact Or.inr (Or.inr (Or.inl ⟨ch, rfl, by rw [h3]; decide, by rw [h3], Or.inr (Or.inr (Or.inr (Or.inl rfl))), rfl⟩))
    rw [if_neg h3] at h
    by_cases h4 : ch = '*'
    · rw [if_pos h4] at h
      simp only [Except.ok.injEq, Prod.mk.injEq] at h
      obtain ⟨rfl, rfl⟩ := h
      exact Or.inr (Or.inr (Or.inl ⟨ch, rfl, by rw [h4]; decide, by rw [h4], Or.inr (Or.inr (Or.inr (Or.inr (Or.inl rfl)))), rfl⟩))
    rw [if_neg h4] at h
    by_cases h5 : ch = '/'
    · rw [if_pos h5] at h
      simp only [Except.ok.injEq, Prod.mk.injEq] at h
      obtain ⟨rfl, rfl⟩ := h
      exact Or.inr (Or.inr (Or.inl ⟨ch, rfl, by rw [h5]; decide, by rw [h5], Or.inr (Or.inr (Or.inr (Or.inr (Or.inr (Or.inl rfl))))), rfl⟩))
    rw [if_neg h5] at h
    by_cases h6 : ch = '%'
    · rw [if_pos h6] at h
      simp only [Except.ok.injEq, Prod.mk.injEq] at h
      obtain ⟨rfl, rfl⟩ := h
      exact Or.inr (Or.inr (Or.inl ⟨ch, rfl, by rw [h6]; decide, by rw [h6], Or.inr (Or.inr (Or.inr (Or.inr (Or.inr (Or.inr (rfl)))))), rfl⟩))
    rw [if_neg h6] at h
    by_cases hs : isspace ch = true
    · rw [if_pos hs] at h
      exact Or.inr (Or.inl ⟨ch, rfl, hs, h⟩)
    rw [if_neg hs] at h
    by_cases ki : ch = 'i'
    · rw [if_pos ki] at h
      split at h
      · exact absurd h (by simp)
      · rename_i p hp
        simp only [Except.ok.injEq, Prod.mk.injEq] at h
        obtain ⟨rfl, rfl⟩ := h
        exact Or.inr (Or.inr (Or.inr (Or.inl ⟨ch, p, rfl, by rw [ki]; decide, Or.inl rfl, rfl⟩)))
    rw [if_neg ki] at h
    by_cases ke : ch = 'e'
    · rw [if_pos ke] at h
      split at h
      · exact absurd h (by simp)
      · rename_i p hp
        simp only [Except.ok.injEq, Prod.mk.injEq] at h
        obtain ⟨rfl, rfl⟩ := h
        exact Or.inr (Or.inr (Or.inr (Or.inl ⟨ch, p, rfl, by rw [ke]; decide, Or.inr (Or.inl rfl), rfl⟩)))
    rw [if_neg ke] at h
    by_cases kf : ch = 'f'
    · rw [if_pos kf] at h
      split at h
      · exact absurd h (by simp)
      · rename_i p hp
        simp only [Except.ok.injEq, Prod.mk.injEq] at h
        obtain ⟨rfl, rfl⟩ := h
        exact Or.inr (Or.inr (Or.inr (Or.inl ⟨ch, p, rfl, by rw [kf]; decide, Or.inr (Or.inr (rfl)), rfl⟩)))
    rw [if_neg kf] at h
    rw [if_neg ke, if_neg ki] at h
    simp only [Except.ok.injEq, Prod.mk.injEq] at h
    obtain ⟨rfl, rfl⟩ := h
    rw [scanText_eq _ _ _ _ (le_refl _)]
    refine Or.inr (Or.inr (Or.inr (Or.inr ⟨ch, rfl, ?_, by simpa using hs, ?_, rfl, rfl⟩)))
    · simp only [isOperatorChar, Bool.or_eq_false_iff, decide_eq_false_iff_not]
      exact ⟨⟨⟨⟨⟨⟨h0, h1⟩, h2⟩, h3⟩, h4⟩, h5⟩, h6⟩
    · simp only [startsKeyword, Bool.or_eq_false_iff, decide_eq_false_iff_not]
      exact ⟨⟨ki, ke⟩, kf⟩

/-- The lexer never moves backward and never changes its input. -/
theorem getNextTokenFuel_mono :
    ∀ (fuel : Nat) (lx : Lexer) (t : Token) (lx' : Lexer),
      getNextTokenFuel fuel lx = .ok (t, lx') →
      lx'.input = lx.input ∧ lx.position ≤ lx'.position := by
  intro fuel
  induction fuel with
  | zero =>
    intro lx t lx' h
    rw [getNextTokenFuel] at h
    rcases getNextTokenBody_cases _ lx t lx' h with ⟨-, -, h2⟩ | ⟨ch, -, -, h1⟩ | ⟨-, h1, h2, -⟩
    · rw [h2]
      exact ⟨rfl, le_refl _⟩
    · simp only [Except.ok.injEq, Prod.mk.injEq] at h1
      rw [← h1.2]
      exact ⟨rfl, Nat.le_succ _⟩
    · exact ⟨h1, Nat.le_of_lt h2⟩
  | succ fuel ih =>
    intro lx t lx' h
    rw [getNextTokenFuel] at h
    rcases getNextTokenBody_cases _ lx t lx' h with ⟨-, -, h2⟩ | ⟨ch, -, -, h1⟩ | ⟨-, h1, h2, -⟩
    · rw [h2]
      exact ⟨rfl, le_refl _⟩
    · obtain ⟨k1, k2⟩ := ih { lx with position := lx.position + 1 } t lx' h1
      exact ⟨k1, Nat.le_of_lt k2⟩
    · exact ⟨h1, Nat.le_of_lt h2⟩

theorem getNextToken_mono (lx : Lexer) (t : Token) (lx' : Lexer)
    (h : getNextToken lx = .ok (t, lx')) :
    lx'.input = lx.input ∧ lx.position ≤ lx'.position :=
  getNextTokenFuel_mono _ lx t lx' h

/-- No amount of fuel makes the lexer return an ELSEIF or an IMPORT token. -/
theorem getNextTokenFuel_kind :
    ∀ (fuel : Nat) (lx : Lexer) (t : Token) (lx' : Lexer),
      getNextTokenFuel fuel lx = .ok (t, lx') → t.type ≠ .ELSEIF ∧ t.type ≠ .IMPORT := by
  have key : ∀ (recurse : Lexer → Except Exn (Token × Lexer)) (lx : Lexer) (t : Token)
      (lx' : Lexer),
      (∀ t1 lx1, recurse { lx with position := lx.position + 1 } = .ok (t1, lx1) →
        t1.type ≠ .ELSEIF ∧ t1.type ≠ .IMPORT) →
      getNextTokenBody recurse lx = .ok (t, lx') → t.type ≠ .ELSEIF ∧ t.type ≠ .IMPORT := by
    intro recurse lx t lx' hrec h
    rcases getNextTokenBody_inv recurse lx t lx' h with
      ⟨-, h1, -⟩ | ⟨ch, -, -, h1⟩ | ⟨ch, -, -, -, h1, -⟩ | ⟨ch, p, -, -, h1, -⟩ |
      ⟨ch, -, -, -, -, h1, -⟩
    · rw [h1]
      exact ⟨by decide, by decide⟩
    · exact hrec t lx' h1
    · rcases h1 with h1 | h1 | h1 | h1 | h1 | h1 | h1 <;> rw [h1] <;>
        exact ⟨by decide, by decide⟩
    · rcases h1 with h1 | h1 | h1 <;> rw [h1] <;> exact ⟨by decide, by decide⟩
    · rw [h1]
      exact ⟨by simp, by simp⟩
  intro fuel
  induction fuel with
  | zero =>
    intro lx t lx' h
    rw [getNextTokenFuel] at h
    refine key _ lx t lx' ?_ h
    intro t1 lx1 h1
    simp only [Except.ok.injEq, Prod.mk.injEq] at h1
    rw [← h1.1]
    exact ⟨by decide, by decide⟩
  | succ fuel ih =>
    intro lx t lx' h
    rw [getNextTokenFuel] at h
    exact key _ lx t lx' (fun t1 lx1 h1 => ih _ t1 lx1 h1) h

/-! ## C14: TEXT tokens -/

/-- The shape of a call that returns a TEXT token, for any amount of fuel:
whitespace is passed over, then the token takes one character that is no
whitespace and the whole alphanumeric run behind it. -/
theorem getNextTokenFuel_text_shape :
    ∀ (fuel : Nat) (lx : Lexer) (t : Token) (lx' : Lexer),
      getNextTokenFuel fuel lx = .ok (t, lx') → t.type = .TEXT →
      ∃ (ws : List Char) (ch : Char) (run : List Char),
        (∀ w ∈ ws, isspace w = true) ∧ isspace ch = false ∧ isOperatorChar ch = false ∧
        t.value = ch :: run ∧ (∀ d ∈ run, isalnum d = true) ∧
        lx.input.drop lx.position = ws ++ (ch :: run ++ lx'.input.drop lx'.position) ∧
        (∀ d, (lx'.input.drop lx'.position).head? = some d → isalnum d = false) ∧
        lx'.input = lx.input ∧ lx'.position = lx.position + ws.length + 1 + run.length := by
  have key : ∀ (recurse : Lexer → Except Exn (Token × Lexer)) (lx : Lexer) (t : Token)
      (lx' : Lexer),
      (∀ t1 lx1, recurse { lx with position := lx.position + 1 } = .ok (t1, lx1) →
        t1.type = .TEXT →
        ∃ (ws : List Char) (ch : Char) (run : List Char),
          (∀ w ∈ ws, isspace w = true) ∧ isspace ch = false ∧ isOperatorChar ch = false ∧
          t1.value = ch :: run ∧ (∀ d ∈ run, isalnum d = true) ∧
          lx.input.drop (lx.position + 1) = ws ++ (ch :: run ++ lx1.input.drop lx1.position) ∧
          (∀ d, (lx1.input.drop lx1.position).head? = some d → isalnum d = false) ∧
          lx1.input = lx.input ∧ lx1.position = lx.position + 1 + ws.length + 1 + run.length) →
      getNextTokenBody recurse lx = .ok (t, lx') → t.type = .TEXT →
      ∃ (ws : List Char) (ch : Char) (run : List Char),
        (∀ w ∈ ws, isspace w = true) ∧ isspace ch = false ∧ isOperatorChar ch = false ∧
        t.value = ch :: run ∧ (∀ d ∈ run, isalnum d = true) ∧
        lx.input.drop lx.position = ws ++ (ch :: run ++ lx'.input.drop lx'.position) ∧
        (∀ d, (lx'.input.drop lx'.position).head? = some d → isalnum d = false) ∧
        lx'.input = lx.input ∧ lx'.position = lx.position + ws.length + 1 + run.length := by
    intro recurse lx t lx' hrec h htext
    rcases getNextTokenBody_inv recurse lx t lx' h with
      ⟨-, h1, -⟩ | ⟨w, hd, hw, h1⟩ | ⟨ch, -, -, -, h1, -⟩ | ⟨ch, p, -, -, h1, -⟩ |
      ⟨ch, hd, hop, hsp, -, h1, h2⟩
    · rw [h1] at htext
      cases htext
    · obtain ⟨ws, ch, run, k1, k2, k3, k4, k5, k6, k7, k8, k9⟩ := hrec t lx' h1 htext
      refine ⟨w :: ws, ch, run, ?_, k2, k3, k4, k5, ?_, k7, k8, ?_⟩
      · intro x hx
        rcases List.mem_cons.mp hx with hx | hx
        · rw [hx]
          exact hw
        · exact k1 x hx
      · rw [drop_eq_cons_of_getElem? hd, k6]
        rfl
      · rw [k9, List.length_cons]
        omega
    · rcases h1 with h1 | h1 | h1 | h1 | h1 | h1 | h1 <;> rw [h1] at htext <;> cases htext
    · rcases h1 with h1 | h1 | h1 <;> rw [h1] at htext <;> cases htext
    · subst h1 h2
      refine ⟨[], ch, (lx.input.drop (lx.position + 1)).takeWhile isalnum,
        fun w hw => absurd hw (List.not_mem_nil w), hsp, hop, rfl,
        fun d hd' => (List.mem_takeWhile_imp hd'), ?_, ?_, rfl, ?_⟩
      · have hsplit := takeWhile_append_drop (p := isalnum) (lx.input.drop (lx.position + 1))
        rw [List.drop_drop] at hsplit
        show lx.input.drop lx.position = [] ++ (ch :: (_ ++ lx.input.drop _))
        rw [hsplit, List.nil_append]
        exact drop_eq_cons_of_getElem? hd
      · intro d hd'
        show isalnum d = false
        have hd2 : (lx.input.drop (lx.position + 1 +
            ((lx.input.drop (lx.position + 1)).takeWhile isalnum).length)).head? = some d := hd'
        rw [List.head?_drop, ← List.getElem?_drop] at hd2
        exact getElem?_length_takeWhile _ d hd2
      · show lx.position + 1 + _ = lx.position + 0 + 1 + _
        omega
  intro fuel
  induction fuel with
  | zero =>
    intro lx t lx' h htext
    rw [getNextTokenFuel] at h
    refine key _ lx t lx' ?_ h htext
    intro t1 lx1 h1 ht1
    simp only [Except.ok.injEq, Prod.mk.injEq] at h1
    rw [← h1.1] at ht1
    cases ht1
  | succ fuel ih =>
    intro lx t lx' h htext
    rw [getNextTokenFuel] at h
    exact key _ lx t lx' (fun t1 lx1 h1 ht1 => ih _ t1 lx1 h1 ht1) h htext

/-- C14: a TEXT token returned by `getNextToken` is never empty.  Behind the
whitespace `ws` that the call passes over, its value is one character that is
no whitespace followed by the longest run of alphanumeric characters: every
character of `run` is alphanumeric, the unread input was `ws`, the value and
what is still unread, and the cursor stops at the end of the input or on a
character that is not alphanumeric. -/
theorem getNextToken_text_value (lx : Lexer) (t : Token) (lx' : Lexer)
    (h : getNextToken lx = .ok (t, lx')) (htext : t.type = .TEXT) :
    t.value ≠ [] ∧
    ∃ (ws : List Char) (ch : Char) (run : List Char),
      (∀ w ∈ ws, isspace w = true) ∧ isspace ch = false ∧
      t.value = ch :: run ∧ (∀ d ∈ run, isalnum d = true) ∧
      lx.input.drop lx.position = ws ++ (ch :: run ++ lx'.input.drop lx'.position) ∧
      (∀ d, (lx'.input.drop lx'.position).head? = some d → isalnum d = false) ∧
      lx'.input = lx.input ∧ lx'.position = lx.position + ws.length + 1 + run.length := by
  obtain ⟨ws, ch, run, k1, k2, -, k4, k5, k6, k7, k8, k9⟩ :=
    getNextTokenFuel_text_shape _ lx t lx' h htext
  refine ⟨?_, ws, ch, run, k1, k2, k4, k5, k6, k7, k8, k9⟩
  rw [k4]
  exact List.cons_ne_nil _ _

theorem getNextToken_text_value_witness :
    (getNextToken ⟨[' ', 'x', '5', '+', 'y'], 0⟩ =
        .ok (⟨.TEXT, ['x', '5']⟩, ⟨[' ', 'x', '5', '+', 'y'], 3⟩) ∧
      (⟨.TEXT, ['x', '5']⟩ : Token).type = .TEXT) ∧
    ((⟨.TEXT, ['x', '5']⟩ : Token).value ≠ [] ∧
    ∃ (ws : List Char) (ch : Char) (run : List Char),
      (∀ w ∈ ws, isspace w = true) ∧ isspace ch = false ∧
      (⟨.TEXT, ['x', '5']⟩ : Token).value = ch :: run ∧ (∀ d ∈ run, isalnum d = true) ∧
      (⟨[' ', 'x', '5', '+', 'y'], 0⟩ : Lexer).input.drop
          (⟨[' ', 'x', '5', '+', 'y'], 0⟩ : Lexer).position =
        ws ++ (ch :: run ++ (⟨[' ', 'x', '5', '+', 'y'], 3⟩ : Lexer).input.drop
          (⟨[' ', 'x', '5', '+', 'y'], 3⟩ : Lexer).position) ∧
      (∀ d, ((⟨[' ', 'x', '5', '+', 'y'], 3⟩ : Lexer).input.drop
          (⟨[' ', 'x', '5', '+', 'y'], 3⟩ : Lexer).position).head? = some d →
        isalnum d = false) ∧
      (⟨[' ', 'x', '5', '+', 'y'], 3⟩ : Lexer).input =
        (⟨[' ', 'x', '5', '+', 'y'], 0⟩ : Lexer).input ∧
      (⟨[' ', 'x', '5', '+', 'y'], 3⟩ : Lexer).position =
        (⟨[' ', 'x', '5', '+', 'y'], 0⟩ : Lexer).position + ws.length + 1 + run.length) :=
  ⟨⟨by decide, by decide⟩,
    getNextToken_text_value ⟨[' ', 'x', '5', '+', 'y'], 0⟩ ⟨.TEXT, ['x', '5']⟩
      ⟨[' ', 'x', '5', '+', 'y'], 3⟩ (by decide) (by decide)⟩

/-! ## C15: whitespace -/

theorem getElem?_shift (pre input : List Char) (position : Nat) :
    (pre ++ input)[pre.length + position]? = input[position]? := by
  rw [List.getElem?_append_right (Nat.le_add_right _ _)]
  congr 1
  omega

theorem drop_shift (pre input : List Char) (position : Nat) :
    (pre ++ input).drop (pre.length + position) = input.drop position := by
  rw [← List.drop_drop, List.drop_left]

/-- The keyword loop sees only the unread input. -/
theorem matchKeyword_shift (pre input : List Char) :
    ∀ (keyword : List Char) (position : Nat),
      matchKeyword (pre ++ input) keyword (pre.length + position) =
        match matchKeyword input keyword position with
        | .error e => .error e
        | .ok p => .ok (pre.length + p) := by
  intro keyword
  induction keyword with
  | nil => intro position; rfl
  | cons c keyword ih =>
    intro position
    rw [matchKeyword, matchKeyword, getElem?_shift]
    cases input[position]? with
    | none => rfl
    | some d =>
      dsimp only
      by_cases hdc : d ≠ c
      · rw [if_pos hdc, if_pos hdc]
      · rw [if_neg hdc, if_neg hdc]
        exact ih (position + 1)

/-- On whitespace the body returns what its recursive call returns. -/
theorem getNextTokenBody_space (recurse : Lexer → Except Exn (Token × Lexer)) (lx : Lexer)
    (ch : Char) (hd : lx.input[lx.position]? = some ch) (hs : isspace ch = true) :
    getNextTokenBody recurse lx = recurse { lx with position := lx.position + 1 } := by
  have hne : ∀ o : Char, isspace o = false → ¬ ch = o := by
    intro o ho hc
    rw [hc, ho] at hs
    cases hs
  unfold getNextTokenBody
  rw [hd]
  dsimp only
  rw [if_neg (hne '&' (by decide)), if_neg (hne ':' (by decide)), if_neg (hne '+' (by decide)),
    if_neg (hne '-' (by decide)), if_neg (hne '*' (by decide)), if_neg (hne '/' (by decide)),
    if_neg (hne '%' (by decide)), if_pos hs]

/-- The body sees only the unread input: behind extra input `pre` it returns
the same token or raises the same exception. -/
theorem getNextTokenBody_shift (pre : List Char)
    (recurse recurse' : Lexer → Except Exn (Token × Lexer)) (lx : Lexer)
    (hrec : recurse' (({ lx with position := lx.position + 1 } : Lexer).shift pre) =
      shiftResult pre (recurse { lx with position := lx.position + 1 })) :
    getNextTokenBody recurse' (lx.shift pre) = shiftResult pre (getNextTokenBody recurse lx) := by
  unfold getNextTokenBody
  have hget : (lx.shift pre).input[(lx.shift pre).position]? = lx.input[lx.position]? :=
    getElem?_shift pre lx.input lx.position
  rw [hget]
  cases hd : lx.input[lx.position]? with
  | none => rfl
  | some ch =>
    dsimp only
    by_cases hc : ch = '&'
    · rw [if_pos hc, if_pos hc]
      rfl
    rw [if_neg hc, if_neg hc]
    clear hc
    by_cases hc : ch = ':'
    · rw [if_pos hc, if_pos hc]
      rfl
    rw [if_neg hc, if_neg hc]
    clear hc
    by_cases hc : ch = '+'
    · rw [if_pos hc, if_pos hc]
      rfl
    rw [if_neg hc, if_neg hc]
    clear hc
    by_cases hc : ch = '-'
    · rw [if_pos hc, if_pos hc]
      rfl
    rw [if_neg hc, if_neg hc]
    clear hc
    by_cases hc : ch = '*'
    · rw [if_pos hc, if_pos hc]
      rfl
    rw [if_neg hc, if_neg hc]
    clear hc
    by_cases hc : ch = '/'
    · rw [if_pos hc, if_pos hc]
      rfl
    rw [if_neg hc, if_neg hc]
    clear hc
    by_cases hc : ch = '%'
    · rw [if_pos hc, if_pos hc]
      rfl
    rw [if_neg hc, if_neg hc]
    clear hc
    by_cases hc : isspace ch = true
    · rw [if_pos hc, if_pos hc]
      exact hrec
    rw [if_neg hc, if_neg hc]
    clear hc
    by_cases hc : ch = 'i'
    · simp only [if_pos hc]
      have hk : matchKeyword (lx.shift pre).input ['i', 'f'] ((lx.shift pre).position + 1) =
          match matchKeyword lx.input ['i', 'f'] (lx.position + 1) with
          | .error e => .error e
          | .ok p => .ok (pre.length + p) :=
        matchKeyword_shift pre lx.input ['i', 'f'] (lx.position + 1)
      rw [hk]
      cases matchKeyword lx.input ['i', 'f'] (lx.position + 1) <;> rfl
    simp only [if_neg hc]
    clear hc
    by_cases hc : ch = 'e'
    · simp only [if_pos hc]
      have hk : matchKeyword (lx.shift pre).input ['e', 'l', 's', 'e'] ((lx.shift pre).position + 1) =
          match matchKeyword lx.input ['e', 'l', 's', 'e'] (lx.position + 1) with
          | .error e => .error e
          | .ok p => .ok (pre.length + p) :=
        matchKeyword_shift pre lx.input ['e', 'l', 's', 'e'] (lx.position + 1)
      rw [hk]
      cases matchKeyword lx.input ['e', 'l', 's', 'e'] (lx.position + 1) <;> rfl
    simp only [if_neg hc]
    clear hc
    by_cases hc : ch = 'f'
    · simp only [if_pos hc]
      have hk : matchKeyword (lx.shift pre).input ['f', 'o', 'r'] ((lx.shift pre).position + 1) =
          match matchKeyword lx.input ['f', 'o', 'r'] (lx.position + 1) with
          | .error e => .error e
          | .ok p => .ok (pre.length + p) :=
        matchKeyword_shift pre lx.input ['f', 'o', 'r'] (lx.position + 1)
      rw [hk]
      cases matchKeyword lx.input ['f', 'o', 'r'] (lx.position + 1) <;> rfl
    simp only [if_neg hc]
    clear hc
    have hl : (lx.shift pre).input.length - ((lx.shift pre).position + 1) =
        lx.input.length - (lx.position + 1) := by
      show (pre ++ lx.input).length - (pre.length + lx.position + 1) = _
      rw [List.length_append]
      omega
    rw [hl]
    rw [scanText_eq _ _ _ _ (le_refl _)]
    have h2 : scanText (lx.shift pre).input (lx.input.length - (lx.position + 1))
        ((lx.shift pre).position + 1) [ch] =
        ([ch] ++ (lx.input.drop (lx.position + 1)).takeWhile isalnum,
          pre.length + (lx.position + 1 +
            ((lx.input.drop (lx.position + 1)).takeWhile isalnum).length)) := by
      rw [scanText_eq]
      · show (_ ++ ((pre ++ lx.input).drop (pre.length + lx.position + 1)).takeWhile isalnum,
          pre.length + lx.position + 1 +
            (((pre ++ lx.input).drop (pre.length + lx.position + 1)).takeWhile isalnum).length) = _
        rw [show pre.length + lx.position + 1 = pre.length + (lx.position + 1) from rfl,
          drop_shift]
        simp only [Prod.mk.injEq, true_and]
        omega
      · show (pre ++ lx.input).length - (pre.length + lx.position + 1) ≤ _
        rw [List.length_append]
        omega
    rw [h2]
    rfl

theorem getNextTokenFuel_shift (pre : List Char) :
    ∀ (fuel : Nat) (lx : Lexer),
      getNextTokenFuel fuel (lx.shift pre) = shiftResult pre (getNextTokenFuel fuel lx) := by
  intro fuel
  induction fuel with
  | zero =>
    intro lx
    rw [getNextTokenFuel, getNextTokenFuel]
    exact getNextTokenBody_shift pre _ _ lx rfl
  | succ fuel ih =>
    intro lx
    rw [getNextTokenFuel, getNextTokenFuel]
    exact getNextTokenBody_shift pre _ _ lx (ih _)

/-- The call `getNextToken` sees only the unread input. -/
theorem getNextToken_shift (pre : List Char) (lx : Lexer) :
    getNextToken (lx.shift pre) = shiftResult pre (getNextToken lx) := by
  have hfuel : (lx.shift pre).input.length - (lx.shift pre).position =
      lx.input.length - lx.position := by
    show (pre ++ lx.input).length - (pre.length + lx.position) = _
    rw [List.length_append]
    omega
  rw [getNextToken, hfuel]
  exact getNextTokenFuel_shift pre _ lx

/-- A call on a whitespace character is the call one character further. -/
theorem getNextToken_skip (lx : Lexer) (ch : Char) (hd : lx.input[lx.position]? = some ch)
    (hs : isspace ch = true) :
    getNextToken lx = getNextToken { lx with position := lx.position + 1 } := by
  have hlt : lx.position < lx.input.length := (List.getElem?_eq_some.mp hd).1
  have hfuel : lx.input.length - lx.position = (lx.input.length - (lx.position + 1)) + 1 := by
    omega
  rw [getNextToken, hfuel, getNextTokenFuel, getNextTokenBody_space _ lx ch hd hs]
  rfl

/-- A call in front of a run of whitespace is the call behind the run. -/
theorem getNextToken_skip_run :
    ∀ (w pre s : List Char), (∀ c ∈ w, isspace c = true) →
      getNextToken { input := pre ++ (w ++ s), position := pre.length } =
        getNextToken { input := pre ++ (w ++ s), position := pre.length + w.length } := by
  intro w
  induction w with
  | nil => intro pre s _; rfl
  | cons c w ih =>
    intro pre s hw
    have hd : (pre ++ (c :: w ++ s))[pre.length]? = some c := by
      have := getElem?_shift pre (c :: w ++ s) 0
      simpa using this
    rw [getNextToken_skip { input := pre ++ (c :: w ++ s), position := pre.length } c hd
      (hw c (List.mem_cons_self _ _))]
    have hih := ih (pre ++ [c]) s (fun x hx => hw x (List.mem_cons_of_mem _ hx))
    have hin : pre ++ [c] ++ (w ++ s) = pre ++ (c :: w ++ s) := by simp
    have hlen : (pre ++ [c]).length = pre.length + 1 := by simp
    rw [hin, hlen] at hih
    rw [hih, List.length_cons]
    congr 2
    omega

/-- C15: whitespace in front of the input is not observable.  For a string `w`
of whitespace characters and any input `s`, `getNextToken` on `w ++ s` raises
the exception it raises on `s`, or returns the token (kind and value) it
returns on `s`, with the cursor `w.length` further, so that the same part of
`s` is left unread; and on `w` alone it returns END. -/
theorem getNextToken_whitespace_unobservable (w s : List Char)
    (hw : ∀ c ∈ w, isspace c = true) :
    (∀ e, getNextToken (Lexer.new s) = .error e →
      getNextToken (Lexer.new (w ++ s)) = .error e) ∧
    (∀ t lx', getNextToken (Lexer.new s) = .ok (t, lx') →
      getNextToken (Lexer.new (w ++ s)) =
        .ok (t, { input := w ++ s, position := w.length + lx'.position }) ∧
      (w ++ s).drop (w.length + lx'.position) = lx'.input.drop lx'.position) ∧
    getNextToken (Lexer.new w) = .ok (⟨.END, []⟩, { input := w, position := w.length }) := by
  have hskip : ∀ s' : List Char, getNextToken (Lexer.new (w ++ s')) =
      shiftResult w (getNextToken (Lexer.new s')) := by
    intro s'
    have h1 := getNextToken_skip_run w [] s' hw
    simp only [List.nil_append, List.length_nil, Nat.zero_add] at h1
    have h2 := getNextToken_shift w (Lexer.new s')
    show getNextToken { input := w ++ s', position := 0 } = _
    rw [h1, ← h2]
    rfl
  refine ⟨?_, ?_, ?_⟩
  · intro e he
    rw [hskip s, he]
    rfl
  · intro t lx' hlx
    obtain ⟨hin, -⟩ := getNextToken_mono _ t lx' hlx
    have hin' : lx'.input = s := hin
    refine ⟨?_, ?_⟩
    · rw [hskip s, hlx]
      show Except.ok (t, ({ input := w ++ lx'.input, position := w.length + lx'.position } :
        Lexer)) = _
      rw [hin']
    · rw [hin']
      exact drop_shift w s lx'.position
  · have h := hskip []
    rw [List.append_nil] at h
    have h0 : getNextToken (Lexer.new []) = .ok (⟨.END, []⟩, Lexer.new []) := rfl
    rw [h, h0]
    show Except.ok (_, ({ input := w ++ [], position := w.length + 0 } : Lexer)) = _
    rw [List.append_nil]
    rfl

theorem getNextToken_whitespace_unobservable_witness :
    (∀ c ∈ [' ', '\n', '\t'], isspace c = true) ∧
    ((∀ e, getNextToken (Lexer.new ['x', '1', ':']) = .error e →
      getNextToken (Lexer.new ([' ', '\n', '\t'] ++ ['x', '1', ':'])) = .error e) ∧
    (∀ t lx', getNextToken (Lexer.new ['x', '1', ':']) = .ok (t, lx') →
      getNextToken (Lexer.new ([' ', '\n', '\t'] ++ ['x', '1', ':'])) =
        .ok (t, { input := [' ', '\n', '\t'] ++ ['x', '1', ':'],
                  position := [' ', '\n', '\t'].length + lx'.position }) ∧
      ([' ', '\n', '\t'] ++ ['x', '1', ':']).drop ([' ', '\n', '\t'].length + lx'.position) =
        lx'.input.drop lx'.position) ∧
    getNextToken (Lexer.new [' ', '\n', '\t']) =
      .ok (⟨.END, []⟩, { input := [' ', '\n', '\t'], position := [' ', '\n', '\t'].length })) :=
  ⟨by decide, getNextToken_whitespace_unobservable [' ', '\n', '\t'] ['x', '1', ':'] (by decide)⟩

/-- Three runs of the lexer behind whitespace: a TEXT token, an exception and
the END token are what they are without the whitespace. -/
theorem getNextToken_whitespace_examples :
    getNextToken (Lexer.new ['x', '1', ':']) = .ok (⟨.TEXT, ['x', '1']⟩, ⟨['x', '1', ':'], 2⟩) ∧
    getNextToken (Lexer.new [' ', '\n', 'x', '1', ':']) =
      .ok (⟨.TEXT, ['x', '1']⟩, ⟨[' ', '\n', 'x', '1', ':'], 4⟩) ∧
    getNextToken (Lexer.new ['i', 'f']) = .error .unexpectedToken ∧
    getNextToken (Lexer.new [' ', 'i', 'f']) = .error .unexpectedToken ∧
    getNextToken (Lexer.new [' ', ' ']) = .ok (⟨.END, []⟩, ⟨[' ', ' '], 2⟩) := by
  decide

/-! ## Steps of the lexer and of the handlers -/

theorem Extends.refl (c : Compiler) : Extends c c :=
  ⟨rfl, [], by simp, fun d hd => absurd hd (List.not_mem_nil d)⟩

theorem Extends.trans {c1 c2 c3 : Compiler} (h12 : Extends c1 c2) (h23 : Extends c2 c3) :
    Extends c1 c3 := by
  obtain ⟨a1, ds1, b1, d1⟩ := h12
  obtain ⟨a2, ds2, b2, d2⟩ := h23
  refine ⟨a2.trans a1, ds1 ++ ds2, by rw [b2, b1, List.append_assoc], ?_⟩
  intro d hd
  rcases List.mem_append.mp hd with hd | hd
  · exact d1 d hd
  · exact d2 d hd

theorem Extends.report (c : Compiler) (d : Diag) (hd : allowedDiag d = true) :
    Extends c (c.report d) :=
  ⟨rfl, [d], rfl, fun x hx => by rw [List.mem_singleton.mp hx]; exact hd⟩

theorem Extends.say (c : Compiler) (n : Note) : Extends c (c.say n) :=
  ⟨rfl, [], by simp [Compiler.say], fun d hd => absurd hd (List.not_mem_nil d)⟩

theorem Extends.write (c : Compiler) (v : List Char) : Extends c (c.write v) :=
  ⟨rfl, [], by simp [Compiler.write], fun d hd => absurd hd (List.not_mem_nil d)⟩

theorem Extends.assign (c : Compiler) (name : List Char) (v : Int) :
    Extends c (c.assign name v) :=
  ⟨rfl, [], by simp [Compiler.assign], fun d hd => absurd hd (List.not_mem_nil d)⟩

/-- A message that is not allowed and not yet on `cerr` is not on `cerr` of an
extension either. -/
theorem Extends.not_mem {c c' : Compiler} (h : Extends c c') (d : Diag)
    (hd : allowedDiag d = false) (hc : d ∉ c.cerr) : d ∉ c'.cerr := by
  obtain ⟨-, ds, h1, h2⟩ := h
  rw [h1]
  intro hmem
  rcases List.mem_append.mp hmem with hm | hm
  · exact hc hm
  · rw [h2 d hm] at hd
    cases hd

theorem Advanced.stay (lexer : Lexer) : Advanced lexer lexer :=
  ⟨rfl, le_refl _, id⟩

theorem Advanced.andThen {l1 l2 l3 : Lexer} (h12 : Advanced l1 l2) (h23 : Advanced l2 l3) :
    Advanced l1 l3 :=
  ⟨h23.1.trans h12.1, le_trans h12.2.1 h23.2.1, fun h => h23.2.2 (h12.2.2 h)⟩

/-- One call of `getNextToken` advances the lexer, and the token it returns
belongs to the stream. -/
theorem getNextToken_advanced (lexer : Lexer) (t : Token) (lexer' : Lexer)
    (h : getNextToken lexer = .ok (t, lexer')) :
    Advanced lexer lexer' ∧ (StreamPlain lexer → t.type ≠ .END → isControl t.type = false) := by
  obtain ⟨hin, hpos⟩ := getNextToken_mono lexer t lexer' h
  by_cases hend : t.type = .END
  · obtain ⟨-, -, hnone⟩ := getNextToken_end lexer t lexer' h hend
    refine ⟨⟨hin, hpos, fun _ => ⟨0, ?_, ?_⟩⟩, fun _ hne => absurd hend hne⟩
    · have := List.getElem?_eq_none_iff.mp hnone
      omega
    · intro x hx
      simp [tokenStream] at hx
  · obtain ⟨-, hlt, hle⟩ := getNextToken_progress lexer t lexer' h hend
    have hstream : ∀ fuel, lexer.input.length - lexer.position ≤ fuel →
        (∀ x ∈ tokenStream fuel lexer, isControl x.type = false) →
        isControl t.type = false ∧ ∃ fuel', lexer'.input.length - lexer'.position ≤ fuel' ∧
          ∀ x ∈ tokenStream fuel' lexer', isControl x.type = false := by
      intro fuel hfuel hall
      cases fuel with
      | zero => omega
      | succ fuel =>
        rw [tokenStream, h] at hall
        dsimp only at hall
        rw [if_neg hend] at hall
        refine ⟨hall t (List.mem_cons_self _ _), fuel, ?_,
          fun x hx => hall x (List.mem_cons_of_mem _ hx)⟩
        rw [hin]
        omega
    refine ⟨⟨hin, hpos, ?_⟩, ?_⟩
    · rintro ⟨fuel, hfuel, hall⟩
      exact (hstream fuel hfuel hall).2
    · rintro ⟨fuel, hfuel, hall⟩ _
      exact (hstream fuel hfuel hall).1

theorem processVarDecl_step (lexer lexer' : Lexer) (c c' : Compiler)
    (h : processVarDecl lexer c = .ok (lexer', c')) :
    Advanced lexer lexer' ∧ Extends c c' := by
  unfold processVarDecl at h
  cases hg : getNextToken lexer with
  | error e => rw [hg] at h; cases h
  | ok r =>
    obtain ⟨token, lexer1⟩ := r
    rw [hg] at h
    dsimp only at h
    have hadv := (getNextToken_advanced lexer token lexer1 hg).1
    by_cases ht : token.type ≠ .TEXT
    · rw [if_pos ht] at h
      simp only [Except.ok.injEq, Prod.mk.injEq] at h
      obtain ⟨rfl, rfl⟩ := h
      exact ⟨hadv, Extends.report c _ (by decide)⟩
    · rw [if_neg ht] at h
      simp only [Except.ok.injEq, Prod.mk.injEq] at h
      obtain ⟨rfl, rfl⟩ := h
      exact ⟨hadv, Extends.assign c _ _⟩

theorem processVarAssign_step (lexer lexer' : Lexer) (c c' : Compiler)
    (h : processVarAssign lexer c = .ok (lexer', c')) :
    Advanced lexer lexer' ∧ Extends c c' := by
  unfold processVarAssign at h
  cases hg : getNextToken lexer with
  | error e => rw [hg] at h; cases h
  | ok r =>
    obtain ⟨token, lexer1⟩ := r
    rw [hg] at h
    dsimp only at h
    have hadv := (getNextToken_advanced lexer token lexer1 hg).1
    by_cases ht : token.type ≠ .TEXT
    · rw [if_pos ht] at h
      simp only [Except.ok.injEq, Prod.mk.injEq] at h
      obtain ⟨rfl, rfl⟩ := h
      exact ⟨hadv, Extends.report c _ (by decide)⟩
    · rw [if_neg ht] at h
      cases hg2 : getNextToken lexer1 with
      | error e => rw [hg2] at h; cases h
      | ok r2 =>
        obtain ⟨token2, lexer2⟩ := r2
        rw [hg2] at h
        dsimp only at h
        have hadv2 := hadv.andThen (getNextToken_advanced lexer1 token2 lexer2 hg2).1
        by_cases ht2 : token2.type ≠ .TEXT
        · rw [if_pos ht2] at h
          simp only [Except.ok.injEq, Prod.mk.injEq] at h
          obtain ⟨rfl, rfl⟩ := h
          exact ⟨hadv2, Extends.report c _ (by decide)⟩
        · rw [if_neg ht2] at h
          cases hs : stoi token2.value with
          | error e => rw [hs] at h; cases h
          | ok value =>
            rw [hs] at h
            simp only [Except.ok.injEq, Prod.mk.injEq] at h
            obtain ⟨rfl, rfl⟩ := h
            exact ⟨hadv2, Extends.assign c _ _⟩

/-- With one of the five arithmetic operators the switch of
`processArithmetic` does not reach its default branch. -/
theorem applyOperator_diag (op : TokenType) (v k : Int) (d : Diag)
    (hop : op = .ADD ∨ op = .SUB ∨ op = .MUL ∨ op = .DIV ∨ op = .MOD)
    (h : applyOperator op v k = .error d) : d = .divideByZero := by
  rcases hop with rfl | rfl | rfl | rfl | rfl
  · cases h
  · cases h
  · cases h
  · unfold applyOperator at h
    dsimp only at h
    by_cases hk : k ≠ 0
    · rw [if_pos hk] at h
      cases h
    · rw [if_neg hk] at h
      cases h
      rfl
  · unfold applyOperator at h
    dsimp only at h
    by_cases hk : k ≠ 0
    · rw [if_pos hk] at h
      cases h
    · rw [if_neg hk] at h
      cases h
      rfl

theorem processArithmetic_step (opToken : Token) (lexer lexer' : Lexer) (c c' : Compiler)
    (hop : opToken.type = .ADD ∨ opToken.type = .SUB ∨ opToken.type = .MUL ∨
      opToken.type = .DIV ∨ opToken.type = .MOD)
    (h : processArithmetic opToken lexer c = .ok (lexer', c')) :
    Advanced lexer lexer' ∧ Extends c c' := by
  unfold processArithmetic at h
  cases hg : getNextToken lexer with
  | error e => rw [hg] at h; cases h
  | ok r =>
    obtain ⟨token, lexer1⟩ := r
    rw [hg] at h
    dsimp only at h
    have hadv := (getNextToken_advanced lexer token lexer1 hg).1
    by_cases ht : token.type = .TEXT
    · rw [if_pos ht] at h
      cases hf : c.vars.find token.value with
      | none =>
        rw [hf] at h
        simp only [Except.ok.injEq, Prod.mk.injEq] at h
        obtain ⟨rfl, rfl⟩ := h
        exact ⟨hadv, Extends.report c _ (by decide)⟩
      | some result =>
        rw [hf] at h
        dsimp only at h
        cases hg2 : getNextToken lexer1 with
        | error e => rw [hg2] at h; cases h
        | ok r2 =>
          obtain ⟨token2, lexer2⟩ := r2
          rw [hg2] at h
          dsimp only at h
          have hadv2 := hadv.andThen (getNextToken_advanced lexer1 token2 lexer2 hg2).1
          by_cases ht2 : token2.type ≠ .TEXT
          · rw [if_pos ht2] at h
            simp only [Except.ok.injEq, Prod.mk.injEq] at h
            obtain ⟨rfl, rfl⟩ := h
            exact ⟨hadv2, Extends.report c _ (by decide)⟩
          · rw [if_neg ht2] at h
            cases hs : stoi token2.value with
            | error e => rw [hs] at h; cases h
            | ok operand =>
              rw [hs] at h
              dsimp only at h
              cases ha : applyOperator opToken.type result operand with
              | error d =>
                rw [ha] at h
                simp only [Except.ok.injEq, Prod.mk.injEq] at h
                obtain ⟨rfl, rfl⟩ := h
                have hd := applyOperator_diag _ _ _ d hop ha
                subst hd
                exact ⟨hadv2, Extends.report c _ (by decide)⟩
              | ok value =>
                rw [ha] at h
                simp only [Except.ok.injEq, Prod.mk.injEq] at h
                obtain ⟨rfl, rfl⟩ := h
                exact ⟨hadv2, Extends.assign c _ _⟩
    · rw [if_neg ht] at h
      simp only [Except.ok.injEq, Prod.mk.injEq] at h
      obtain ⟨rfl, rfl⟩ := h
      exact ⟨hadv, Extends.report c _ (by decide)⟩

theorem skipToElseFuel_step (c : Compiler) :
    ∀ (fuel : Nat) (lexer lexer' : Lexer) (c' : Compiler),
      skipToElseFuel fuel lexer c = .ok (lexer', c') → Advanced lexer lexer' ∧ Extends c c' := by
  intro fuel
  induction fuel with
  | zero =>
    intro lexer lexer' c' h
    simp only [skipToElseFuel, Except.ok.injEq, Prod.mk.injEq] at h
    obtain ⟨rfl, rfl⟩ := h
    exact ⟨Advanced.stay _, Extends.report c _ (by decide)⟩
  | succ fuel ih =>
    intro lexer lexer' c' h
    rw [skipToElseFuel] at h
    cases hg : getNextToken lexer with
    | error e => rw [hg] at h; cases h
    | ok r =>
      obtain ⟨token, lexer1⟩ := r
      rw [hg] at h
      dsimp only at h
      have hadv := (getNextToken_advanced lexer token lexer1 hg).1
      by_cases ht : token.type = .END
      · rw [if_pos ht] at h
        simp only [Except.ok.injEq, Prod.mk.injEq] at h
        obtain ⟨rfl, rfl⟩ := h
        exact ⟨hadv, Extends.report c _ (by decide)⟩
      · rw [if_neg ht] at h
        by_cases ht2 : token.type = .ELSE
        · rw [if_pos ht2] at h
          simp only [Except.ok.injEq, Prod.mk.injEq] at h
          obtain ⟨rfl, rfl⟩ := h
          exact ⟨hadv, Extends.refl c⟩
        · rw [if_neg ht2] at h
          obtain ⟨k1, k2⟩ := ih lexer1 lexer' c' h
          exact ⟨hadv.andThen k1, k2⟩

theorem skipToElse_step (lexer lexer' : Lexer) (c c' : Compiler)
    (h : skipToElse lexer c = .ok (lexer', c')) : Advanced lexer lexer' ∧ Extends c c' :=
  skipToElseFuel_step c _ lexer lexer' c' h

theorem Run.ofExcept_done {α : Type} (r : Except Exn α) (a : α)
    (h : Run.ofExcept r = .done a) : r = .ok a := by
  cases r with
  | error e => cases h
  | ok b =>
    simp only [Run.ofExcept, Run.done.injEq] at h
    rw [h]

/-- The continuation of the main loop after a handler: the run is done only
when the handler returned and the rest of the loop is done. -/
theorem resume_done (r : Run (Lexer × Compiler)) (k : Lexer → Compiler → Run Compiler)
    (c' : Compiler)
    (h : (match r with
      | .done (lexer, c) => k lexer c
      | .raised e => .raised e
      | .fuelOut => .fuelOut) = .done c') :
    ∃ lexer c1, r = .done (lexer, c1) ∧ k lexer c1 = .done c' := by
  cases r with
  | done a => exact ⟨a.1, a.2, rfl, h⟩
  | raised e => cases h
  | fuelOut => cases h

theorem processIfStatement_extends (compile : Compiler → Run Compiler)
    (hcompile : ∀ c1 c2, compile c1 = .done c2 → Extends c1 c2)
    (lexer lexer' : Lexer) (c c' : Compiler)
    (h : processIfStatement compile lexer c = .done (lexer', c')) : Extends c c' := by
  unfold processIfStatement at h
  cases hg : getNextToken lexer with
  | error e => rw [hg] at h; cases h
  | ok r =>
    obtain ⟨token, lexer1⟩ := r
    rw [hg] at h
    dsimp only at h
    by_cases ht : token.type ≠ .TEXT
    · rw [if_pos ht] at h
      simp only [Run.done.injEq, Prod.mk.injEq] at h
      obtain ⟨-, rfl⟩ := h
      exact Extends.report c _ (by decide)
    · rw [if_neg ht] at h
      cases hf : c.vars.find token.value with
      | none =>
        rw [hf] at h
        simp only [Run.done.injEq, Prod.mk.injEq] at h
        obtain ⟨-, rfl⟩ := h
        exact Extends.report c _ (by decide)
      | some value =>
        rw [hf] at h
        dsimp only at h
        by_cases hv : value ≠ 0
        · rw [if_pos hv] at h
          cases hc : compile c with
          | done c2 =>
            rw [hc] at h
            simp only [Run.done.injEq, Prod.mk.injEq] at h
            obtain ⟨-, rfl⟩ := h
            exact hcompile c c2 hc
          | raised e => rw [hc] at h; cases h
          | fuelOut => rw [hc] at h; cases h
        · rw [if_neg hv] at h
          exact (skipToElse_step lexer1 lexer' c c' (Run.ofExcept_done _ _ h)).2

theorem forLoop_extends (compile : Compiler → Run Compiler)
    (hcompile : ∀ c1 c2, compile c1 = .done c2 → Extends c1 c2)
    (varName : List Char) (endValue : Int) :
    ∀ (fuel : Nat) (i : Int) (c c' : Compiler),
      forLoop compile varName endValue fuel i c = .done c' → Extends c c' := by
  intro fuel
  induction fuel with
  | zero => intro i c c' h; cases h
  | succ fuel ih =>
    intro i c c' h
    rw [forLoop] at h
    by_cases hi : i ≤ endValue
    · rw [if_pos hi] at h
      cases hc : compile (c.assign varName i) with
      | done c2 =>
        rw [hc] at h
        dsimp only at h
        exact ((Extends.assign c varName i).trans (hcompile _ c2 hc)).trans (ih _ c2 c' h)
      | raised e => rw [hc] at h; cases h
      | fuelOut => rw [hc] at h; cases h
    · rw [if_neg hi] at h
      simp only [Run.done.injEq] at h
      rw [← h]
      exact Extends.refl c

theorem processForLoop_extends (compile : Compiler → Run Compiler)
    (hcompile : ∀ c1 c2, compile c1 = .done c2 → Extends c1 c2)
    (fuel : Nat) (lexer lexer' : Lexer) (c c' : Compiler)
    (h : processForLoop compile fuel lexer c = .done (lexer', c')) : Extends c c' := by
  unfold processForLoop at h
  cases hg : getNextToken lexer with
  | error e => rw [hg] at h; cases h
  | ok r =>
    obtain ⟨token, lexer1⟩ := r
    rw [hg] at h
    dsimp only at h
    by_cases ht : token.type ≠ .TEXT
    · rw [if_pos ht] at h
      simp only [Run.done.injEq, Prod.mk.injEq] at h
      obtain ⟨-, rfl⟩ := h
      exact Extends.report c _ (by decide)
    · rw [if_neg ht] at h
      cases hf : c.vars.find token.value with
      | none =>
        rw [hf] at h
        simp only [Run.done.injEq, Prod.mk.injEq] at h
        obtain ⟨-, rfl⟩ := h
        exact Extends.report c _ (by decide)
      | some value =>
        rw [hf] at h
        dsimp only at h
        cases hg2 : getNextToken lexer1 with
        | error e => rw [hg2] at h; cases h
        | ok r2 =>
          obtain ⟨token2, lexer2⟩ := r2
          rw [hg2] at h
          dsimp only at h
          by_cases ht2 : token2.type ≠ .VAR_ASSIGN
          · rw [if_pos ht2] at h
            simp only [Run.done.injEq, Prod.mk.injEq] at h
            obtain ⟨-, rfl⟩ := h
            exact Extends.report c _ (by decide)
          · rw [if_neg ht2] at h
            cases hg3 : getNextToken lexer2 with
            | error e => rw [hg3] at h; cases h
            | ok r3 =>
              obtain ⟨token3, lexer3⟩ := r3
              rw [hg3] at h
              dsimp only at h
              by_cases ht3 : token3.type ≠ .TEXT
              · rw [if_pos ht3] at h
                simp only [Run.done.injEq, Prod.mk.injEq] at h
                obtain ⟨-, rfl⟩ := h
                exact Extends.report c _ (by decide)
              · rw [if_neg ht3] at h
                cases hs3 : stoi token3.value with
                | error e => rw [hs3] at h; cases h
                | ok initialValue =>
                  rw [hs3] at h
                  dsimp only at h
                  cases hg4 : getNextToken lexer3 with
                  | error e => rw [hg4] at h; cases h
                  | ok r4 =>
                    obtain ⟨token4, lexer4⟩ := r4
                    rw [hg4] at h
                    dsimp only at h
                    by_cases ht4 : token4.type ≠ .TEXT
                    · rw [if_pos ht4] at h
                      simp only [Run.done.injEq, Prod.mk.injEq] at h
                      obtain ⟨-, rfl⟩ := h
                      exact Extends.report c _ (by decide)
                    · rw [if_neg ht4] at h
                      cases hs4 : stoi token4.value with
                      | error e => rw [hs4] at h; cases h
                      | ok endValue =>
                        rw [hs4] at h
                        dsimp only at h
                        cases hl : forLoop compile token.value endValue fuel initialValue c with
                        | done c2 =>
                          rw [hl] at h
                          simp only [Run.done.injEq, Prod.mk.injEq] at h
                          obtain ⟨-, rfl⟩ := h
                          exact forLoop_extends compile hcompile _ _ fuel _ c c2 hl
                        | raised e => rw [hl] at h; cases h
                        | fuelOut => rw [hl] at h; cases h

/-- A run of the main loop that is done has only extended the state: every
message it wrote to `cerr` is one of `allowedDiag`, and no library function
was called.  Nested runs are covered by the induction on the fuel. -/
theorem compileLoop_extends :
    ∀ (fuel : Nat) (lexer : Lexer) (isFirstStatement : Bool) (c c' : Compiler),
      compileLoop fuel lexer isFirstStatement c = .done c' → Extends c c' := by
  intro fuel
  induction fuel with
  | zero => intro lexer b c c' h; cases h
  | succ fuel ih =>
    intro lexer b c c' h
    rw [compileLoop] at h
    cases hg : getNextToken lexer with
    | error e => rw [hg] at h; cases h
    | ok r =>
      obtain ⟨token, lexer1⟩ := r
      rw [hg] at h
      dsimp only at h
      by_cases hend : token.type = .END
      · rw [if_pos hend] at h
        simp only [Run.done.injEq] at h
        rw [← h]
        exact Extends.say c _
      · rw [if_neg hend] at h
        have hkind := getNextTokenFuel_kind _ lexer token lexer1 hg
        have h0 : Extends c (if b = true then c.say .welcome else c) := by
          cases b
          · exact Extends.refl c
          · exact Extends.say c _
        have hnested : ∀ c1 c2, compileLoop fuel (Lexer.new c1.source) true c1 = .done c2 →
            Extends c1 c2 := fun c1 c2 hc => ih _ _ c1 c2 hc
        obtain ⟨ty, v⟩ := token
        cases ty <;> dsimp only at h
        · -- token TEXT
          exact (h0.trans (Extends.write _ _)).trans (ih _ _ _ c' h)
        · -- token VAR_DECL
          obtain ⟨l, c1, hr, hk⟩ := resume_done _ (fun l c => compileLoop fuel l false c) c' h
          exact (h0.trans (processVarDecl_step _ _ _ _ (Run.ofExcept_done _ _ hr)).2).trans
            (ih _ _ _ c' hk)
        · -- token VAR_ASSIGN
          obtain ⟨l, c1, hr, hk⟩ := resume_done _ (fun l c => compileLoop fuel l false c) c' h
          exact (h0.trans (processVarAssign_step _ _ _ _ (Run.ofExcept_done _ _ hr)).2).trans
            (ih _ _ _ c' hk)
        · -- token ADD
          obtain ⟨l, c1, hr, hk⟩ := resume_done _ (fun l c => compileLoop fuel l false c) c' h
          exact (h0.trans (processArithmetic_step _ _ _ _ _ (Or.inl rfl)
            (Run.ofExcept_done _ _ hr)).2).trans (ih _ _ _ c' hk)
        · -- token SUB
          obtain ⟨l, c1, hr, hk⟩ := resume_done _ (fun l c => compileLoop fuel l false c) c' h
          exact (h0.trans (processArithmetic_step _ _ _ _ _ (Or.inr (Or.inl rfl))
            (Run.ofExcept_done _ _ hr)).2).trans (ih _ _ _ c' hk)
        · -- token MUL
          obtain ⟨l, c1, hr, hk⟩ := resume_done _ (fun l c => compileLoop fuel l false c) c' h
          exact (h0.trans (processArithmetic_step _ _ _ _ _ (Or.inr (Or.inr (Or.inl rfl)))
            (Run.ofExcept_done _ _ hr)).2).trans (ih _ _ _ c' hk)
        · -- token DIV
          obtain ⟨l, c1, hr, hk⟩ := resume_done _ (fun l c => compileLoop fuel l false c) c' h
          exact (h0.trans (processArithmetic_step _ _ _ _ _
            (Or.inr (Or.inr (Or.inr (Or.inl rfl)))) (Run.ofExcept_done _ _ hr)).2).trans
            (ih _ _ _ c' hk)
        · -- token MOD
          obtain ⟨l, c1, hr, hk⟩ := resume_done _ (fun l c => compileLoop fuel l false c) c' h
          exact (h0.trans (processArithmetic_step _ _ _ _ _
            (Or.inr (Or.inr (Or.inr (Or.inr rfl)))) (Run.ofExcept_done _ _ hr)).2).trans
            (ih _ _ _ c' hk)
        · exact absurd rfl hend
        · -- token IF
          obtain ⟨l, c1, hr, hk⟩ := resume_done _ (fun l c => compileLoop fuel l false c) c' h
          exact (h0.trans (processIfStatement_extends _ hnested _ _ _ _ hr)).trans
            (ih _ _ _ c' hk)
        · -- token ELSE
          obtain ⟨l, c1, hr, hk⟩ := resume_done _ (fun l c => compileLoop fuel l false c) c' h
          exact (h0.trans (skipToElse_step _ _ _ _ (Run.ofExcept_done _ _ hr)).2).trans
            (ih _ _ _ c' hk)
        · -- token FOR
          obtain ⟨l, c1, hr, hk⟩ := resume_done _ (fun l c => compileLoop fuel l false c) c' h
          exact (h0.trans (processForLoop_extends _ hnested _ _ _ _ _ hr)).trans
            (ih _ _ _ c' hk)
        · exact absurd rfl hkind.1
        · exact absurd rfl hkind.2

/-! ## C16, C18: branches that are never taken -/

/-- What `Extends` says about the messages on `cerr`. -/
theorem Extends.new_messages {c c' : Compiler} (h : Extends c c') :
    c'.called = c.called ∧ ∃ ds, c'.cerr = c.cerr ++ ds ∧ ∀ d ∈ ds, allowedDiag d = true :=
  h

/-- C16: `getNextToken` never returns an ELSEIF or an IMPORT token, whatever
the input and the cursor: the branches of the second `e` and the second `i`
are shadowed by the first ones.  So the main loop never dispatches to
`processElseifFunction` or `processImport`: a run of `compile` that returns
has called no library function and has written none of the messages that only
these two handlers write. -/
theorem getNextToken_never_elseif_import (lx lx' : Lexer) (t : Token) (fuel : Nat)
    (c c' : Compiler)
    (h : getNextToken lx = .ok (t, lx')) (hrun : compile fuel c = .done c') :
    (t.type ≠ .ELSEIF ∧ t.type ≠ .IMPORT) ∧
    c'.called = c.called ∧
    ∃ ds, c'.cerr = c.cerr ++ ds ∧ .malformedElseif ∉ ds ∧ .malformedLibraryName ∉ ds ∧
      .libraryNotLoaded ∉ ds ∧ .functionNotFound ∉ ds := by
  refine ⟨getNextTokenFuel_kind _ lx t lx' h, ?_⟩
  obtain ⟨hcalled, ds, hds, hall⟩ := compileLoop_extends fuel _ true c c' hrun
  refine ⟨hcalled, ds, hds, ?_, ?_, ?_, ?_⟩ <;>
    exact fun hmem => absurd (hall _ hmem) (by decide)

theorem getNextToken_never_elseif_import_witness :
    (getNextToken ⟨['e', 'e', 'l', 's', 'e', 'i', 'f'], 0⟩ =
      .ok (⟨.ELSE, ['e', 'l', 's', 'e']⟩, ⟨['e', 'e', 'l', 's', 'e', 'i', 'f'], 5⟩) ∧
    compile 4 (Compiler.new ['e', 'e', 'l', 's', 'e', ' ', 'A']) =
      .done { Compiler.new ['e', 'e', 'l', 's', 'e', ' ', 'A'] with
        cerr := [.missingElse], cout := [.welcome, .completed] }) ∧
    (((⟨.ELSE, ['e', 'l', 's', 'e']⟩ : Token).type ≠ .ELSEIF ∧
      (⟨.ELSE, ['e', 'l', 's', 'e']⟩ : Token).type ≠ .IMPORT) ∧
    ({ Compiler.new ['e', 'e', 'l', 's', 'e', ' ', 'A'] with
        cerr := [.missingElse], cout := [.welcome, .completed] } : Compiler).called =
      (Compiler.new ['e', 'e', 'l', 's', 'e', ' ', 'A']).called ∧
    ∃ ds, ({ Compiler.new ['e', 'e', 'l', 's', 'e', ' ', 'A'] with
        cerr := [.missingElse], cout := [.welcome, .completed] } : Compiler).cerr =
        (Compiler.new ['e', 'e', 'l', 's', 'e', ' ', 'A']).cerr ++ ds ∧
      .malformedElseif ∉ ds ∧ .malformedLibraryName ∉ ds ∧
      .libraryNotLoaded ∉ ds ∧ .functionNotFound ∉ ds) :=
  ⟨⟨by decide, by decide⟩,
    getNextToken_never_elseif_import ⟨['e', 'e', 'l', 's', 'e', 'i', 'f'], 0⟩
      ⟨['e', 'e', 'l', 's', 'e', 'i', 'f'], 5⟩ ⟨.ELSE, ['e', 'l', 's', 'e']⟩ 4
      (Compiler.new ['e', 'e', 'l', 's', 'e', ' ', 'A'])
      { Compiler.new ['e', 'e', 'l', 's', 'e', ' ', 'A'] with
        cerr := [.missingElse], cout := [.welcome, .completed] }
      (by decide) (by decide)⟩

/-- The spellings `elseif` and `import`, also with the first character
doubled, give no ELSEIF and no IMPORT token. -/
theorem elseif_import_examples :
    getNextToken (Lexer.new ['e', 'l', 's', 'e', 'i', 'f']) = .error .unexpectedToken ∧
    getNextToken (Lexer.new ['e', 'e', 'l', 's', 'e', 'i', 'f']) =
      .ok (⟨.ELSE, ['e', 'l', 's', 'e']⟩, ⟨['e', 'e', 'l', 's', 'e', 'i', 'f'], 5⟩) ∧
    getNextToken (Lexer.new ['i', 'm', 'p', 'o', 'r', 't']) = .error .unexpectedToken ∧
    getNextToken (Lexer.new ['i', 'i', 'm', 'p', 'o', 'r', 't']) = .error .unexpectedToken := by
  decide

/-- C18: the two default branches are dead.  A token that `getNextToken`
returns is END or of a kind with a case of its own in the switch of `compile`;
with the operators of these cases the switch of `processArithmetic` never
reports an invalid operator; and a run of `compile` that returns has written
neither the message of the unknown token nor the message of the invalid
operator. -/
theorem default_branches_dead (lx lx' : Lexer) (t : Token) (fuel : Nat) (c c' : Compiler)
    (h : getNextToken lx = .ok (t, lx')) (hrun : compile fuel c = .done c') :
    (t.type = .END ∨ t.type = .TEXT ∨ t.type = .VAR_DECL ∨ t.type = .VAR_ASSIGN ∨
      t.type = .ADD ∨ t.type = .SUB ∨ t.type = .MUL ∨ t.type = .DIV ∨ t.type = .MOD ∨
      t.type = .IF ∨ t.type = .ELSE ∨ t.type = .FOR) ∧
    (∀ (op : TokenType) (v k : Int),
      op = .ADD ∨ op = .SUB ∨ op = .MUL ∨ op = .DIV ∨ op = .MOD →
      applyOperator op v k ≠ .error .invalidOperator) ∧
    (∃ ds, c'.cerr = c.cerr ++ ds ∧ .unknownToken ∉ ds ∧ .invalidOperator ∉ ds) ∧
    c' ≠ (c.say .welcome).report .unknownToken ∧ c' ≠ c.report .unknownToken := by
  obtain ⟨-, ds, hds, hall⟩ := compileLoop_extends fuel _ true c c' hrun
  have hnot : Diag.unknownToken ∉ ds := fun hmem => absurd (hall _ hmem) (by decide)
  refine ⟨?_, ?_, ⟨ds, hds, hnot, fun hmem => absurd (hall _ hmem) (by decide)⟩, ?_, ?_⟩
  · have hk := getNextTokenFuel_kind _ lx t lx' h
    obtain ⟨ty, v⟩ := t
    cases ty <;> simp at hk ⊢
  · intro op v k hop heq
    have := applyOperator_diag op v k _ hop heq
    cases this
  · intro heq
    rw [heq] at hds
    have hds' : c.cerr ++ [Diag.unknownToken] = c.cerr ++ ds := hds
    rw [List.append_cancel_left hds'.symm] at hnot
    exact hnot (List.mem_singleton.mpr rfl)
  · intro heq
    rw [heq] at hds
    have hds' : c.cerr ++ [Diag.unknownToken] = c.cerr ++ ds := hds
    rw [List.append_cancel_left hds'.symm] at hnot
    exact hnot (List.mem_singleton.mpr rfl)

theorem default_branches_dead_witness :
    (getNextToken ⟨divideByZeroProgram, 8⟩ = .ok (⟨.DIV, ['/']⟩, ⟨divideByZeroProgram, 9⟩) ∧
      compile 4 (Compiler.new divideByZeroProgram) = .done divideByZeroFinal) ∧
    (((⟨.DIV, ['/']⟩ : Token).type = .END ∨ (⟨.DIV, ['/']⟩ : Token).type = .TEXT ∨
      (⟨.DIV, ['/']⟩ : Token).type = .VAR_DECL ∨ (⟨.DIV, ['/']⟩ : Token).type = .VAR_ASSIGN ∨
      (⟨.DIV, ['/']⟩ : Token).type = .ADD ∨ (⟨.DIV, ['/']⟩ : Token).type = .SUB ∨
      (⟨.DIV, ['/']⟩ : Token).type = .MUL ∨ (⟨.DIV, ['/']⟩ : Token).type = .DIV ∨
      (⟨.DIV, ['/']⟩ : Token).type = .MOD ∨ (⟨.DIV, ['/']⟩ : Token).type = .IF ∨
      (⟨.DIV, ['/']⟩ : Token).type = .ELSE ∨ (⟨.DIV, ['/']⟩ : Token).type = .FOR) ∧
    (∀ (op : TokenType) (v k : Int),
      op = .ADD ∨ op = .SUB ∨ op = .MUL ∨ op = .DIV ∨ op = .MOD →
      applyOperator op v k ≠ .error .invalidOperator) ∧
    (∃ ds, divideByZeroFinal.cerr = (Compiler.new divideByZeroProgram).cerr ++ ds ∧
      .unknownToken ∉ ds ∧ .invalidOperator ∉ ds) ∧
    divideByZeroFinal ≠ ((Compiler.new divideByZeroProgram).say .welcome).report
      .unknownToken ∧
    divideByZeroFinal ≠ (Compiler.new divideByZeroProgram).report .unknownToken) :=
  ⟨⟨by decide, by decide⟩,
    default_branches_dead ⟨divideByZeroProgram, 8⟩ ⟨divideByZeroProgram, 9⟩ ⟨.DIV, ['/']⟩ 4
      (Compiler.new divideByZeroProgram) divideByZeroFinal (by decide) (by decide)⟩

/-! ## C17: progress and termination -/

/-- A call that returns END has passed only whitespace and stops at the end
of the input. -/
theorem getNextTokenFuel_end_position :
    ∀ (fuel : Nat) (lx : Lexer) (t : Token) (lx' : Lexer),
      lx.input.length - lx.position ≤ fuel → lx.position ≤ lx.input.length →
      getNextTokenFuel fuel lx = .ok (t, lx') → t.type = .END →
      lx'.position = lx.input.length ∧ ∀ w ∈ lx.input.drop lx.position, isspace w = true := by
  intro fuel
  induction fuel with
  | zero =>
    intro lx t lx' hfuel hpos h hend
    rw [getNextTokenFuel] at h
    rcases getNextTokenBody_cases _ lx t lx' h with ⟨h0, -, h2⟩ | ⟨ch, h0, -, -⟩ | ⟨h1, -⟩
    · have hle := List.getElem?_eq_none_iff.mp h0
      rw [h2]
      refine ⟨by omega, ?_⟩
      rw [List.drop_eq_nil_of_le hle]
      exact fun w hw => absurd hw (List.not_mem_nil w)
    · have hlt : lx.position < lx.input.length := (List.getElem?_eq_some.mp h0).1
      omega
    · exact absurd hend h1
  | succ fuel ih =>
    intro lx t lx' hfuel hpos h hend
    rw [getNextTokenFuel] at h
    rcases getNextTokenBody_cases _ lx t lx' h with ⟨h0, -, h2⟩ | ⟨ch, h0, hs, h1⟩ | ⟨h1, -⟩
    · have hle := List.getElem?_eq_none_iff.mp h0
      rw [h2]
      refine ⟨by omega, ?_⟩
      rw [List.drop_eq_nil_of_le hle]
      exact fun w hw => absurd hw (List.not_mem_nil w)
    · have hlt : lx.position < lx.input.length := (List.getElem?_eq_some.mp h0).1
      have hf : ({ lx with position := lx.position + 1 } : Lexer).input.length -
          ({ lx with position := lx.position + 1 } : Lexer).position ≤ fuel := by
        show lx.input.length - (lx.position + 1) ≤ fuel
        omega
      obtain ⟨k1, k2⟩ := ih { lx with position := lx.position + 1 } t lx' hf hlt h1 hend
      refine ⟨k1, ?_⟩
      rw [drop_eq_cons_of_getElem? h0]
      intro w hw
      rcases List.mem_cons.mp hw with hw | hw
      · rw [hw]
        exact hs
      · exact k2 w hw
    · exact absurd hend h1

/-- The continuation of the main loop after a handler that cannot diverge
does not run out of fuel when the rest of the loop does not. -/
theorem resume_ne_fuelOut (r : Except Exn (Lexer × Compiler))
    (k : Lexer → Compiler → Run Compiler)
    (hk : ∀ lexer c1, r = .ok (lexer, c1) → k lexer c1 ≠ .fuelOut) :
    (match Run.ofExcept r with
      | .done (lexer, c) => k lexer c
      | .raised e => .raised e
      | .fuelOut => .fuelOut) ≠ .fuelOut := by
  cases r with
  | error e => exact fun h => by cases h
  | ok a => exact hk a.1 a.2 rfl

/-- The main loop ends on a token stream without IF, FOR and ELSEIF: one unit
of fuel for each unread character and one more are enough. -/
theorem compileLoop_plain_terminates :
    ∀ (fuel : Nat) (lexer : Lexer) (isFirstStatement : Bool) (c : Compiler),
      StreamPlain lexer → lexer.input.length - lexer.position + 1 ≤ fuel →
      compileLoop fuel lexer isFirstStatement c ≠ .fuelOut := by
  intro fuel
  induction fuel with
  | zero => intro lexer b c _ hfuel; omega
  | succ fuel ih =>
    intro lexer b c hplain hfuel
    rw [compileLoop]
    cases hg : getNextToken lexer with
    | error e => exact fun h => by cases h
    | ok r =>
      obtain ⟨token, lexer1⟩ := r
      dsimp only
      by_cases hend : token.type = .END
      · rw [if_pos hend]
        exact fun h => by cases h
      · rw [if_neg hend]
        have hkind := getNextTokenFuel_kind _ lexer token lexer1 hg
        obtain ⟨hadv, hctl⟩ := getNextToken_advanced lexer token lexer1 hg
        have hctl' := hctl hplain hend
        obtain ⟨hin, hlt, hle⟩ := getNextToken_progress lexer token lexer1 hg hend
        have hnext : ∀ (l : Lexer) (c1 : Compiler), Advanced lexer1 l →
            compileLoop fuel l false c1 ≠ .fuelOut := by
          intro l c1 ha
          refine ih l false c1 (ha.2.2 (hadv.2.2 hplain)) ?_
          have h1 := ha.1
          have h2 := ha.2.1
          rw [h1, hin]
          omega
        obtain ⟨ty, v⟩ := token
        cases ty <;> dsimp only
        · -- token TEXT
          exact hnext lexer1 _ (Advanced.stay _)
        · -- token VAR_DECL
          exact resume_ne_fuelOut _ _ (fun l c1 hr => hnext l c1 (processVarDecl_step _ _ _ _ hr).1)
        · -- token VAR_ASSIGN
          exact resume_ne_fuelOut _ _
            (fun l c1 hr => hnext l c1 (processVarAssign_step _ _ _ _ hr).1)
        · -- token ADD
          exact resume_ne_fuelOut _ _
            (fun l c1 hr => hnext l c1 (processArithmetic_step _ _ _ _ _ (Or.inl rfl) hr).1)
        · -- token SUB
          exact resume_ne_fuelOut _ _ (fun l c1 hr =>
            hnext l c1 (processArithmetic_step _ _ _ _ _ (Or.inr (Or.inl rfl)) hr).1)
        · -- token MUL
          exact resume_ne_fuelOut _ _ (fun l c1 hr =>
            hnext l c1 (processArithmetic_step _ _ _ _ _ (Or.inr (Or.inr (Or.inl rfl))) hr).1)
        · -- token DIV
          exact resume_ne_fuelOut _ _ (fun l c1 hr => hnext l c1
            (processArithmetic_step _ _ _ _ _ (Or.inr (Or.inr (Or.inr (Or.inl rfl)))) hr).1)
        · -- token MOD
          exact resume_ne_fuelOut _ _ (fun l c1 hr => hnext l c1
            (processArithmetic_step _ _ _ _ _ (Or.inr (Or.inr (Or.inr (Or.inr rfl)))) hr).1)
        · exact absurd rfl hend
        · exact absurd (show isControl TokenType.IF = false from hctl') (by decide)
        · -- token ELSE
          exact resume_ne_fuelOut _ _ (fun l c1 hr => hnext l c1 (skipToElse_step _ _ _ _ hr).1)
        · exact absurd (show isControl TokenType.FOR = false from hctl') (by decide)
        · exact absurd rfl hkind.1
        · exact absurd rfl hkind.2

/-- C17, as amended: a call of `getNextToken` that returns a token other than
END moves the cursor forward and keeps it inside the input; a call that
returns END from a cursor inside the input has passed only whitespace and
leaves the cursor at the end of the input, where a further call returns END
again without moving; so a sequence of tokens other than END is never longer
than the unread input, the whitespace recursion needs no more fuel than the
unread input is long, and the interpretation of a program whose token stream
holds no IF, FOR or ELSEIF token ends, with fuel for one round more than the
program has characters. -/
theorem lexer_progress_and_termination (c : Compiler) (fuel : Nat)
    (hplain : ∀ t ∈ programTokens c.source, isControl t.type = false)
    (hfuel : c.source.length + 1 ≤ fuel) :
    (∀ lx t lx', getNextToken lx = .ok (t, lx') → t.type ≠ .END →
      lx'.input = lx.input ∧ lx.position < lx'.position ∧ lx'.position ≤ lx.input.length) ∧
    (∀ lx t lx', getNextToken lx = .ok (t, lx') → t.type = .END →
      lx.position ≤ lx.input.length →
      lx'.input = lx.input ∧ lx'.position = lx.input.length ∧
        (∀ w ∈ lx.input.drop lx.position, isspace w = true) ∧
        getNextToken lx' = .ok (⟨.END, []⟩, lx')) ∧
    (∀ lx ts lx', readTokens ts lx = some lx' → (∀ t ∈ ts, t.type ≠ .END) →
      ts.length ≤ lx.input.length - lx.position) ∧
    (∀ lx fuel', lx.input.length - lx.position ≤ fuel' →
      getNextTokenFuel fuel' lx = getNextToken lx) ∧
    compile fuel c ≠ .fuelOut := by
  refine ⟨getNextToken_progress, ?_, ?_, fun lx fuel' h => getNextTokenFuel_enough fuel' lx h, ?_⟩
  · intro lx t lx' h hend hpos
    obtain ⟨-, hin, hnone⟩ := getNextToken_end lx t lx' h hend
    obtain ⟨k1, k2⟩ := getNextTokenFuel_end_position _ lx t lx' (le_refl _) hpos h hend
    exact ⟨hin, k1, k2, getNextToken_none lx' hnone⟩
  · intro lx ts lx' h hall
    obtain ⟨-, h2, h3⟩ := readTokens_progress ts lx lx' h hall
    by_cases hnil : ts = []
    · rw [hnil]
      exact Nat.zero_le _
    · have := h3 hnil
      omega
  · refine compileLoop_plain_terminates fuel (Lexer.new c.source) true c
      ⟨c.source.length, ?_, hplain⟩ ?_
    · show c.source.length - 0 ≤ c.source.length
      omega
    · show c.source.length - 0 + 1 ≤ fuel
      omega

theorem lexer_progress_and_termination_witness :
    ((∀ t ∈ programTokens (Compiler.new plainProgram).source, isControl t.type = false) ∧
      (Compiler.new plainProgram).source.length + 1 ≤ 21) ∧
    ((∀ lx t lx', getNextToken lx = .ok (t, lx') → t.type ≠ .END →
      lx'.input = lx.input ∧ lx.position < lx'.position ∧ lx'.position ≤ lx.input.length) ∧
    (∀ lx t lx', getNextToken lx = .ok (t, lx') → t.type = .END →
      lx.position ≤ lx.input.length →
      lx'.input = lx.input ∧ lx'.position = lx.input.length ∧
        (∀ w ∈ lx.input.drop lx.position, isspace w = true) ∧
        getNextToken lx' = .ok (⟨.END, []⟩, lx')) ∧
    (∀ lx ts lx', readTokens ts lx = some lx' → (∀ t ∈ ts, t.type ≠ .END) →
      ts.length ≤ lx.input.length - lx.position) ∧
    (∀ lx fuel', lx.input.length - lx.position ≤ fuel' →
      getNextTokenFuel fuel' lx = getNextToken lx) ∧
    compile 21 (Compiler.new plainProgram) ≠ .fuelOut) :=
  ⟨⟨by decide, by decide⟩,
    lexer_progress_and_termination (Compiler.new plainProgram) 21 (by decide) (by decide)⟩

/-- C17 as stated fails in one part: a call that returns END does not always
leave the cursor where it was.  On the input of one space the call from
position 0 passes the space and returns END with the cursor at 1. -/
theorem end_moves_cursor_counterexample :
    getNextToken ⟨[' '], 0⟩ = .ok (⟨.END, []⟩, ⟨[' '], 1⟩) ∧
    ¬ (∀ (lx : Lexer) (t : Token) (lx' : Lexer), lx.position ≤ lx.input.length →
      getNextToken lx = .ok (t, lx') → t.type = .END → lx'.position = lx.position) := by
  refine ⟨by decide, ?_⟩
  intro h
  have h1 := h ⟨[' '], 0⟩ ⟨.END, []⟩ ⟨[' '], 1⟩ (by decide) (by decide) rfl
  exact absurd h1 (by decide)

/-- The token stream and the run of `plainProgram`. -/
theorem plainProgram_run :
    (programTokens plainProgram).map Token.type =
      [.VAR_DECL, .TEXT, .VAR_ASSIGN, .TEXT, .TEXT, .ELSE, .ADD, .TEXT, .TEXT, .TEXT] ∧
    compile 21 (Compiler.new plainProgram) =
      .done { Compiler.new plainProgram with
        vars := [(['x'], 5)], cerr := [.missingElse], cout := [.welcome, .completed] } := by
  decide

/-! ## C19: literals are not negative -/

theorem digitsValue_nonneg (digits : List Char) (h : ∀ d ∈ digits, isdigit d = true) :
    0 ≤ digitsValue digits := by
  have key : ∀ (ds : List Char) (acc : Int), (∀ d ∈ ds, isdigit d = true) → 0 ≤ acc →
      0 ≤ ds.foldl (fun acc d => 10 * acc + ((d.toNat : Int) - 48)) acc := by
    intro ds
    induction ds with
    | nil => intro acc _ hacc; exact hacc
    | cons d ds ih =>
      intro acc hall hacc
      rw [List.foldl_cons]
      apply ih _ (fun x hx => hall x (List.mem_cons_of_mem _ hx))
      have hd := hall d (List.mem_cons_self _ _)
      simp only [isdigit, Bool.and_eq_true, decide_eq_true_eq] at hd
      omega
  exact key digits 0 h (le_refl _)

/-- On a string whose first character is no whitespace and no sign, `stoi`
returns no negative number. -/
theorem stoi_nonneg (ch : Char) (run : List Char) (v : Int) (hsp : isspace ch = false)
    (hminus : ch ≠ '-') (hplus : ch ≠ '+') (h : stoi (ch :: run) = .ok v) : 0 ≤ v := by
  unfold stoi at h
  have hdrop : (ch :: run).dropWhile isspace = ch :: run := by
    rw [List.dropWhile_cons, hsp]
    rfl
  rw [hdrop] at h
  have hneg : (decide ((ch :: run).head? = some '-')) = false := by
    simp only [List.head?_cons, Option.some.injEq, decide_eq_false_iff_not]
    exact hminus
  have hmatch : (match ch :: run with
      | '-' :: r => r
      | '+' :: r => r
      | _ => ch :: run) = ch :: run := by
    split
    · rename_i r heq
      exact absurd (List.cons.inj heq).1 hminus
    · rename_i r heq
      exact absurd (List.cons.inj heq).1 hplus
    · rfl
  dsimp only at h
  rw [hneg, hmatch] at h
  by_cases hd : (ch :: run).takeWhile isdigit = []
  · rw [if_pos hd] at h
    cases h
  · rw [if_neg hd] at h
    have hnn : 0 ≤ digitsValue ((ch :: run).takeWhile isdigit) :=
      digitsValue_nonneg _ (fun d hd' => List.mem_takeWhile_imp hd')
    simp only [Bool.false_eq_true, ↓reduceIte] at h
    split at h
    · cases h
    · simp only [Except.ok.injEq] at h
      rw [← h]
      exact hnn

/-- C19: an integer that `stoi` parses from a TEXT token of the lexer is not
negative, because the token starts neither with whitespace nor with `+` or
`-`.  So the operand is never -1, and DIV and MOD on a value in the range of
`int` with an operand other than 0 stay in that range: the results stored are
the exact quotient and remainder, and `INT_MIN / -1` does not occur. -/
theorem stoi_text_token_nonneg (lx lx' : Lexer) (t : Token) (k : Int)
    (h : getNextToken lx = .ok (t, lx')) (htext : t.type = .TEXT)
    (hk : stoi t.value = .ok k) :
    (∃ ch run, t.value = ch :: run ∧ isspace ch = false ∧ ch ≠ '+' ∧ ch ≠ '-') ∧
    0 ≤ k ∧ k ≠ -1 ∧
    (∀ v : Int, -2147483648 ≤ v → v ≤ 2147483647 → k ≠ 0 →
      applyOperator .DIV v k = .ok (v.tdiv k) ∧ applyOperator .MOD v k = .ok (v.tmod k)) := by
  obtain ⟨ws, ch, run, -, hsp, hop, hval, -⟩ := getNextTokenFuel_text_shape _ lx t lx' h htext
  have hplus : ch ≠ '+' := by
    intro hc
    rw [hc] at hop
    exact absurd hop (by decide)
  have hminus : ch ≠ '-' := by
    intro hc
    rw [hc] at hop
    exact absurd hop (by decide)
  rw [hval] at hk
  have hnn : 0 ≤ k := stoi_nonneg ch run k hsp hminus hplus hk
  refine ⟨⟨ch, run, hval, hsp, hplus, hminus⟩, hnn, by omega, ?_⟩
  intro v hlo hhi hk0
  have hkpos : 0 < k := by omega
  have hq1 : (v.tdiv k).natAbs ≤ v.natAbs := by
    rw [Int.natAbs_tdiv]
    exact Nat.div_le_self _ _
  have hr : (v.tmod k).natAbs ≤ v.natAbs := by
    rcases Int.le_total 0 v with hv | hv
    · have h0 := Int.tmod_nonneg k hv
      have h1 : v.tmod k ≤ v := by
        have h2 := Int.tmod_add_tdiv v k
        have h3 : 0 ≤ v.tdiv k := Int.tdiv_nonneg hv (by omega)
        have h4 : 0 ≤ k * v.tdiv k := Int.mul_nonneg (by omega) h3
        omega
      omega
    · have hneg := neg_tmod v k
      have h0 : 0 ≤ (-v).tmod k := Int.tmod_nonneg k (by omega)
      have h1 : (-v).tmod k ≤ -v := by
        have h2 := Int.tmod_add_tdiv (-v) k
        have h3 : 0 ≤ (-v).tdiv k := Int.tdiv_nonneg (by omega) (by omega)
        have h4 : 0 ≤ k * (-v).tdiv k := Int.mul_nonneg (by omega) h3
        omega
      omega
  have hqs : v < 0 → v.tdiv k ≤ 0 := by
    intro hv
    have h1 : (-v).tdiv k = -(v.tdiv k) := Int.neg_tdiv v k
    have h2 : 0 ≤ (-v).tdiv k := Int.tdiv_nonneg (by omega) (by omega)
    omega
  have hrs : v < 0 → v.tmod k ≤ 0 := by
    intro hv
    have h1 := neg_tmod v k
    have h2 : 0 ≤ (-v).tmod k := Int.tmod_nonneg k (by omega)
    omega
  constructor
  · simp only [applyOperator, if_pos hk0]
    rw [wrap32_of_range _ (by omega) (by omega)]
  · simp only [applyOperator, if_pos hk0]
    rw [wrap32_of_range _ (by omega) (by omega)]

theorem stoi_text_token_nonneg_witness :
    (getNextToken ⟨['/', 'y', ' ', '1', '2', 'a'], 2⟩ =
        .ok (⟨.TEXT, ['1', '2', 'a']⟩, ⟨['/', 'y', ' ', '1', '2', 'a'], 6⟩) ∧
      (⟨.TEXT, ['1', '2', 'a']⟩ : Token).type = .TEXT ∧
      stoi (⟨.TEXT, ['1', '2', 'a']⟩ : Token).value = .ok 12) ∧
    ((∃ ch run, (⟨.TEXT, ['1', '2', 'a']⟩ : Token).value = ch :: run ∧ isspace ch = false ∧
      ch ≠ '+' ∧ ch ≠ '-') ∧
    (0 : Int) ≤ 12 ∧ (12 : Int) ≠ -1 ∧
    (∀ v : Int, -2147483648 ≤ v → v ≤ 2147483647 → (12 : Int) ≠ 0 →
      applyOperator .DIV v 12 = .ok (v.tdiv 12) ∧ applyOperator .MOD v 12 = .ok (v.tmod 12))) :=
  ⟨⟨by decide, by decide, by decide⟩,
    stoi_text_token_nonneg ⟨['/', 'y', ' ', '1', '2', 'a'], 2⟩
      ⟨['/', 'y', ' ', '1', '2', 'a'], 6⟩ ⟨.TEXT, ['1', '2', 'a']⟩ 12
      (by decide) (by decide) (by decide)⟩

/-- A minus sign in front of a number is the SUB operator, not a part of the
literal: in `:x -5` the assignment finds `-` where it wants a value. -/
theorem negative_literal_example :
    getNextToken ⟨[':', 'x', ' ', '-', '5'], 2⟩ =
      .ok (⟨.SUB, ['-']⟩, ⟨[':', 'x', ' ', '-', '5'], 4⟩) ∧
    processVarAssign ⟨[':', 'x', ' ', '-', '5'], 1⟩ (Compiler.new [':', 'x', ' ', '-', '5']) =
      .ok (⟨[':', 'x', ' ', '-', '5'], 4⟩,
        (Compiler.new [':', 'x', ' ', '-', '5']).report .invalidValue) := by
  decide

/-! ## The output only grows -/

theorem outputGrows_same (c c' : Compiler) (h : c'.output = c.output) : OutputGrows c c' :=
  ⟨[], by rw [h, List.append_nil]⟩

theorem outputGrows_then {c1 c2 c3 : Compiler} (h12 : OutputGrows c1 c2)
    (h23 : OutputGrows c2 c3) : OutputGrows c1 c3 := by
  obtain ⟨r1, e1⟩ := h12
  obtain ⟨r2, e2⟩ := h23
  exact ⟨r1 ++ r2, by rw [e2, e1, List.append_assoc]⟩

theorem outputGrows_write (c : Compiler) (v : List Char) : OutputGrows c (c.write v) :=
  ⟨v, rfl⟩

theorem processVarDecl_output (lexer lexer' : Lexer) (c c' : Compiler)
    (h : processVarDecl lexer c = .ok (lexer', c')) :
    c'.output = c.output := by
  unfold processVarDecl at h
  cases hg : getNextToken lexer with
  | error e => rw [hg] at h; cases h
  | ok r =>
    obtain ⟨token, lexer1⟩ := r
    rw [hg] at h
    dsimp only at h
    by_cases ht : token.type ≠ .TEXT
    · rw [if_pos ht] at h
      simp only [Except.ok.injEq, Prod.mk.injEq] at h
      obtain ⟨rfl, rfl⟩ := h
      rfl
    · rw [if_neg ht] at h
      simp only [Except.ok.injEq, Prod.mk.injEq] at h
      obtain ⟨rfl, rfl⟩ := h
      rfl

theorem processVarAssign_output (lexer lexer' : Lexer) (c c' : Compiler)
    (h : processVarAssign lexer c = .ok (lexer', c')) :
    c'.output = c.output := by
  unfold processVarAssign at h
  cases hg : getNextToken lexer with
  | error e => rw [hg] at h; cases h
  | ok r =>
    obtain ⟨token, lexer1⟩ := r
    rw [hg] at h
    dsimp only at h
    by_cases ht : token.type ≠ .TEXT
    · rw [if_pos ht] at h
      simp only [Except.ok.injEq, Prod.mk.injEq] at h
      obtain ⟨rfl, rfl⟩ := h
      rfl
    · rw [if_neg ht] at h
      cases hg2 : getNextToken lexer1 with
      | error e => rw [hg2] at h; cases h
      | ok r2 =>
        obtain ⟨token2, lexer2⟩ := r2
        rw [hg2] at h
        dsimp only at h
        by_cases ht2 : token2.type ≠ .TEXT
        · rw [if_pos ht2] at h
          simp only [Except.ok.injEq, Prod.mk.injEq] at h
          obtain ⟨rfl, rfl⟩ := h
          rfl
        · rw [if_neg ht2] at h
          cases hs : stoi token2.value with
          | error e => rw [hs] at h; cases h
          | ok value =>
            rw [hs] at h
            simp only [Except.ok.injEq, Prod.mk.injEq] at h
            obtain ⟨rfl, rfl⟩ := h
            rfl

theorem processArithmetic_output (opToken : Token) (lexer lexer' : Lexer) (c c' : Compiler)
    (h : processArithmetic opToken lexer c = .ok (lexer', c')) :
    c'.output = c.output := by
  unfold processArithmetic at h
  cases hg : getNextToken lexer with
  | error e => rw [hg] at h; cases h
  | ok r =>
    obtain ⟨token, lexer1⟩ := r
    rw [hg] at h
    dsimp only at h
    by_cases ht : token.type = .TEXT
    · rw [if_pos ht] at h
      cases hf : c.vars.find token.value with
      | none =>
        rw [hf] at h
        simp only [Except.ok.injEq, Prod.mk.injEq] at h
        obtain ⟨rfl, rfl⟩ := h
        rfl
      | some result =>
        rw [hf] at h
        dsimp only at h
        cases hg2 : getNextToken lexer1 with
        | error e => rw [hg2] at h; cases h
        | ok r2 =>
          obtain ⟨token2, lexer2⟩ := r2
          rw [hg2] at h
          dsimp only at h
          by_cases ht2 : token2.type ≠ .TEXT
          · rw [if_pos ht2] at h
            simp only [Except.ok.injEq, Prod.mk.injEq] at h
            obtain ⟨rfl, rfl⟩ := h
            rfl
          · rw [if_neg ht2] at h
            cases hs : stoi token2.value with
            | error e => rw [hs] at h; cases h
            | ok operand =>
              rw [hs] at h
              dsimp only at h
              cases ha : applyOperator opToken.type result operand with
              | error d =>
                rw [ha] at h
                simp only [Except.ok.injEq, Prod.mk.injEq] at h
                obtain ⟨rfl, rfl⟩ := h
                rfl
              | ok value =>
                rw [ha] at h
                simp only [Except.ok.injEq, Prod.mk.injEq] at h
                obtain ⟨rfl, rfl⟩ := h
                rfl
    · rw [if_neg ht] at h
      simp only [Except.ok.injEq, Prod.mk.injEq] at h
      obtain ⟨rfl, rfl⟩ := h
      rfl

theorem skipToElseFuel_output (c : Compiler) :
    ∀ (fuel : Nat) (lexer lexer' : Lexer) (c' : Compiler),
      skipToElseFuel fuel lexer c = .ok (lexer', c') → c'.output = c.output := by
  intro fuel
  induction fuel with
  | zero =>
    intro lexer lexer' c' h
    simp only [skipToElseFuel, Except.ok.injEq, Prod.mk.injEq] at h
    obtain ⟨rfl, rfl⟩ := h
    rfl
  | succ fuel ih =>
    intro lexer lexer' c' h
    rw [skipToElseFuel] at h
    cases hg : getNextToken lexer with
    | error e => rw [hg] at h; cases h
    | ok r =>
      obtain ⟨token, lexer1⟩ := r
      rw [hg] at h
      dsimp only at h
      by_cases ht : token.type = .END
      · rw [if_pos ht] at h
        simp only [Except.ok.injEq, Prod.mk.injEq] at h
        obtain ⟨rfl, rfl⟩ := h
        rfl
      · rw [if_neg ht] at h
        by_cases ht2 : token.type = .ELSE
        · rw [if_pos ht2] at h
          simp only [Except.ok.injEq, Prod.mk.injEq] at h
          obtain ⟨rfl, rfl⟩ := h
          rfl
        · rw [if_neg ht2] at h
          exact ih lexer1 lexer' c' h

theorem skipToElse_output (lexer lexer' : Lexer) (c c' : Compiler)
    (h : skipToElse lexer c = .ok (lexer', c')) : c'.output = c.output :=
  skipToElseFuel_output c _ lexer lexer' c' h

theorem processIfStatement_grows (compile : Compiler → Run Compiler)
    (hcompile : ∀ c1 c2, compile c1 = .done c2 → OutputGrows c1 c2)
    (lexer lexer' : Lexer) (c c' : Compiler)
    (h : processIfStatement compile lexer c = .done (lexer', c')) : OutputGrows c c' := by
  unfold processIfStatement at h
  cases hg : getNextToken lexer with
  | error e => rw [hg] at h; cases h
  | ok r =>
    obtain ⟨token, lexer1⟩ := r
    rw [hg] at h
    dsimp only at h
    by_cases ht : token.type ≠ .TEXT
    · rw [if_pos ht] at h
      simp only [Run.done.injEq, Prod.mk.injEq] at h
      obtain ⟨-, rfl⟩ := h
      exact outputGrows_same _ _ rfl
    · rw [if_neg ht] at h
      cases hf : c.vars.find token.value with
      | none =>
        rw [hf] at h
        simp only [Run.done.injEq, Prod.mk.injEq] at h
        obtain ⟨-, rfl⟩ := h
        exact outputGrows_same _ _ rfl
      | some value =>
        rw [hf] at h
        dsimp only at h
        by_cases hv : value ≠ 0
        · rw [if_pos hv] at h
          cases hc : compile c with
          | done c2 =>
            rw [hc] at h
            simp only [Run.done.injEq, Prod.mk.injEq] at h
            obtain ⟨-, rfl⟩ := h
            exact hcompile c c2 hc
          | raised e => rw [hc] at h; cases h
          | fuelOut => rw [hc] at h; cases h
        · rw [if_neg hv] at h
          exact outputGrows_same _ _ (skipToElse_output lexer1 lexer' c c' (Run.ofExcept_done _ _ h))

theorem forLoop_grows (compile : Compiler → Run Compiler)
    (hcompile : ∀ c1 c2, compile c1 = .done c2 → OutputGrows c1 c2)
    (varName : List Char) (endValue : Int) :
    ∀ (fuel : Nat) (i : Int) (c c' : Compiler),
      forLoop compile varName endValue fuel i c = .done c' → OutputGrows c c' := by
  intro fuel
  induction fuel with
  | zero => intro i c c' h; cases h
  | succ fuel ih =>
    intro i c c' h
    rw [forLoop] at h
    by_cases hi : i ≤ endValue
    · rw [if_pos hi] at h
      cases hc : compile (c.assign varName i) with
      | done c2 =>
        rw [hc] at h
        dsimp only at h
        exact outputGrows_then (outputGrows_then (outputGrows_same c (c.assign varName i) rfl)
          (hcompile _ c2 hc)) (ih _ c2 c' h)
      | raised e => rw [hc] at h; cases h
      | fuelOut => rw [hc] at h; cases h
    · rw [if_neg hi] at h
      simp only [Run.done.injEq] at h
      rw [← h]
      exact outputGrows_same c c rfl

theorem processForLoop_grows (compile : Compiler → Run Compiler)
    (hcompile : ∀ c1 c2, compile c1 = .done c2 → OutputGrows c1 c2)
    (fuel : Nat) (lexer lexer' : Lexer) (c c' : Compiler)
    (h : processForLoop compile fuel lexer c = .done (lexer', c')) : OutputGrows c c' := by
  unfold processForLoop at h
  cases hg : getNextToken lexer with
  | error e => rw [hg] at h; cases h
  | ok r =>
    obtain ⟨token, lexer1⟩ := r
    rw [hg] at h
    dsimp only at h
    by_cases ht : token.type ≠ .TEXT
    · rw [if_pos ht] at h
      simp only [Run.done.injEq, Prod.mk.injEq] at h
      obtain ⟨-, rfl⟩ := h
      exact outputGrows_same _ _ rfl
    · rw [if_neg ht] at h
      cases hf : c.vars.find token.value with
      | none =>
        rw [hf] at h
        simp only [Run.done.injEq, Prod.mk.injEq] at h
        obtain ⟨-, rfl⟩ := h
        exact outputGrows_same _ _ rfl
      | some value =>
        rw [hf] at h
        dsimp only at h
        cases hg2 : getNextToken lexer1 with
        | error e => rw [hg2] at h; cases h
        | ok r2 =>
          obtain ⟨token2, lexer2⟩ := r2
          rw [hg2] at h
          dsimp only at h
          by_cases ht2 : token2.type ≠ .VAR_ASSIGN
          · rw [if_pos ht2] at h
            simp only [Run.done.injEq, Prod.mk.injEq] at h
            obtain ⟨-, rfl⟩ := h
            exact outputGrows_same _ _ rfl
          · rw [if_neg ht2] at h
            cases hg3 : getNextToken lexer2 with
            | error e => rw [hg3] at h; cases h
            | ok r3 =>
              obtain ⟨token3, lexer3⟩ := r3
              rw [hg3] at h
              dsimp only at h
              by_cases ht3 : token3.type ≠ .TEXT
              · rw [if_pos ht3] at h
                simp only [Run.done.injEq, Prod.mk.injEq] at h
                obtain ⟨-, rfl⟩ := h
                exact outputGrows_same _ _ rfl
              · rw [if_neg ht3] at h
                cases hs3 : stoi token3.value with
                | error e => rw [hs3] at h; cases h
                | ok initialValue =>
                  rw [hs3] at h
                  dsimp only at h
                  cases hg4 : getNextToken lexer3 with
                  | error e => rw [hg4] at h; cases h
                  | ok r4 =>
                    obtain ⟨token4, lexer4⟩ := r4
                    rw [hg4] at h
                    dsimp only at h
                    by_cases ht4 : token4.type ≠ .TEXT
                    · rw [if_pos ht4] at h
                      simp only [Run.done.injEq, Prod.mk.injEq] at h
                      obtain ⟨-, rfl⟩ := h
                      exact outputGrows_same _ _ rfl
                    · rw [if_neg ht4] at h
                      cases hs4 : stoi token4.value with
                      | error e => rw [hs4] at h; cases h
                      | ok endValue =>
                        rw [hs4] at h
                        dsimp only at h
                        cases hl : forLoop compile token.value endValue fuel initialValue c with
                        | done c2 =>
                          rw [hl] at h
                          simp only [Run.done.injEq, Prod.mk.injEq] at h
                          obtain ⟨-, rfl⟩ := h
                          exact forLoop_grows compile hcompile _ _ fuel _ c c2 hl
                        | raised e => rw [hl] at h; cases h
                        | fuelOut => rw [hl] at h; cases h

/-- A run of the main loop that is done has only added characters to the
output, nested runs included. -/
theorem compileLoop_grows :
    ∀ (fuel : Nat) (lexer : Lexer) (isFirstStatement : Bool) (c c' : Compiler),
      compileLoop fuel lexer isFirstStatement c = .done c' → OutputGrows c c' := by
  intro fuel
  induction fuel with
  | zero => intro lexer b c c' h; cases h
  | succ fuel ih =>
    intro lexer b c c' h
    rw [compileLoop] at h
    cases hg : getNextToken lexer with
    | error e => rw [hg] at h; cases h
    | ok r =>
      obtain ⟨token, lexer1⟩ := r
      rw [hg] at h
      dsimp only at h
      by_cases hend : token.type = .END
      · rw [if_pos hend] at h
        simp only [Run.done.injEq] at h
        rw [← h]
        exact outputGrows_same _ _ rfl
      · rw [if_neg hend] at h
        have hkind := getNextTokenFuel_kind _ lexer token lexer1 hg
        have h0 : OutputGrows c (if b = true then c.say .welcome else c) := by
          cases b <;> exact outputGrows_same _ _ rfl
        have hnested : ∀ c1 c2, compileLoop fuel (Lexer.new c1.source) true c1 = .done c2 →
            OutputGrows c1 c2 := fun c1 c2 hc => ih _ _ c1 c2 hc
        obtain ⟨ty, v⟩ := token
        cases ty <;> dsimp only at h
        · -- token TEXT
          exact outputGrows_then (outputGrows_then h0 (outputGrows_write _ _)) (ih _ _ _ c' h)
        · -- token VAR_DECL
          obtain ⟨l, c1, hr, hk⟩ := resume_done _ (fun l c => compileLoop fuel l false c) c' h
          exact outputGrows_then (outputGrows_then h0 (outputGrows_same _ _
            (processVarDecl_output _ _ _ _ (Run.ofExcept_done _ _ hr)))) (ih _ _ _ c' hk)
        · -- token VAR_ASSIGN
          obtain ⟨l, c1, hr, hk⟩ := resume_done _ (fun l c => compileLoop fuel l false c) c' h
          exact outputGrows_then (outputGrows_then h0 (outputGrows_same _ _
            (processVarAssign_output _ _ _ _ (Run.ofExcept_done _ _ hr)))) (ih _ _ _ c' hk)
        · -- token ADD
          obtain ⟨l, c1, hr, hk⟩ := resume_done _ (fun l c => compileLoop fuel l false c) c' h
          exact outputGrows_then (outputGrows_then h0 (outputGrows_same _ _
            (processArithmetic_output _ _ _ _ _ (Run.ofExcept_done _ _ hr)))) (ih _ _ _ c' hk)
        · -- token SUB
          obtain ⟨l, c1, hr, hk⟩ := resume_done _ (fun l c => compileLoop fuel l false c) c' h
          exact outputGrows_then (outputGrows_then h0 (outputGrows_same _ _
            (processArithmetic_output _ _ _ _ _ (Run.ofExcept_done _ _ hr)))) (ih _ _ _ c' hk)
        · -- token MUL
          obtain ⟨l, c1, hr, hk⟩ := resume_done _ (fun l c => compileLoop fuel l false c) c' h
          exact outputGrows_then (outputGrows_then h0 (outputGrows_same _ _
            (processArithmetic_output _ _ _ _ _ (Run.ofExcept_done _ _ hr)))) (ih _ _ _ c' hk)
        · -- token DIV
          obtain ⟨l, c1, hr, hk⟩ := resume_done _ (fun l c => compileLoop fuel l false c) c' h
          exact outputGrows_then (outputGrows_then h0 (outputGrows_same _ _
            (processArithmetic_output _ _ _ _ _ (Run.ofExcept_done _ _ hr)))) (ih _ _ _ c' hk)
        · -- token MOD
          obtain ⟨l, c1, hr, hk⟩ := resume_done _ (fun l c => compileLoop fuel l false c) c' h
          exact outputGrows_then (outputGrows_then h0 (outputGrows_same _ _
            (processArithmetic_output _ _ _ _ _ (Run.ofExcept_done _ _ hr)))) (ih _ _ _ c' hk)
        · exact absurd rfl hend
        · -- token IF
          obtain ⟨l, c1, hr, hk⟩ := resume_done _ (fun l c => compileLoop fuel l false c) c' h
          exact outputGrows_then (outputGrows_then h0
            (processIfStatement_grows _ hnested _ _ _ _ hr)) (ih _ _ _ c' hk)
        · -- token ELSE
          obtain ⟨l, c1, hr, hk⟩ := resume_done _ (fun l c => compileLoop fuel l false c) c' h
          exact outputGrows_then (outputGrows_then h0 (outputGrows_same _ _
            (skipToElse_output _ _ _ _ (Run.ofExcept_done _ _ hr)))) (ih _ _ _ c' hk)
        · -- token FOR
          obtain ⟨l, c1, hr, hk⟩ := resume_done _ (fun l c => compileLoop fuel l false c) c' h
          exact outputGrows_then (outputGrows_then h0
            (processForLoop_grows _ hnested _ _ _ _ _ hr)) (ih _ _ _ c' hk)
        · exact absurd rfl hkind.1
        · exact absurd rfl hkind.2

/-! ## C20, C12: what the main loop does after a handler -/

/-- One round of the main loop on an arithmetic operator token. -/
theorem compileLoop_arithmetic (fuel : Nat) (isFirstStatement : Bool) (c : Compiler)
    (lexer0 lexer : Lexer) (opToken : Token)
    (hop : getNextToken lexer0 = .ok (opToken, lexer))
    (hkind : opToken.type = .ADD ∨ opToken.type = .SUB ∨ opToken.type = .MUL ∨
      opToken.type = .DIV ∨ opToken.type = .MOD) :
    compileLoop (fuel + 1) lexer0 isFirstStatement c =
      match Run.ofExcept (processArithmetic opToken lexer
          (if isFirstStatement = true then c.say .welcome else c)) with
      | .done (lexer, c) => compileLoop fuel lexer false c
      | .raised e => .raised e
      | .fuelOut => .fuelOut := by
  obtain ⟨ty, v⟩ := opToken
  simp only at hkind
  rw [compileLoop, hop]
  dsimp only
  rcases hkind with h | h | h | h | h <;> subst h <;> rw [if_neg (by decide)]

/-- One round of the main loop on the assignment token. -/
theorem compileLoop_assign (fuel : Nat) (isFirstStatement : Bool) (c : Compiler)
    (lexer0 lexer : Lexer) (opToken : Token)
    (hop : getNextToken lexer0 = .ok (opToken, lexer)) (hkind : opToken.type = .VAR_ASSIGN) :
    compileLoop (fuel + 1) lexer0 isFirstStatement c =
      match Run.ofExcept (processVarAssign lexer
          (if isFirstStatement = true then c.say .welcome else c)) with
      | .done (lexer, c) => compileLoop fuel lexer false c
      | .raised e => .raised e
      | .fuelOut => .fuelOut := by
  obtain ⟨ty, v⟩ := opToken
  simp only at hkind
  subst hkind
  rw [compileLoop, hop]
  dsimp only
  rw [if_neg (by decide)]

/-- One round of the main loop on a TEXT token. -/
theorem compileLoop_text (fuel : Nat) (isFirstStatement : Bool) (c : Compiler)
    (lexer0 lexer : Lexer) (value : List Char)
    (htext : getNextToken lexer0 = .ok (⟨.TEXT, value⟩, lexer)) :
    compileLoop (fuel + 1) lexer0 isFirstStatement c =
      compileLoop fuel lexer false
        ((if isFirstStatement = true then c.say .welcome else c).write value) := by
  rw [compileLoop, htext]
  dsimp only
  rw [if_neg (by decide)]

/-- One round of the main loop at the end of the input. -/
theorem compileLoop_end (fuel : Nat) (isFirstStatement : Bool) (c : Compiler)
    (lexer lexer' : Lexer) (last : Token)
    (hlast : getNextToken lexer = .ok (last, lexer')) (hend : last.type = .END) :
    compileLoop (fuel + 1) lexer isFirstStatement c = .done (c.say .completed) := by
  rw [compileLoop, hlast]
  dsimp only
  rw [if_pos hend]

/-- C20: when an arithmetic statement names a variable that is not declared,
`processArithmetic` returns behind the name with the message of the undeclared
variable, so the main loop reads the operand as a TEXT token and writes it: the
run goes on behind the operand in the state whose output is the old output and
the operand, every run that returns has the operand in its output right behind
the old output, and when the input ends there the run returns exactly that
state.  When the variable is declared (and the operand is a number, not 0 for
DIV and MOD) the statement takes the operand and stores the result: the run
goes on behind the operand with the output as it was, and when the input ends
there the run returns with the output unchanged. -/
theorem undeclared_operand_leaks (fuel : Nat) (isFirstStatement : Bool) (c : Compiler)
    (lexer0 lexer lexer1 lexer2 : Lexer) (opToken : Token) (name literal : List Char)
    (hop : getNextToken lexer0 = .ok (opToken, lexer))
    (hkind : opToken.type = .ADD ∨ opToken.type = .SUB ∨ opToken.type = .MUL ∨
      opToken.type = .DIV ∨ opToken.type = .MOD)
    (hname : getNextToken lexer = .ok (⟨.TEXT, name⟩, lexer1))
    (hlit : getNextToken lexer1 = .ok (⟨.TEXT, literal⟩, lexer2)) :
    (c.vars.find name = none →
      processArithmetic opToken lexer c = .ok (lexer1, c.report .undeclaredVariable) ∧
      compileLoop (fuel + 2) lexer0 isFirstStatement c =
        compileLoop fuel lexer2 false
          (((if isFirstStatement = true then c.say .welcome else c).report
            .undeclaredVariable).write literal) ∧
      (((if isFirstStatement = true then c.say .welcome else c).report
        .undeclaredVariable).write literal).output = c.output ++ literal ∧
      (∀ cf, compileLoop (fuel + 2) lexer0 isFirstStatement c = .done cf →
        ∃ rest, cf.output = c.output ++ literal ++ rest) ∧
      (∀ last lexer3, getNextToken lexer2 = .ok (last, lexer3) → last.type = .END →
        compileLoop (fuel + 3) lexer0 isFirstStatement c =
          .done ((((if isFirstStatement = true then c.say .welcome else c).report
            .undeclaredVariable).write literal).say .completed))) ∧
    (∀ v k, c.vars.find name = some v → stoi literal = .ok k →
      (opToken.type = .DIV ∨ opToken.type = .MOD → k ≠ 0) →
      compileLoop (fuel + 1) lexer0 isFirstStatement c =
        compileLoop fuel lexer2 false
          ((if isFirstStatement = true then c.say .welcome else c).assign name
            (wrap32 (specApply opToken.type v k))) ∧
      ((if isFirstStatement = true then c.say .welcome else c).assign name
        (wrap32 (specApply opToken.type v k))).output = c.output ∧
      (∀ last lexer3, getNextToken lexer2 = .ok (last, lexer3) → last.type = .END →
        compileLoop (fuel + 2) lexer0 isFirstStatement c =
          .done (((if isFirstStatement = true then c.say .welcome else c).assign name
            (wrap32 (specApply opToken.type v k))).say .completed))) := by
  have hvars : (if isFirstStatement = true then c.say .welcome else c).vars = c.vars := by
    cases isFirstStatement <;> rfl
  have hout : (if isFirstStatement = true then c.say .welcome else c).output = c.output := by
    cases isFirstStatement <;> rfl
  constructor
  · intro hund
    have hproc : ∀ c0 : Compiler, c0.vars.find name = none →
        processArithmetic opToken lexer c0 = .ok (lexer1, c0.report .undeclaredVariable) := by
      intro c0 h0
      unfold processArithmetic
      rw [hname]
      dsimp only
      rw [if_pos rfl, h0]
    have hrun : ∀ n, compileLoop (n + 2) lexer0 isFirstStatement c =
        compileLoop n lexer2 false
          (((if isFirstStatement = true then c.say .welcome else c).report
            .undeclaredVariable).write literal) := by
      intro n
      rw [compileLoop_arithmetic (n + 1) isFirstStatement c lexer0 lexer opToken hop hkind,
        hproc _ (by rw [hvars]; exact hund)]
      show compileLoop (n + 1) lexer1 false _ = _
      rw [compileLoop_text n false _ lexer1 lexer2 literal hlit]
      rfl
    have houtx : (((if isFirstStatement = true then c.say .welcome else c).report
        .undeclaredVariable).write literal).output = c.output ++ literal := by
      show _ ++ literal = _
      rw [← hout]
      rfl
    refine ⟨hproc c hund, hrun fuel, houtx, ?_, ?_⟩
    · intro cf hcf
      rw [hrun fuel] at hcf
      obtain ⟨rest, hrest⟩ := compileLoop_grows fuel lexer2 false _ cf hcf
      exact ⟨rest, by rw [hrest, houtx]⟩
    · intro last lexer3 hlast hend
      rw [hrun (fuel + 1)]
      exact compileLoop_end fuel false _ lexer2 lexer3 last hlast hend
  · intro v k hdecl hk hk0
    have hrun : ∀ n, compileLoop (n + 1) lexer0 isFirstStatement c =
        compileLoop n lexer2 false
          ((if isFirstStatement = true then c.say .welcome else c).assign name
            (wrap32 (specApply opToken.type v k))) := by
      intro n
      rw [compileLoop_arithmetic n isFirstStatement c lexer0 lexer opToken hop hkind,
        processArithmetic_declared opToken lexer lexer1 lexer2 _ name literal v k hname hlit hk
          (by rw [hvars]; exact hdecl),
        applyOperator_eq_specApply opToken.type v k hkind hk0]
      rfl
    refine ⟨hrun fuel, hout, ?_⟩
    intro last lexer3 hlast hend
    rw [hrun (fuel + 1)]
    exact compileLoop_end fuel false _ lexer2 lexer3 last hlast hend

theorem undeclared_operand_leaks_witness :
    (getNextToken ⟨['+', 'y', ' ', '3'], 0⟩ = .ok (⟨.ADD, ['+']⟩, ⟨['+', 'y', ' ', '3'], 1⟩) ∧
      getNextToken ⟨['+', 'y', ' ', '3'], 1⟩ = .ok (⟨.TEXT, ['y']⟩, ⟨['+', 'y', ' ', '3'], 2⟩) ∧
      getNextToken ⟨['+', 'y', ' ', '3'], 2⟩ = .ok (⟨.TEXT, ['3']⟩, ⟨['+', 'y', ' ', '3'], 4⟩) ∧
      getNextToken ⟨['+', 'y', ' ', '3'], 4⟩ = .ok (⟨.END, []⟩, ⟨['+', 'y', ' ', '3'], 4⟩) ∧
      (Compiler.new ['+', 'y', ' ', '3']).vars.find ['y'] = none ∧
      ((Compiler.new ['+', 'y', ' ', '3']).assign ['y'] 4).vars.find ['y'] = some 4 ∧
      stoi ['3'] = .ok 3) ∧
    compileLoop (0 + 3) ⟨['+', 'y', ' ', '3'], 0⟩ true (Compiler.new ['+', 'y', ' ', '3']) =
      .done ((((if true = true then (Compiler.new ['+', 'y', ' ', '3']).say .welcome
        else Compiler.new ['+', 'y', ' ', '3']).report .undeclaredVariable).write ['3']).say
          .completed) ∧
    ((((if true = true then (Compiler.new ['+', 'y', ' ', '3']).say .welcome
        else Compiler.new ['+', 'y', ' ', '3']).report .undeclaredVariable).write ['3']).say
          .completed).output = ['3'] ∧
    compileLoop (0 + 2) ⟨['+', 'y', ' ', '3'], 0⟩ true
        ((Compiler.new ['+', 'y', ' ', '3']).assign ['y'] 4) =
      .done (((if true = true then ((Compiler.new ['+', 'y', ' ', '3']).assign ['y'] 4).say
          .welcome
        else (Compiler.new ['+', 'y', ' ', '3']).assign ['y'] 4).assign ['y']
          (wrap32 (specApply (⟨.ADD, ['+']⟩ : Token).type 4 3))).say .completed) ∧
    (((if true = true then ((Compiler.new ['+', 'y', ' ', '3']).assign ['y'] 4).say .welcome
        else (Compiler.new ['+', 'y', ' ', '3']).assign ['y'] 4).assign ['y']
          (wrap32 (specApply (⟨.ADD, ['+']⟩ : Token).type 4 3))).say .completed).output = [] :=
  ⟨⟨by decide, by decide, by decide, by decide, by decide, by decide, by decide⟩,
    ((undeclared_operand_leaks 0 true (Compiler.new ['+', 'y', ' ', '3'])
      ⟨['+', 'y', ' ', '3'], 0⟩ ⟨['+', 'y', ' ', '3'], 1⟩ ⟨['+', 'y', ' ', '3'], 2⟩
      ⟨['+', 'y', ' ', '3'], 4⟩ ⟨.ADD, ['+']⟩ ['y'] ['3'] (by decide) (by decide) (by decide)
      (by decide)).1 (by decide)).2.2.2.2 ⟨.END, []⟩ ⟨['+', 'y', ' ', '3'], 4⟩ (by decide)
      (by decide),
    by decide,
    ((undeclared_operand_leaks 0 true ((Compiler.new ['+', 'y', ' ', '3']).assign ['y'] 4)
      ⟨['+', 'y', ' ', '3'], 0⟩ ⟨['+', 'y', ' ', '3'], 1⟩ ⟨['+', 'y', ' ', '3'], 2⟩
      ⟨['+', 'y', ' ', '3'], 4⟩ ⟨.ADD, ['+']⟩ ['y'] ['3'] (by decide) (by decide) (by decide)
      (by decide)).2 4 3 (by decide) (by decide) (by decide)).2.2 ⟨.END, []⟩
      ⟨['+', 'y', ' ', '3'], 4⟩ (by decide) (by decide),
    by decide⟩

/-- The example of C20 run whole: `+y 3` writes `3` when `y` is not declared
and nothing when it is. -/
theorem undeclared_operand_examples :
    compile 3 (Compiler.new ['+', 'y', ' ', '3']) =
      .done { Compiler.new ['+', 'y', ' ', '3'] with
        output := ['3'], cerr := [.undeclaredVariable], cout := [.welcome, .completed] } ∧
    compile 3 ((Compiler.new ['+', 'y', ' ', '3']).assign ['y'] 4) =
      .done { Compiler.new ['+', 'y', ' ', '3'] with
        vars := [(['y'], 7)], output := [], cout := [.welcome, .completed] } := by
  decide

/-- C12, the behaviour of the code: when the literal of an assignment, or of
an arithmetic statement on a declared variable, does not parse as an integer,
the call of `stoi` raises and the handler has nothing to catch it.  Instead of
writing the message of the invalid value and returning, as it does when the
token is no TEXT, the handler ends with the exception, and so does the main
loop: the next token is never read. -/
theorem literal_not_integer_aborts (fuel : Nat) (isFirstStatement : Bool) (c : Compiler)
    (lexer0 lexer lexer1 lexer2 : Lexer) (opToken : Token) (name literal : List Char) (e : Exn)
    (hop : getNextToken lexer0 = .ok (opToken, lexer))
    (hname : getNextToken lexer = .ok (⟨.TEXT, name⟩, lexer1))
    (hlit : getNextToken lexer1 = .ok (⟨.TEXT, literal⟩, lexer2))
    (hstoi : stoi literal = .error e) :
    (opToken.type = .VAR_ASSIGN →
      processVarAssign lexer c = .error e ∧
      compileLoop (fuel + 1) lexer0 isFirstStatement c = .raised e) ∧
    (opToken.type = .ADD ∨ opToken.type = .SUB ∨ opToken.type = .MUL ∨
      opToken.type = .DIV ∨ opToken.type = .MOD →
      ∀ v, c.vars.find name = some v →
        processArithmetic opToken lexer c = .error e ∧
        compileLoop (fuel + 1) lexer0 isFirstStatement c = .raised e) := by
  have hvars : (if isFirstStatement = true then c.say .welcome else c).vars = c.vars := by
    cases isFirstStatement <;> rfl
  have hassign : ∀ c0 : Compiler, processVarAssign lexer c0 = .error e := by
    intro c0
    unfold processVarAssign
    rw [hname]
    dsimp only
    rw [if_neg (by simp), hlit]
    dsimp only
    rw [if_neg (by simp), hstoi]
  have harith : ∀ (c0 : Compiler) (v : Int), c0.vars.find name = some v →
      processArithmetic opToken lexer c0 = .error e := by
    intro c0 v hv
    unfold processArithmetic
    rw [hname]
    dsimp only
    rw [if_pos rfl, hv]
    dsimp only
    rw [hlit]
    dsimp only
    rw [if_neg (by simp), hstoi]
  constructor
  · intro hkind
    refine ⟨hassign c, ?_⟩
    rw [compileLoop_assign fuel isFirstStatement c lexer0 lexer opToken hop hkind, hassign]
    rfl
  · intro hkind v hv
    refine ⟨harith c v hv, ?_⟩
    rw [compileLoop_arithmetic fuel isFirstStatement c lexer0 lexer opToken hop hkind,
      harith _ v (by rw [hvars]; exact hv)]
    rfl

theorem literal_not_integer_aborts_witness :
    (getNextToken ⟨badAssignProgram, 0⟩ = .ok (⟨.VAR_ASSIGN, [':']⟩, ⟨badAssignProgram, 1⟩) ∧
      getNextToken ⟨badAssignProgram, 1⟩ = .ok (⟨.TEXT, ['x']⟩, ⟨badAssignProgram, 2⟩) ∧
      getNextToken ⟨badAssignProgram, 2⟩ =
        .ok (⟨.TEXT, ['a', 'b', 'c']⟩, ⟨badAssignProgram, 6⟩) ∧
      stoi ['a', 'b', 'c'] = .error .stoiInvalidArgument) ∧
    (processVarAssign ⟨badAssignProgram, 1⟩ (Compiler.new badAssignProgram) =
        .error .stoiInvalidArgument ∧
      compileLoop (0 + 1) ⟨badAssignProgram, 0⟩ true (Compiler.new badAssignProgram) =
        .raised .stoiInvalidArgument) ∧
    (getNextToken ⟨badAddProgram, 3⟩ = .ok (⟨.ADD, ['+']⟩, ⟨badAddProgram, 4⟩) ∧
      getNextToken ⟨badAddProgram, 4⟩ = .ok (⟨.TEXT, ['x']⟩, ⟨badAddProgram, 5⟩) ∧
      getNextToken ⟨badAddProgram, 5⟩ = .ok (⟨.TEXT, ['a', 'b', 'c']⟩, ⟨badAddProgram, 9⟩) ∧
      ((Compiler.new badAddProgram).assign ['x'] 0).vars.find ['x'] = some 0) ∧
    (processArithmetic ⟨.ADD, ['+']⟩ ⟨badAddProgram, 4⟩
        ((Compiler.new badAddProgram).assign ['x'] 0) = .error .stoiInvalidArgument ∧
      compileLoop (0 + 1) ⟨badAddProgram, 3⟩ false ((Compiler.new badAddProgram).assign ['x'] 0) =
        .raised .stoiInvalidArgument) :=
  ⟨⟨by decide, by decide, by decide, by decide⟩,
    (literal_not_integer_aborts 0 true (Compiler.new badAssignProgram) ⟨badAssignProgram, 0⟩
      ⟨badAssignProgram, 1⟩ ⟨badAssignProgram, 2⟩ ⟨badAssignProgram, 6⟩ ⟨.VAR_ASSIGN, [':']⟩
      ['x'] ['a', 'b', 'c'] .stoiInvalidArgument (by decide) (by decide) (by decide)
      (by decide)).1 (by decide),
    ⟨by decide, by decide, by decide, by decide⟩,
    (literal_not_integer_aborts 0 false ((Compiler.new badAddProgram).assign ['x'] 0)
      ⟨badAddProgram, 3⟩ ⟨badAddProgram, 4⟩ ⟨badAddProgram, 5⟩ ⟨badAddProgram, 9⟩
      ⟨.ADD, ['+']⟩ ['x'] ['a', 'b', 'c'] .stoiInvalidArgument (by decide) (by decide)
      (by decide) (by decide)).2 (by decide) 0 (by decide)⟩

/-- The programs `:x abc B` and `&x +x abc B` run whole: the literal `abc`
makes `stoi` raise `invalid_argument`, the run never comes to the text `B`, and
no run of either program returns. -/
theorem literal_not_integer_examples :
    processVarAssign ⟨badAssignProgram, 1⟩ (Compiler.new badAssignProgram) =
      .error .stoiInvalidArgument ∧
    (∀ n, compile (n + 1) (Compiler.new badAssignProgram) = .raised .stoiInvalidArgument) ∧
    (∀ fuel c', compile fuel (Compiler.new badAssignProgram) ≠ .done c') ∧
    (∀ n, compile (n + 2) (Compiler.new badAddProgram) = .raised .stoiInvalidArgument) ∧
    (∀ fuel c', compile fuel (Compiler.new badAddProgram) ≠ .done c') := by
  have h1 : ∀ n, compile (n + 1) (Compiler.new badAssignProgram) =
      .raised .stoiInvalidArgument := fun _ => rfl
  have h2 : ∀ n, compile (n + 2) (Compiler.new badAddProgram) =
      .raised .stoiInvalidArgument := fun _ => rfl
  refine ⟨by decide, h1, ?_, h2, ?_⟩
  · intro fuel c' h
    match fuel, h with
    | 0, h =>
      have h0 : compile 0 (Compiler.new badAssignProgram) = .fuelOut := by decide
      rw [h0] at h
      cases h
    | n + 1, h =>
      rw [h1 n] at h
      cases h
  · intro fuel c' h
    match fuel, h with
    | 0, h =>
      have h0 : compile 0 (Compiler.new badAddProgram) = .fuelOut := by decide
      rw [h0] at h
      cases h
    | 1, h =>
      have h0 : compile 1 (Compiler.new badAddProgram) = .fuelOut := by decide
      rw [h0] at h
      cases h
    | n + 2, h =>
      rw [h2 n] at h
      cases h

/-- The sibling path of the same handlers: a value token that is no TEXT is
reported as an invalid value and the handler returns, so the run goes on. -/
theorem invalid_value_reported_example :
    processVarAssign ⟨[':', 'x', ' ', '&', ' ', 'B'], 1⟩
        (Compiler.new [':', 'x', ' ', '&', ' ', 'B']) =
      .ok (⟨[':', 'x', ' ', '&', ' ', 'B'], 4⟩,
        (Compiler.new [':', 'x', ' ', '&', ' ', 'B']).report .invalidValue) ∧
    compile 3 (Compiler.new [':', 'x', ' ', '&', ' ', 'B']) =
      .done { Compiler.new [':', 'x', ' ', '&', ' ', 'B'] with
        output := ['B'], cerr := [.invalidValue], cout := [.welcome, .completed] } := by
  decide

/-! ## C11, C13: nested runs of `compile` -/

/-- The first round of the main loop on `forProgram`: the declaration of `x`. -/
theorem forProgram_round1 (fuel : Nat) (c : Compiler) :
    compileLoop (fuel + 1) ⟨forProgram, 0⟩ true c =
      compileLoop fuel ⟨forProgram, 2⟩ false ((c.say .welcome).assign ['x'] 0) :=
  rfl

/-- The second round of the main loop on `forProgram`: the FOR statement runs
its loop from 1 to 3, and every iteration calls `compile` on the whole source
again. -/
theorem forProgram_round2 (fuel : Nat) (c : Compiler) (v : Int)
    (hx : c.vars.find ['x'] = some v) :
    compileLoop (fuel + 1) ⟨forProgram, 2⟩ false c =
      match forLoop (fun c => compileLoop fuel (Lexer.new c.source) true c) ['x'] 3 fuel 1 c with
      | .done c => compileLoop fuel ⟨forProgram, 15⟩ false c
      | .raised e => .raised e
      | .fuelOut => .fuelOut := by
  have h2 : getNextToken ⟨forProgram, 2⟩ = .ok (⟨.FOR, ['f', 'o', 'r']⟩, ⟨forProgram, 7⟩) := by
    decide
  have h7 : getNextToken ⟨forProgram, 7⟩ = .ok (⟨.TEXT, ['x']⟩, ⟨forProgram, 9⟩) := by decide
  have h9 : getNextToken ⟨forProgram, 9⟩ = .ok (⟨.VAR_ASSIGN, [':']⟩, ⟨forProgram, 11⟩) := by
    decide
  have h11 : getNextToken ⟨forProgram, 11⟩ = .ok (⟨.TEXT, ['1']⟩, ⟨forProgram, 13⟩) := by
    decide
  have h13 : getNextToken ⟨forProgram, 13⟩ = .ok (⟨.TEXT, ['3']⟩, ⟨forProgram, 15⟩) := by
    decide
  have hs1 : stoi ['1'] = .ok 1 := by decide
  have hs3 : stoi ['3'] = .ok 3 := by decide
  rw [compileLoop, h2]
  dsimp only
  rw [if_neg (by decide)]
  unfold processForLoop
  rw [h7]
  dsimp only
  rw [if_neg (by decide)]
  simp only [Bool.false_eq_true, ↓reduceIte]
  rw [hx]
  dsimp only
  rw [h9]
  dsimp only
  rw [if_neg (by decide), h11]
  dsimp only
  rw [if_neg (by decide), hs1]
  dsimp only
  rw [h13]
  dsimp only
  rw [if_neg (by decide), hs3]
  dsimp only
  cases forLoop (fun c => compileLoop fuel (Lexer.new c.source) true c) ['x'] 3 fuel 1 c <;> rfl

/-- The run of `forProgram` never ends: the first iteration of the loop calls
`compile`, which reads the program from its first character, declares `x` and
comes to the same FOR statement again. -/
theorem forProgram_diverges :
    ∀ (fuel : Nat) (c : Compiler), c.source = forProgram → compile fuel c = .fuelOut := by
  intro fuel
  induction fuel using Nat.strong_induction_on with
  | _ fuel ih =>
    intro c hsrc
    unfold compile
    rw [hsrc]
    match fuel, ih with
    | 0, _ => rfl
    | 1, _ => rfl
    | 2, _ =>
      show compileLoop (1 + 1) ⟨forProgram, 0⟩ true c = _
      rw [forProgram_round1, forProgram_round2 0 _ 0 (Variables.find_set_same _ _ _)]
      rfl
    | n + 3, ih =>
      show compileLoop ((n + 2) + 1) ⟨forProgram, 0⟩ true c = _
      rw [forProgram_round1, forProgram_round2 (n + 1) _ 0 (Variables.find_set_same _ _ _)]
      have hnested : compileLoop (n + 1)
          (Lexer.new ((((c.say .welcome).assign ['x'] 0).assign ['x'] 1)).source) true
          (((c.say .welcome).assign ['x'] 0).assign ['x'] 1) = .fuelOut :=
        ih (n + 1) (by omega) _ hsrc
      rw [forLoop, if_pos (by decide), hnested]

/-- C11, the behaviour of the code: the program `&x ffor x : 1 3 A` has the
token stream of the claim (declaration of `x`, FOR `x` `:` `1` `3`, TEXT `A`),
but its interpretation never ends: the run is out of fuel for every amount of
fuel, because each iteration calls `compile()`, which opens the source file
again and starts from the declaration.  With the keyword spelled `for` the
lexer raises instead. -/
theorem for_loop_never_ends :
    (programTokens forProgram).map Token.type =
      [.VAR_DECL, .TEXT, .FOR, .TEXT, .VAR_ASSIGN, .TEXT, .TEXT, .TEXT] ∧
    (∀ fuel, compile fuel (Compiler.new forProgram) = .fuelOut) ∧
    (∀ fuel c', compile fuel (Compiler.new forProgram) ≠ .done c') ∧
    (∀ n, compile (n + 2) (Compiler.new
      ['&', 'x', ' ', 'f', 'o', 'r', ' ', 'x', ' ', ':', ' ', '1', ' ', '3', ' ', 'A']) =
        .raised .unexpectedToken) := by
  refine ⟨by decide, fun fuel => forProgram_diverges fuel _ rfl, ?_, fun _ => rfl⟩
  intro fuel c' h
  rw [forProgram_diverges fuel _ rfl] at h
  cases h

/-- An `if` on a declared variable that is not 0 runs `compile` and then
returns with the lexer right behind the condition. -/
theorem processIfStatement_nonzero (compile : Compiler → Run Compiler) (lexer lexer1 : Lexer)
    (c : Compiler) (name : List Char) (v : Int)
    (hname : getNextToken lexer = .ok (⟨.TEXT, name⟩, lexer1))
    (hv : c.vars.find name = some v) (hne : v ≠ 0) :
    processIfStatement compile lexer c =
      match compile c with
      | .done c => .done (lexer1, c)
      | .raised e => .raised e
      | .fuelOut => .fuelOut := by
  unfold processIfStatement
  rw [hname]
  dsimp only
  rw [if_neg (by simp), hv]
  dsimp only
  rw [if_pos hne]

/-- The first two rounds of the main loop on `ifProgram`: `x` is declared and
set to 1. -/
theorem ifProgram_round12 (fuel : Nat) (c : Compiler) :
    compileLoop (fuel + 2) ⟨ifProgram, 0⟩ true c =
      compileLoop fuel ⟨ifProgram, 7⟩ false (((c.say .welcome).assign ['x'] 0).assign ['x'] 1) :=
  rfl

/-- The third round of the main loop on `ifProgram`: the nested run of the
`if` is the main loop on a new lexer at position 0 of the source. -/
theorem ifProgram_round3 (fuel : Nat) (c : Compiler) (v : Int)
    (hx : c.vars.find ['x'] = some v) (hne : v ≠ 0) :
    compileLoop (fuel + 1) ⟨ifProgram, 7⟩ false c =
      match compileLoop fuel (Lexer.new c.source) true c with
      | .done c => compileLoop fuel ⟨ifProgram, 13⟩ false c
      | .raised e => .raised e
      | .fuelOut => .fuelOut := by
  have h7 : getNextToken ⟨ifProgram, 7⟩ = .ok (⟨.IF, ['i', 'f']⟩, ⟨ifProgram, 11⟩) := by decide
  have h11 : getNextToken ⟨ifProgram, 11⟩ = .ok (⟨.TEXT, ['x']⟩, ⟨ifProgram, 13⟩) := by decide
  rw [compileLoop_if fuel false c ⟨ifProgram, 7⟩ ⟨ifProgram, 11⟩ ⟨.IF, ['i', 'f']⟩ h7 rfl]
  simp only [Bool.false_eq_true, ↓reduceIte]
  rw [processIfStatement_nonzero _ ⟨ifProgram, 11⟩ ⟨ifProgram, 13⟩ c ['x'] v h11 hx hne]
  cases compileLoop fuel (Lexer.new c.source) true c <;> rfl

/-- The run of `ifProgram` never ends: the nested run of the `if` reads the
program from its first character, sets `x` to 1 and comes to the same `if`. -/
theorem ifProgram_diverges :
    ∀ (fuel : Nat) (c : Compiler), c.source = ifProgram → compile fuel c = .fuelOut := by
  intro fuel
  induction fuel using Nat.strong_induction_on with
  | _ fuel ih =>
    intro c hsrc
    unfold compile
    rw [hsrc]
    match fuel, ih with
    | 0, _ => rfl
    | 1, _ => rfl
    | 2, _ => rfl
    | n + 3, ih =>
      show compileLoop ((n + 1) + 2) ⟨ifProgram, 0⟩ true c = _
      have hfind : (((c.say .welcome).assign ['x'] 0).assign ['x'] 1).vars.find ['x'] =
          some 1 := Variables.find_set_same _ _ _
      rw [ifProgram_round12, ifProgram_round3 n _ 1 hfind (by decide)]
      have hnested : compileLoop n
          (Lexer.new (((c.say .welcome).assign ['x'] 0).assign ['x'] 1).source) true
          (((c.say .welcome).assign ['x'] 0).assign ['x'] 1) = .fuelOut :=
        ih n (by omega) _ hsrc
      rw [hnested]

/-- C13, the behaviour of the code: the nested run of an `if` on a variable
that is not 0 does not go on behind the condition, it is `compile()` on the
whole source.  The program `&x :x 1 iif x A` has the token stream declaration,
assignment, IF `x`, TEXT `A`, and its interpretation never ends.  In
`rerunProgram` the nested run returns: it has interpreted the statement `-x 1`
in front of the `if` a second time, so that `x` ends as 0 and not as 1. -/
theorem if_nonzero_restarts_program :
    (programTokens ifProgram).map Token.type =
      [.VAR_DECL, .TEXT, .VAR_ASSIGN, .TEXT, .TEXT, .IF, .TEXT, .TEXT] ∧
    (∀ fuel, compile fuel (Compiler.new ifProgram) = .fuelOut) ∧
    (∀ fuel c', compile fuel (Compiler.new ifProgram) ≠ .done c') ∧
    compile 12 (Compiler.new rerunProgram) =
      .done { Compiler.new rerunProgram with
        vars := [(['x'], 0)], output := ['1', 'Z', 'B'],
        cerr := [.undeclaredVariable, .undeclaredVariable, .missingElse],
        cout := [.welcome, .welcome, .completed, .completed] } := by
  refine ⟨by decide, fun fuel => ifProgram_diverges fuel _ rfl, ?_, by decide⟩
  intro fuel c' h
  rw [ifProgram_diverges fuel _ rfl] at h
  cases h

end Taebak
